import Mathlib

/-!
# Batwa ledger engine: UTXO index, block acceptance and difficulty retargeting

A shallow embedding of `src/blockchain/blockchain.go` and
`src/blockchain/unspent.go`.

* Go byte slices and Go strings are lists of byte values (`Bytes`,
  `GoString`); `string(b)` and `[]byte(s)` keep the content, so both
  conversions are the identity here.
* Go `int` and `int64` are `Int` values; every arithmetic result is reduced
  with `wrap64` (two's complement, 64 bits).
* `math/big` integers are unbounded `Int` values; `big.Int.Int64` is
  `bigInt64`, the low 64 bits of the magnitude with the sign applied.
* A run-time panic is an `Except.error` carrying a `GoPanic`.
* `SanitizePubKey`, `Block.Verify` and `Block.VerifyOld` are not part of the
  two source files; they are parameters (`sanitize`, `verify`, `verifyOld`)
  of every definition that calls them.
* The clock reading `time.Now().Unix()` and the outcome of decoding an
  inbound packet are arguments of the definitions that use them.
-/

namespace Batwa

/-! ## Primitives -/

/-- A Go byte slice, one natural number below 256 per byte. -/
abbrev Bytes := List Nat

/-- A Go string: an immutable byte sequence. -/
abbrev GoString := List Nat

/-- Two's complement reduction of an integer to the `int64` range. -/
def wrap64 (x : Int) : Int := (x + 2 ^ 63) % 2 ^ 64 - 2 ^ 63

/-- The value `big.Int.Int64` returns: the low 64 bits of the magnitude read
as an `int64`, negated (with wrap-around) when the number is negative. -/
def bigInt64 (x : Int) : Int :=
  let v := wrap64 ((x.natAbs % 2 ^ 64 : Nat) : Int)
  if x < 0 then wrap64 (-v) else v

/-- Modelled from the spec: the helper `compare` is declared outside the two
source files; "Equality and ordering are byte-wise", so it is the
lexicographic three-way comparison of two byte slices (0 exactly when they
are equal). -/
def compare : Bytes → Bytes → Int
  | [], [] => 0
  | [], _ :: _ => -1
  | _ :: _, [] => 1
  | a :: as, b :: bs => if a < b then -1 else if b < a then 1 else compare as bs

/-- The number `big.Int.SetString(hex.EncodeToString(bs), 16)` leaves in the
receiver: the bytes read as a big-endian unsigned integer (0 for no bytes). -/
def bigOfBytes (bs : Bytes) : Nat := bs.foldl (fun acc b => acc * 256 + b) 0

/-- Worker of `bigBytes`: peel off the low byte until nothing is left. -/
def bigBytesAux : Nat → Nat → Bytes → Bytes
  | 0, _, acc => acc
  | fuel + 1, n, acc => if n = 0 then acc else bigBytesAux fuel (n / 256) (n % 256 :: acc)

/-- The slice `big.Int.Bytes` returns: the minimal big-endian byte
representation of the magnitude (empty for zero). -/
def bigBytes (n : Nat) : Bytes := bigBytesAux n n []

/-- The padding loop of `adjustDifficulty` (lines 418-420): prepend a zero
byte while the slice is shorter than `n`. -/
def padTo (n : Nat) (bs : Bytes) : Bytes := List.replicate (n - bs.length) 0 ++ bs

/-- Decimal digits of a natural number as ASCII bytes. -/
def decimalBytes (n : Nat) : Bytes := (Nat.toDigits 10 n).map Char.toNat

/-- The string `strconv.FormatInt(h, 10)`. -/
def formatInt (h : Int) : GoString :=
  if h < 0 then 45 :: decimalBytes h.natAbs else decimalBytes h.natAbs

/-- The bytes of an ASCII string literal. -/
def strLit (s : String) : GoString := s.toList.map Char.toNat

/-- The run-time panics the modelled code can raise. -/
inductive GoPanic where
  | indexOutOfRange
  | integerDivideByZero
  | bigDivisionByZero
  deriving DecidableEq

/-! ## Data model -/

/-- An input: a reference to an output of an earlier transaction. -/
structure TxIn where
  PrevHash : Bytes
  PrevIdx : Int
  deriving DecidableEq

/-- An output: a value assigned to an address. -/
structure TxOut where
  Value : Int
  Address : Bytes
  deriving DecidableEq

/-- The stamp of a transaction: public key, signature, content hash. -/
structure Stamp where
  Pub : Bytes
  Sig : Bytes
  Hash : Bytes
  deriving DecidableEq

/-- A transaction. -/
structure Transaction where
  Ins : List TxIn
  Outs : List TxOut
  Stamp : Stamp
  deriving DecidableEq

/-- A block header. -/
structure BlockHeader where
  Height : Int
  Timestamp : Int
  PrecHash : Bytes
  Hash : Bytes
  Target : Bytes
  Nonce : Int
  deriving DecidableEq

/-- A block. -/
structure Block where
  Header : BlockHeader
  Transactions : List Transaction
  deriving DecidableEq

/-- An unspent transaction output (blockchain.go, lines 26-31). -/
structure UnspentTxOut where
  Out : TxOut
  TxHash : Bytes
  InIdx : Int
  IsTargeted : Bool
  deriving DecidableEq

/-- A history entry (blockchain.go, lines 33-37). -/
structure HistoryTx where
  Address : GoString
  Timestamp : Int
  Amount : Int
  deriving DecidableEq

/-- The map `unspentTxOut`: a missing key reads as the nil slice. -/
abbrev UtxoIndex := GoString → List UnspentTxOut

/-- The ledger fields of `Blockchain` (blockchain.go, lines 39-56);
`mainPub` is `wallets["main.key"].pub`, the main wallet being loaded. -/
structure Blockchain where
  headers : List BlockHeader
  baseTarget : Bytes
  lastTarget : Bytes
  mainPub : Bytes
  unspentTxOut : UtxoIndex
  pendingTransactions : List Transaction
  history : List HistoryTx

/-- Assignment `m[k] = v` on the map. -/
def setKey (m : UtxoIndex) (k : GoString) (v : List UnspentTxOut) : UtxoIndex :=
  fun k' => if k' = k then v else m k'

/-- A pointer `&unspentTxOut[key][idx]` into a slice of the map. -/
structure UtxoPtr where
  key : GoString
  idx : Nat
  deriving DecidableEq

/-! ## The UTXO index (unspent.go) -/

/-- The loop of `getCorrespondingOutTx` (lines 18-22): position of the first
entry with the input's index and hash, counting from `i`. -/
def findMatch (inp : TxIn) : List UnspentTxOut → Nat → Option Nat
  | [], _ => none
  | out :: rest, i =>
    if out.InIdx = inp.PrevIdx ∧ compare out.TxHash inp.PrevHash = 0 then some i
    else findMatch inp rest (i + 1)

/-- The function `getCorrespondingOutTx` (unspent.go, lines 9-25). -/
def getCorrespondingOutTx (sanitize : Bytes → GoString) (m : UtxoIndex) (wallet : Bytes)
    (inp : TxIn) : Option UtxoPtr :=
  let walletStr := sanitize wallet
  (findMatch inp (m walletStr) 0).map (fun i => UtxoPtr.mk walletStr i)

/-- The function `RemoveUnspentOut` (unspent.go, lines 88-105): search the slice under the
sanitized wallet for the element the pointer designates and cut it out. -/
def RemoveUnspentOut (sanitize : Bytes → GoString) (m : UtxoIndex) (wallet : Bytes)
    (out : UtxoPtr) : UtxoIndex :=
  let walletStr := sanitize wallet
  let found := (List.range (m walletStr).length).foldl
    (fun idx i => if UtxoPtr.mk walletStr i = out then some i else idx) none
  match found with
  | none => m
  | some idx => setKey m walletStr ((m walletStr).take idx ++ (m walletStr).drop (idx + 1))

/-- The loop over `tx.Ins` in `UpdateUnspentTxOuts` (lines 42-52). The flag
is `false` when a lookup failed and the function returned at line 48. -/
def insLoop (sanitize : Bytes → GoString) (pub : Bytes) : List TxIn → UtxoIndex → UtxoIndex × Bool
  | [], m => (m, true)
  | inp :: rest, m =>
    match getCorrespondingOutTx sanitize m pub inp with
    | none => (m, false)
    | some out => insLoop sanitize pub rest (RemoveUnspentOut sanitize m pub out)

/-- The local variables `txValue`, `addr` and the map while the outputs of
one transaction are processed. -/
structure TxAcc where
  txValue : Int
  addr : GoString
  unspent : UtxoIndex

/-- The history label of a mined block (line 66). -/
def minerFeeLabel (height : Int) : GoString :=
  strLit "Miner fee (Block " ++ formatInt height ++ strLit ")"

/-- One iteration of the loop over `tx.Outs` (lines 55-75). -/
def outStep (own : Bool) (ownAddrStr : Bytes) (nIns nOuts : Nat) (height : Int) (hash : Bytes)
    (acc : TxAcc) (i : Nat) (out : TxOut) : TxAcc :=
  let acc1 : TxAcc :=
    if own = true ∧ compare out.Address ownAddrStr ≠ 0 then
      { acc with txValue := wrap64 (acc.txValue - out.Value), addr := out.Address }
    else acc
  let acc2 : TxAcc :=
    if own = false ∧ compare out.Address ownAddrStr = 0 then
      { acc1 with txValue := wrap64 (acc1.txValue + out.Value) }
    else acc1
  let acc3 : TxAcc :=
    if nIns = 0 ∧ nOuts = 1 ∧ compare out.Address ownAddrStr = 0 then
      { acc2 with txValue := wrap64 (acc2.txValue + out.Value), addr := minerFeeLabel height }
    else acc2
  let walletStr : GoString := out.Address
  let entry : UnspentTxOut := UnspentTxOut.mk out hash (i : Int) false
  { acc3 with unspent := setKey acc3.unspent walletStr (acc3.unspent walletStr ++ [entry]) }

/-- The loop over `tx.Outs` (lines 54-76), from output number `i` on. -/
def outsLoop (own : Bool) (ownAddrStr : Bytes) (nIns nOuts : Nat) (height : Int) (hash : Bytes) :
    List TxOut → Nat → TxAcc → TxAcc
  | [], _, acc => acc
  | out :: rest, i, acc =>
    outsLoop own ownAddrStr nIns nOuts height hash rest (i + 1)
      (outStep own ownAddrStr nIns nOuts height hash acc i out)

/-- The body of the loop over `block.Transactions` (lines 29-84) for one
transaction; the flag is `false` when the function returned at line 48. -/
def applyTx (sanitize : Bytes → GoString) (block : Block) (s : Blockchain) (tx : Transaction) :
    Blockchain × Bool :=
  let hash := tx.Stamp.Hash
  let ownAddrStr : Bytes := sanitize s.mainPub
  let addr := sanitize tx.Stamp.Pub
  let own : Bool := decide (compare tx.Stamp.Pub s.mainPub = 0)
  match insLoop sanitize tx.Stamp.Pub tx.Ins s.unspentTxOut with
  | (m, false) => ({ s with unspentTxOut := m }, false)
  | (m, true) =>
    let acc := outsLoop own ownAddrStr tx.Ins.length tx.Outs.length block.Header.Height hash
      tx.Outs 0 (TxAcc.mk 0 addr m)
    let hist :=
      if acc.txValue ≠ 0 then
        s.history ++ [HistoryTx.mk acc.addr block.Header.Timestamp acc.txValue]
      else s.history
    ({ s with unspentTxOut := acc.unspent, history := hist }, true)

/-- The loop over `block.Transactions` (line 28), stopping at the first
transaction whose processing returned early. -/
def txLoop (sanitize : Bytes → GoString) (block : Block) :
    List Transaction → Blockchain → Blockchain × Bool
  | [], s => (s, true)
  | tx :: rest, s =>
    match applyTx sanitize block s tx with
    | (s1, false) => (s1, false)
    | (s1, true) => txLoop sanitize block rest s1

/-- The function `UpdateUnspentTxOuts` (unspent.go, lines 27-86): the state it
leaves. -/
def UpdateUnspentTxOuts (sanitize : Bytes → GoString) (s : Blockchain) (block : Block) :
    Blockchain :=
  (txLoop sanitize block block.Transactions s).1

/-- Whether `UpdateUnspentTxOuts` ran through the whole block, that is every
input lookup succeeded and the return at line 48 was never taken. -/
def updateCompletes (sanitize : Bytes → GoString) (s : Blockchain) (block : Block) : Bool :=
  (txLoop sanitize block block.Transactions s).2

/-- The sum a Go loop `total += v` computes over `int` values. -/
def goSum (vs : List Int) : Int := vs.foldl (fun total v => wrap64 (total + v)) 0

/-- The function `GetAvailableFunds` (unspent.go, lines 134-146). -/
def GetAvailableFunds (sanitize : Bytes → GoString) (s : Blockchain) (wallet : Bytes) : Int :=
  let walletStr := sanitize wallet
  (s.unspentTxOut walletStr).foldl (fun total out => wrap64 (total + out.Out.Value)) 0

/-- The loop of `GetEnoughOwnUnspentOut` (lines 113-125) with its running
`total` and `res`. -/
def selectLoop (value : Int) : List UnspentTxOut → Int → List UnspentTxOut →
    Int × List UnspentTxOut
  | [], total, res => (total, res)
  | unspent :: rest, total, res =>
    if unspent.IsTargeted = true then selectLoop value rest total res
    else
      let total1 := wrap64 (total + unspent.Out.Value)
      let res1 := res ++ [unspent]
      if total1 > value then (total1, res1) else selectLoop value rest total1 res1

/-- The function `GetEnoughOwnUnspentOut` (unspent.go, lines 107-132). -/
def GetEnoughOwnUnspentOut (sanitize : Bytes → GoString) (s : Blockchain) (value : Int) :
    List UnspentTxOut :=
  let walletStr := sanitize s.mainPub
  let r := selectLoop value (s.unspentTxOut walletStr) 0 []
  if r.1 < value then [] else r.2

/-! ## Difficulty retargeting and block acceptance (blockchain.go) -/

/-- The constant `EXPECTED_10_BLOCKS_TIME` (line 24). -/
def EXPECTED_10_BLOCKS_TIME : Int := 600

/-- The base target `New` installs (line 73): 32 bytes, three zero bytes
followed by twenty-nine bytes 0xFF. -/
def baseTargetBytes : Bytes := List.replicate 3 0 ++ List.replicate 29 255

/-- The product `oldDiff * (EXPECTED_10_BLOCKS_TIME / timePassed)` of line
399, before any clamp; the division is Go's truncated `int64` division. -/
def unclampedDiff (oldDiff timePassed : Int) : Int :=
  oldDiff * Int.tdiv EXPECTED_10_BLOCKS_TIME timePassed

/-- The three clamps of lines 401-413, each decided on `Int64()` values. -/
def clampDiff (oldDiff newDiff : Int) : Int :=
  let test1 := oldDiff * 4
  let n1 := if bigInt64 newDiff > bigInt64 test1 then test1 else newDiff
  let test2 := Int.tdiv oldDiff 4
  let n2 := if bigInt64 n1 < bigInt64 test2 then test2 else n1
  if bigInt64 n2 < 1 then 1 else n2

/-- The new difficulty of lines 398-413 for an old difficulty and a non-zero
elapsed time. -/
def retargetDiff (oldDiff timePassed : Int) : Int :=
  clampDiff oldDiff (unclampedDiff oldDiff timePassed)

/-- The old difficulty `base / actual` of line 394 (`big.Int.Quo` panics on
a zero divisor). -/
def oldDifficulty (baseTarget target : Bytes) : Except GoPanic Int :=
  let base : Int := bigOfBytes baseTarget
  let actual : Int := bigOfBytes target
  if actual = 0 then .error .bigDivisionByZero else .ok (Int.tdiv base actual)

/-- The elapsed time of line 396: the slice index panics when out of range,
the subtraction wraps. -/
def elapsedTime (headers : List BlockHeader) (header : BlockHeader) : Except GoPanic Int :=
  let i := wrap64 (header.Height - 10)
  if i < 0 then .error .indexOutOfRange
  else
    match headers[i.toNat]? with
    | none => .error .indexOutOfRange
    | some h => .ok (wrap64 (header.Timestamp - h.Timestamp))

/-- Lines 388-413 of `adjustDifficulty`: the pair `(oldDiff, newDiff)` from
which the new target is derived. -/
def retargetDiffs (s : Blockchain) (block : Block) : Except GoPanic (Int × Int) :=
  match oldDifficulty s.baseTarget block.Header.Target with
  | .error e => .error e
  | .ok oldDiff =>
    match elapsedTime s.headers block.Header with
    | .error e => .error e
    | .ok timePassed =>
      if timePassed = 0 then .error .integerDivideByZero
      else .ok (oldDiff, retargetDiff oldDiff timePassed)

/-- Lines 415-420 of `adjustDifficulty`: the padded bytes of `base / newDiff`. -/
def targetOfDiff (baseTarget : Bytes) (newDiff : Int) : Except GoPanic Bytes :=
  if newDiff = 0 then .error .bigDivisionByZero
  else .ok (padTo baseTarget.length
    (bigBytes (Int.tdiv (bigOfBytes baseTarget : Int) newDiff).natAbs))

/-- The function `adjustDifficulty` (blockchain.go, lines 387-421). -/
def adjustDifficulty (s : Blockchain) (block : Block) : Except GoPanic Blockchain :=
  match retargetDiffs s block with
  | .error e => .error e
  | .ok (_, newDiff) =>
    match targetOfDiff s.baseTarget newDiff with
    | .error e => .error e
    | .ok t => .ok { s with lastTarget := t }

/-- Modelled from the spec: `RemovePendingTransaction` is defined outside the
two source files; "remove B's transactions from pending", the pool being
"keyed by stamp.hash". -/
def RemovePendingTransaction (s : Blockchain) (txs : List Transaction) : Blockchain :=
  let inBlock : Transaction → Bool :=
    fun p => txs.any (fun t => decide (compare t.Stamp.Hash p.Stamp.Hash = 0))
  { s with pendingTransactions := s.pendingTransactions.filter (fun p => !(inBlock p)) }

/-- The function `AddBlock` (blockchain.go, lines 359-385). `verify` stands for
`block.Verify(this)`, a pure predicate on the state and the block; the two
snapshot writes only log. -/
def AddBlock (verify : Blockchain → Block → Bool) (sanitize : Bytes → GoString)
    (s : Blockchain) (block : Block) : Except GoPanic (Bool × Blockchain) :=
  if verify s block = false then .ok (false, s)
  else
    let s1 : Blockchain := { s with headers := s.headers ++ [block.Header] }
    let s2 := UpdateUnspentTxOuts sanitize s1 block
    let s3 := RemovePendingTransaction s2 block.Transactions
    if Int.tmod block.Header.Height 10 = 0 then
      match adjustDifficulty s3 block with
      | .error e => .error e
      | .ok s4 => .ok (true, s4)
    else .ok (true, s3)

/-! ## Reading results and accounting vocabulary -/

/-- Equality of results is decidable when equality of both payloads is. -/
instance exceptDecEq {ε α : Type} [DecidableEq ε] [DecidableEq α] : DecidableEq (Except ε α)
  | .ok a, .ok b =>
    if h : a = b then isTrue (by rw [h]) else isFalse (by intro c; injection c; contradiction)
  | .error a, .error b =>
    if h : a = b then isTrue (by rw [h]) else isFalse (by intro c; injection c; contradiction)
  | .ok _, .error _ => isFalse (by intro c; cases c)
  | .error _, .ok _ => isFalse (by intro c; cases c)

/-- The value a call returned, if it returned. -/
def okOf {α : Type} : Except GoPanic α → Option α
  | .ok a => some a
  | .error _ => none

/-- The panic a call raised, if it panicked. -/
def panicOf {α : Type} : Except GoPanic α → Option GoPanic
  | .ok _ => none
  | .error e => some e

/-- The entries the loop over `tx.Outs` appends for the outputs `outs`,
numbered from `i`, of a transaction with content hash `hash`. -/
def createdFrom (hash : Bytes) : List TxOut → Nat → List UnspentTxOut
  | [], _ => []
  | o :: rest, i => UnspentTxOut.mk o hash (i : Int) false :: createdFrom hash rest (i + 1)

/-- The entries one transaction creates, one per output, in order. -/
def createdBy (tx : Transaction) : List UnspentTxOut := createdFrom tx.Stamp.Hash tx.Outs 0

/-- The entries the transactions create under the key `K`, in block order. -/
def createdUnder (K : GoString) : List Transaction → List UnspentTxOut
  | [] => []
  | tx :: txs => (createdBy tx).filter (fun u => decide (u.Out.Address = K)) ++ createdUnder K txs

/-- An index entry answers an input: same transaction hash, same output index. -/
def matchesIn (inp : TxIn) (u : UnspentTxOut) : Prop :=
  u.TxHash = inp.PrevHash ∧ u.InIdx = inp.PrevIdx

/-- Given, per transaction, the list of entries its inputs consumed, the
entries consumed under the key `K`: those of the transactions whose sender
has the sanitized address `K`. -/
def spentUnder (sanitize : Bytes → GoString) (K : GoString) :
    List Transaction → List (List UnspentTxOut) → List UnspentTxOut
  | tx :: txs, sp :: sps =>
    (if sanitize tx.Stamp.Pub = K then sp else []) ++ spentUnder sanitize K txs sps
  | _, _ => []

/-- The total value the outputs of the transactions assign to the address
`K` (exact integer sum). -/
def paidTo (K : GoString) : List Transaction → Int
  | [] => 0
  | tx :: txs =>
    ((tx.Outs.filter (fun o => decide (o.Address = K))).map TxOut.Value).sum + paidTo K txs

/-- The exact integer sum of the values of a list of index entries. -/
def valueSum (us : List UnspentTxOut) : Int := (us.map (fun u => u.Out.Value)).sum

/-! ## Worked examples -/

/-- A header with the given height, timestamp and target. -/
def exampleHeader (height ts : Int) (target : Bytes) : BlockHeader :=
  BlockHeader.mk height ts [] [] target 0

/-- A state as `New` and `Init` leave it: one header at height 0 stamped `ts`,
the base target installed, an empty index; the main key is `[1]`. -/
def exampleState (ts : Int) : Blockchain :=
  Blockchain.mk [exampleHeader 0 ts baseTargetBytes] baseTargetBytes baseTargetBytes [1]
    (fun _ => []) [] []

/-- A block of height 10 without transactions. -/
def exampleBlock (ts : Int) (target : Bytes) : Block :=
  Block.mk (exampleHeader 10 ts target) []

/-- A target above the base target: 32 bytes 0xFF (old difficulty 0). -/
def overTarget : Bytes := List.replicate 32 255

/-- The target `2^231 - 1` (old difficulty 2). -/
def halfTarget : Bytes := [0, 0, 0, 127] ++ List.replicate 28 255

/-- The target `2^172 - 1` (old difficulty `2^60`). -/
def deepTarget : Bytes := List.replicate 10 0 ++ [15] ++ List.replicate 21 255

/-- The target `(2^232 - 1) / (45 * 2^60)` (old difficulty `45 * 2^60`). -/
def skewTarget : Bytes :=
  List.replicate 11 0 ++ [91, 5, 176, 91, 5, 176, 91, 5, 176, 91, 5, 176, 91, 5, 176, 91, 5, 176,
    91, 5, 176]

/-- The state `adjustDifficulty` leaves for `exampleState 0` and a block of
old difficulty 2 mined 300 seconds after the header ten back. -/
def exampleRetargeted : Blockchain :=
  Blockchain.mk (exampleState 0).headers baseTargetBytes
    (padTo 32 (bigBytes ((2 ^ 232 - 1) / 4))) [1] (fun _ => []) [] []

/-- A hexadecimal digit as an ASCII byte. -/
def hexDigit (n : Nat) : Nat := if n < 10 then 48 + n else 87 + n

/-- Modelled from the spec: `SanitizePubKey` is defined outside the two
source files; an address is the "canonical text form of a public key
(sanitized: hex or base-N encoding, length-normalized)". This hexadecimal
encoding instantiates the `sanitize` parameter in the worked examples only;
every general theorem holds for an arbitrary `sanitize`. -/
def hexSanitize (pub : Bytes) : GoString :=
  pub.flatMap (fun b => [hexDigit (b / 16), hexDigit (b % 16)])

/-- A coinbase paying 50 to the address of the key `[1]`. -/
def coinbaseTx : Transaction :=
  Transaction.mk [] [TxOut.mk 50 (hexSanitize [1])] (Stamp.mk [1] [] [7])

/-- The key `[1]` spends output 0 of `coinbaseTx`, paying 50 to the address of
the key `[2]`. -/
def spendTx : Transaction :=
  Transaction.mk [TxIn.mk [7] 0] [TxOut.mk 50 (hexSanitize [2])] (Stamp.mk [1] [] [8])

/-- A block whose second transaction spends the output of its first. -/
def spendBlock : Block := Block.mk (exampleHeader 1 60 baseTargetBytes) [coinbaseTx, spendTx]

/-- A block holding only the coinbase. -/
def coinbaseBlock : Block := Block.mk (exampleHeader 1 60 baseTargetBytes) [coinbaseTx]

/-- The key `[1]` sends 25 of the 50 of `coinbaseTx` to the address of the key
`[2]` and keeps 25 as change. -/
def transferTx : Transaction :=
  Transaction.mk [TxIn.mk [7] 0]
    [TxOut.mk 25 (hexSanitize [2]), TxOut.mk 25 (hexSanitize [1])] (Stamp.mk [1] [] [10])

/-- The block of the send-and-consume scenario: the same miner's next
coinbase, whose content and therefore content hash equal those of the first,
and the transfer. -/
def transferBlock : Block :=
  Block.mk (exampleHeader 2 120 baseTargetBytes) [coinbaseTx, transferTx]

/-- The state after `coinbaseBlock`, the starting point of the
send-and-consume scenario. -/
def fundedState : Blockchain := UpdateUnspentTxOuts hexSanitize (exampleState 0) coinbaseBlock

/-- An index for the selection examples: under the address of the key `[1]`
a reserved entry of 40 followed by free entries of 30, 20 and 10. -/
def selectionState : Blockchain :=
  Blockchain.mk [exampleHeader 0 0 baseTargetBytes] baseTargetBytes baseTargetBytes [1]
    (fun k => if k = hexSanitize [1] then
      [UnspentTxOut.mk (TxOut.mk 40 (hexSanitize [1])) [3] 0 true,
       UnspentTxOut.mk (TxOut.mk 30 (hexSanitize [1])) [4] 0 false,
       UnspentTxOut.mk (TxOut.mk 20 (hexSanitize [1])) [5] 0 false,
       UnspentTxOut.mk (TxOut.mk 10 (hexSanitize [1])) [6] 0 false]
      else []) [] []

/-- A `verify` argument for the examples: the header checks of the spec that
need no hashing ("`h.prec_hash == tip().hash` and `h.height == tip().height + 1`",
"timestamp is strictly greater than tip().timestamp"). -/
def linkVerify (s : Blockchain) (block : Block) : Bool :=
  match s.headers.getLast? with
  | none => false
  | some tip =>
    decide (block.Header.Height = tip.Height + 1)
      && decide (compare block.Header.PrecHash tip.Hash = 0)
      && decide (tip.Timestamp < block.Header.Timestamp)

/-- Ten headers of heights 0 to 9, one minute apart. -/
def steadyHeaders : List BlockHeader :=
  (List.range 10).map (fun i => exampleHeader (i : Int) (60 * (i : Int)) baseTargetBytes)

/-- A chain of ten blocks mined one minute apart. -/
def steadyState : Blockchain :=
  Blockchain.mk steadyHeaders baseTargetBytes baseTargetBytes [1] (fun _ => []) [] []

/-- A target field of 32 zero bytes. -/
def zeroTarget : Bytes := List.replicate 32 0

/-! ## Transfer construction, chain check, difficulty preview, inbound blocks -/

/-- The loop of `GetInOutFromUnspent` (lines 154-161) with its running
`insRes` and `total`. -/
def inOutLoop : List UnspentTxOut → List TxIn → Int → List TxIn × Int
  | [], insRes, total => (insRes, total)
  | out :: rest, insRes, total =>
    inOutLoop rest (insRes ++ [TxIn.mk out.TxHash out.InIdx]) (wrap64 (total + out.Out.Value))

/-- The function `GetInOutFromUnspent` (unspent.go, lines 149-176). -/
def GetInOutFromUnspent (sanitize : Bytes → GoString) (s : Blockchain) (value : Int)
    (destWallet : Bytes) (outs : List UnspentTxOut) : List TxIn × List TxOut :=
  let r := inOutLoop outs [] 0
  let outsRes : List TxOut := [TxOut.mk value destWallet]
  if r.2 > value then
    (r.1, outsRes ++ [TxOut.mk (wrap64 (r.2 - value)) (sanitize s.mainPub)])
  else (r.1, outsRes)

/-- The loop of `AreHeadersGood` (lines 471-477) with its running
`lastHeaderHash`. -/
def headersLoop : Bytes → List BlockHeader → Bool
  | _, [] => true
  | lastHeaderHash, header :: rest =>
    if compare header.PrecHash lastHeaderHash ≠ 0 then false else headersLoop header.Hash rest

/-- The function `AreHeadersGood` (blockchain.go, lines 468-480); `headers[0]`
panics on an empty list. -/
def AreHeadersGood (s : Blockchain) : Except GoPanic Bool :=
  match s.headers with
  | [] => .error .indexOutOfRange
  | first :: rest => .ok (headersLoop first.Hash rest)

/-- The function `Difficulty` (blockchain.go, lines 572-579). -/
def Difficulty (s : Blockchain) : Except GoPanic Int :=
  match oldDifficulty s.baseTarget s.lastTarget with
  | .error e => .error e
  | .ok d => .ok (bigInt64 d)

/-- The number of blocks since the last retarget, lines 596-600 of
`NextDifficulty`: `(len(headers) - 1) % 10`, or 1 when that is 0. -/
def nbBlocksOf (headers : List BlockHeader) : Int :=
  let nbBlocks := wrap64 (Int.tmod (wrap64 ((headers.length : Int) - 1)) 10)
  if nbBlocks = 0 then 1 else nbBlocks

/-- The projected elapsed time of line 602, `(timePassed / nbBlocks) * 10` on
`int64` values. -/
def projectedElapsed (timePassed nbBlocks : Int) : Int :=
  wrap64 (wrap64 (Int.tdiv timePassed nbBlocks) * 10)

/-- The function `NextDifficulty` (blockchain.go, lines 581-626); `now` is the
reading of `time.Now().Unix()`. -/
def NextDifficulty (s : Blockchain) (now : Int) : Except GoPanic Int :=
  match oldDifficulty s.baseTarget s.lastTarget with
  | .error e => .error e
  | .ok oldDiff =>
    match s.headers.getLast? with
    | none => .error .indexOutOfRange
    | some tip =>
      let timePassed := wrap64 (now - tip.Timestamp)
      if timePassed = 0 then .ok (bigInt64 oldDiff)
      else
        let projected := projectedElapsed timePassed (nbBlocksOf s.headers)
        let timePassed2 := if projected = 0 then 1 else projected
        .ok (bigInt64 (retargetDiff oldDiff timePassed2))

/-- The `OnStore` handler registered by `Init` (blockchain.go, lines 101-133).
`decoded` is the outcome of `msgpack.Unmarshal` (`none` for a decoding
error); `verify` and `verifyOld` stand for `block.Verify(this)` and
`block.VerifyOld(this)`, pure predicates. The handler assigns to no field. -/
def OnStore (verify verifyOld : Blockchain → Block → Bool) (s : Blockchain)
    (decoded : Option Block) : Except GoPanic (Bool × Blockchain) :=
  match decoded with
  | none => .ok (false, s)
  | some block =>
    match s.headers.getLast? with
    | none => .error .indexOutOfRange
    | some tip =>
      if block.Header.Height = wrap64 (tip.Height + 1) then .ok (verify s block, s)
      else if block.Header.Height ≤ tip.Height then .ok (verifyOld s block, s)
      else .ok (false, s)

/-- A `verify` argument accepts a block only if its height is the tip's
height plus one. -/
def HeightGate (verify : Blockchain → Block → Bool) : Prop :=
  ∀ s block tip, s.headers.getLast? = some tip → verify s block = true →
    block.Header.Height = tip.Height + 1

/-- The states reachable by calls of `AddBlock`, whatever they return, from a
state whose header list holds the genesis header only. Modelled from the
spec: the genesis block is built by `OriginBlock`, outside the two source
files; its height is 0 ("heights are contiguous from 0"). -/
inductive Reachable (verify : Blockchain → Block → Bool) (sanitize : Bytes → GoString) :
    Blockchain → Prop
  | genesis (s : Blockchain) (g : BlockHeader) :
      s.headers = [g] → g.Height = 0 → Reachable verify sanitize s
  | addBlock (s s2 : Blockchain) (block : Block) (b : Bool) :
      Reachable verify sanitize s →
      AddBlock verify sanitize s block = .ok (b, s2) → Reachable verify sanitize s2

/-- The non-reserved entries of a list, in order. -/
def freeEntries (us : List UnspentTxOut) : List UnspentTxOut :=
  us.filter (fun u => !u.IsTargeted)

/-- Whether an entry answers an input can be computed. -/
instance matchesInDecidable (inp : TxIn) (u : UnspentTxOut) : Decidable (matchesIn inp u) := by
  unfold matchesIn
  infer_instance

/-! ## Further worked examples -/

/-- An index whose two free entries under the address of the key `[1]` are
worth `2^62` each. -/
def heavyState : Blockchain :=
  Blockchain.mk [exampleHeader 0 0 baseTargetBytes] baseTargetBytes baseTargetBytes [1]
    (fun k => if k = hexSanitize [1] then
      [UnspentTxOut.mk (TxOut.mk (2 ^ 62) (hexSanitize [1])) [4] 0 false,
       UnspentTxOut.mk (TxOut.mk (2 ^ 62) (hexSanitize [1])) [5] 0 false]
      else []) [] []

/-- A header list with sound hash links and a jump in the heights. -/
def gappedState : Blockchain :=
  Blockchain.mk
    [BlockHeader.mk 0 0 [] [1] baseTargetBytes 0, BlockHeader.mk 5 60 [1] [2] baseTargetBytes 0]
    baseTargetBytes baseTargetBytes [1] (fun _ => []) [] []

/-- The state `AddBlock` leaves when the block of height 10, stamped one
minute after the ninth, is added to `steadyState`. -/
def steadyRetargeted : Blockchain :=
  Blockchain.mk (steadyHeaders ++ [exampleHeader 10 600 baseTargetBytes]) baseTargetBytes
    (padTo 32 (bigBytes (2 ^ 232 - 1))) [1] (fun _ => []) [] []

/-- A chain of six blocks mined one minute apart (tip stamped 300). -/
def sixState : Blockchain :=
  Blockchain.mk (steadyHeaders.take 6) baseTargetBytes baseTargetBytes [1] (fun _ => []) [] []

/-- A transaction of the key `[1]` whose second input answers no entry. -/
def brokenTx : Transaction :=
  Transaction.mk [TxIn.mk [7] 0, TxIn.mk [99] 3] [TxOut.mk 50 (hexSanitize [2])]
    (Stamp.mk [1] [] [11])

/-- A block whose second transaction fails on its second input, followed by
a further coinbase. -/
def brokenBlock : Block :=
  Block.mk (exampleHeader 2 120 baseTargetBytes) [coinbaseTx, brokenTx, coinbaseTx]

/-- A coinbase-shaped transaction paying 50 to the address of the main key
`[1]` whose stamp carries the key `[2]`. -/
def foreignCoinbaseTx : Transaction :=
  Transaction.mk [] [TxOut.mk 50 (hexSanitize [1])] (Stamp.mk [2] [] [12])

/-- A block whose first transaction fails on its second input, so that the
coinbase behind it is never processed. -/
def stalledBlock : Block :=
  Block.mk (exampleHeader 2 120 baseTargetBytes) [brokenTx, coinbaseTx]

/-- A block holding only `foreignCoinbaseTx`. -/
def foreignCoinbaseBlock : Block :=
  Block.mk (exampleHeader 1 60 baseTargetBytes) [foreignCoinbaseTx]

/-- The target 9 on 32 bytes (old difficulty `(2^232 - 1) / 9`). -/
def nineTarget : Bytes := List.replicate 31 0 ++ [9]

/-- The first `n` headers of `steadyHeaders` on an otherwise fresh state. -/
def steadyPrefix (n : Nat) : Blockchain :=
  Blockchain.mk (steadyHeaders.take n) baseTargetBytes baseTargetBytes [1] (fun _ => []) [] []

/-- The block without transactions that extends `steadyPrefix n`. -/
def steadyBlock (n : Nat) : Block :=
  Block.mk (exampleHeader (n : Int) (60 * (n : Int)) baseTargetBytes) []

/-! ## Supporting lemmas -/

/-- The helper `compare` returns 0 exactly on equal byte slices. -/
theorem compare_eq_zero_iff (a b : Bytes) : compare a b = 0 ↔ a = b := by
  induction a generalizing b with
  | nil => cases b <;> simp [compare]
  | cons x xs ih =>
    cases b with
    | nil => simp [compare]
    | cons y ys =>
      simp only [compare]
      split_ifs with h1 h2
      · simp; omega
      · simp; omega
      · have : x = y := by omega
        simp [ih, this]

/-- A value inside the `int64` range is its own reduction. -/
theorem wrap64_of_range (x : Int) (h1 : -2 ^ 63 ≤ x) (h2 : x < 2 ^ 63) : wrap64 x = x := by
  unfold wrap64; omega

/-- Reducing a summand first does not change the reduced sum. -/
theorem wrap64_add_left (a b : Int) : wrap64 (wrap64 a + b) = wrap64 (a + b) := by
  unfold wrap64; omega

/-- A reduced value lies in the `int64` range. -/
theorem wrap64_range (x : Int) : -2 ^ 63 ≤ wrap64 x ∧ wrap64 x < 2 ^ 63 := by
  unfold wrap64; omega

/-- The method `Int64()` is exact on a number that fits in an `int64`. -/
theorem bigInt64_of_range (x : Int) (h1 : -2 ^ 63 ≤ x) (h2 : x < 2 ^ 63) : bigInt64 x = x := by
  unfold bigInt64 wrap64
  simp only
  split_ifs <;> omega

/-- The method `Int64()` is the two's complement truncation to the low 64 bits. -/
theorem bigInt64_eq_wrap64 (x : Int) : bigInt64 x = wrap64 x := by
  unfold bigInt64 wrap64
  simp only
  split_ifs <;> omega

/-- A Go accumulation loop computes the reduced exact sum. -/
theorem foldl_wrap_sum (vs : List Int) (a : Int) :
    vs.foldl (fun total v => wrap64 (total + v)) (wrap64 a) = wrap64 (a + vs.sum) := by
  induction vs generalizing a with
  | nil => simp
  | cons v vs ih =>
    simp only [List.foldl_cons, List.sum_cons]
    rw [wrap64_add_left, ih, add_assoc]

/-- The Go sum is the reduction of the exact sum. -/
theorem goSum_eq (vs : List Int) : goSum vs = wrap64 vs.sum := by
  have h := foldl_wrap_sum vs 0
  have h0 : wrap64 0 = 0 := by decide
  rw [h0] at h
  simpa [goSum] using h

/-- Reading one more low byte multiplies by 256 and adds it. -/
theorem foldl_bytes_append_single (a : Nat) (bs : Bytes) (b : Nat) :
    (bs ++ [b]).foldl (fun acc b => acc * 256 + b) a
      = bs.foldl (fun acc b => acc * 256 + b) a * 256 + b := by
  simp [List.foldl_append]

/-- The worker only prepends to its accumulator. -/
theorem bigBytesAux_acc (fuel n : Nat) (acc : Bytes) :
    bigBytesAux fuel n acc = bigBytesAux fuel n [] ++ acc := by
  induction fuel generalizing n acc with
  | zero => simp [bigBytesAux]
  | succ fuel ih =>
    simp only [bigBytesAux]
    split_ifs with h
    · simp
    · rw [ih (n / 256) (n % 256 :: acc), ih (n / 256) [n % 256]]
      simp

/-- With enough fuel the worker produces bytes that read back as the number. -/
theorem bigOfBytes_bigBytesAux (fuel n : Nat) (h : n ≤ fuel) :
    bigOfBytes (bigBytesAux fuel n []) = n := by
  induction fuel generalizing n with
  | zero =>
    have : n = 0 := by omega
    subst this
    simp [bigBytesAux, bigOfBytes]
  | succ fuel ih =>
    simp only [bigBytesAux]
    split_ifs with h0
    · subst h0; simp [bigOfBytes]
    · rw [bigBytesAux_acc]
      have hd : n / 256 ≤ fuel := by omega
      have := ih (n / 256) hd
      unfold bigOfBytes at this ⊢
      rw [foldl_bytes_append_single, this]
      omega

/-- Taking `Bytes` and reading them gives the number back: no byte is lost. -/
theorem bigOfBytes_bigBytes (n : Nat) : bigOfBytes (bigBytes n) = n :=
  bigOfBytes_bigBytesAux n n (le_refl n)

/-- The worker produces at most `k` bytes for a number below `256^k`. -/
theorem length_bigBytesAux (fuel n k : Nat) (h : n < 256 ^ k) :
    (bigBytesAux fuel n []).length ≤ k := by
  induction fuel generalizing n k with
  | zero => simp [bigBytesAux]
  | succ fuel ih =>
    simp only [bigBytesAux]
    split_ifs with h0
    · simp
    · rw [bigBytesAux_acc]
      cases k with
      | zero => simp at h; omega
      | succ k =>
        have hd : n / 256 < 256 ^ k := by
          rw [pow_succ] at h
          exact Nat.div_lt_of_lt_mul (by rw [mul_comm]; exact h)
        have := ih (n / 256) k hd
        simp
        omega

/-- A number below `256^k` has at most `k` bytes. -/
theorem length_bigBytes (n k : Nat) (h : n < 256 ^ k) : (bigBytes n).length ≤ k :=
  length_bigBytesAux n n k h

/-- Leading zero bytes do not change the number read. -/
theorem bigOfBytes_padTo (n : Nat) (bs : Bytes) : bigOfBytes (padTo n bs) = bigOfBytes bs := by
  unfold padTo bigOfBytes
  rw [List.foldl_append]
  congr 1
  induction (n - bs.length) with
  | zero => simp
  | succ m ih => simp [List.replicate_succ, ih]

/-- Padding a slice of at most `n` bytes yields exactly `n` bytes. -/
theorem length_padTo (n : Nat) (bs : Bytes) (h : bs.length ≤ n) : (padTo n bs).length = n := by
  unfold padTo
  simp
  omega

/-- The base target is `2^232 - 1`. -/
theorem bigOfBytes_baseTargetBytes : bigOfBytes baseTargetBytes = 2 ^ 232 - 1 := by decide

/-- When every compared number fits in an `int64` and the old difficulty is at least 1,
the clamps put the result in `[oldDiff/4, oldDiff*4]` and at or above 1. -/
theorem clampDiff_bounds (oldDiff newDiff : Int) (h1 : 1 ≤ oldDiff) (h4 : oldDiff * 4 < 2 ^ 63)
    (hn1 : -2 ^ 63 ≤ newDiff) (hn2 : newDiff < 2 ^ 63) :
    oldDiff / 4 ≤ clampDiff oldDiff newDiff ∧ clampDiff oldDiff newDiff ≤ oldDiff * 4
      ∧ 1 ≤ clampDiff oldDiff newDiff := by
  have hq : Int.tdiv oldDiff 4 = oldDiff / 4 := Int.tdiv_eq_ediv (by omega) (by norm_num)
  unfold clampDiff
  simp only [hq]
  rw [bigInt64_of_range newDiff hn1 hn2, bigInt64_of_range (oldDiff * 4) (by omega) h4,
    bigInt64_of_range (oldDiff / 4) (by omega) (by omega)]
  by_cases c1 : newDiff > oldDiff * 4
  · simp only [c1, if_true]
    rw [bigInt64_of_range (oldDiff * 4) (by omega) h4]
    have c2 : ¬ (oldDiff * 4 < oldDiff / 4) := by omega
    simp only [c2, if_false]
    rw [bigInt64_of_range (oldDiff * 4) (by omega) h4]
    have c3 : ¬ (oldDiff * 4 < 1) := by omega
    simp only [c3, if_false]
    omega
  · simp only [c1, if_false]
    rw [bigInt64_of_range newDiff hn1 hn2]
    by_cases c2 : newDiff < oldDiff / 4
    · simp only [c2, if_true]
      rw [bigInt64_of_range (oldDiff / 4) (by omega) (by omega)]
      split_ifs <;> omega
    · simp only [c2, if_false]
      rw [bigInt64_of_range newDiff hn1 hn2]
      split_ifs <;> omega

/-- A value already inside the clamp window (and at least 1) passes the clamps
unchanged, when the compared numbers fit in an `int64`. -/
theorem clampDiff_exact (oldDiff newDiff : Int) (h1 : 1 ≤ oldDiff) (h4 : oldDiff * 4 < 2 ^ 63)
    (hlo : oldDiff / 4 ≤ newDiff) (hhi : newDiff ≤ oldDiff * 4) (hpos : 1 ≤ newDiff) :
    clampDiff oldDiff newDiff = newDiff := by
  have hq : Int.tdiv oldDiff 4 = oldDiff / 4 := Int.tdiv_eq_ediv (by omega) (by norm_num)
  unfold clampDiff
  simp only [hq]
  rw [bigInt64_of_range newDiff (by omega) (by omega),
    bigInt64_of_range (oldDiff * 4) (by omega) h4,
    bigInt64_of_range (oldDiff / 4) (by omega) (by omega)]
  have c1 : ¬ (newDiff > oldDiff * 4) := by omega
  simp only [c1, if_false]
  rw [bigInt64_of_range newDiff (by omega) (by omega)]
  have c2 : ¬ (newDiff < oldDiff / 4) := by omega
  simp only [c2, if_false]
  rw [bigInt64_of_range newDiff (by omega) (by omega)]
  have c3 : ¬ (newDiff < 1) := by omega
  simp only [c3, if_false]

/-- The `Int64()` of zero is zero. -/
theorem bigInt64_zero : bigInt64 0 = 0 := by decide

/-- The clamped difficulty is never zero, so line 416 never divides by zero. -/
theorem clampDiff_ne_zero (oldDiff newDiff : Int) : clampDiff oldDiff newDiff ≠ 0 := by
  unfold clampDiff
  simp only
  split_ifs with a b c <;> first
    | omega
    | (intro h; rw [h, bigInt64_zero] at c; omega)
    | (intro h; simp only [h, bigInt64_zero] at *; omega)

/-- On non-negative inputs the clamped difficulty is at least 1. -/
theorem clampDiff_pos (oldDiff newDiff : Int) (ho : 0 ≤ oldDiff) (hn : 0 ≤ newDiff) :
    1 ≤ clampDiff oldDiff newDiff := by
  have hne := clampDiff_ne_zero oldDiff newDiff
  have hq : 0 ≤ Int.tdiv oldDiff 4 := Int.tdiv_nonneg ho (by norm_num)
  have h0 : 0 ≤ clampDiff oldDiff newDiff := by
    unfold clampDiff
    simp only
    split_ifs <;> omega
  omega

/-- With a positive elapsed time the unclamped product is non-negative. -/
theorem unclampedDiff_nonneg (oldDiff t : Int) (ho : 0 ≤ oldDiff) (ht : 0 < t) :
    0 ≤ unclampedDiff oldDiff t := by
  unfold unclampedDiff
  exact mul_nonneg ho (Int.tdiv_nonneg (by decide) (le_of_lt ht))

/-- With a positive elapsed time the new difficulty is at least 1. -/
theorem retargetDiff_pos (oldDiff t : Int) (ho : 0 ≤ oldDiff) (ht : 0 < t) :
    1 ≤ retargetDiff oldDiff t :=
  clampDiff_pos oldDiff _ ho (unclampedDiff_nonneg oldDiff t ho ht)

/-- The old difficulty is a quotient of two unsigned numbers. -/
theorem oldDifficulty_nonneg (baseTarget target : Bytes) (d : Int)
    (h : oldDifficulty baseTarget target = .ok d) : 0 ≤ d := by
  unfold oldDifficulty at h
  simp only at h
  split_ifs at h with h0
  injection h with h
  rw [← h]
  exact Int.tdiv_nonneg (Int.ofNat_nonneg _) (Int.ofNat_nonneg _)

/-- The retarget arithmetic runs through once the old difficulty and a non-zero elapsed
time are available. -/
theorem retargetDiffs_ok (s : Blockchain) (block : Block) (oldDiff t : Int)
    (hold : oldDifficulty s.baseTarget block.Header.Target = .ok oldDiff)
    (ht : elapsedTime s.headers block.Header = .ok t) (ht0 : t ≠ 0) :
    retargetDiffs s block = .ok (oldDiff, retargetDiff oldDiff t) := by
  unfold retargetDiffs
  rw [hold, ht]
  simp [ht0]

/-- A completed retarget arithmetic had an old difficulty and a non-zero elapsed time. -/
theorem retargetDiffs_inv (s : Blockchain) (block : Block) (oldDiff newDiff : Int)
    (h : retargetDiffs s block = .ok (oldDiff, newDiff)) :
    ∃ t, oldDifficulty s.baseTarget block.Header.Target = .ok oldDiff
      ∧ elapsedTime s.headers block.Header = .ok t ∧ t ≠ 0 ∧ newDiff = retargetDiff oldDiff t := by
  unfold retargetDiffs at h
  cases hold : oldDifficulty s.baseTarget block.Header.Target with
  | error e => rw [hold] at h; simp at h
  | ok d =>
    cases ht : elapsedTime s.headers block.Header with
    | error e => rw [hold, ht] at h; simp at h
    | ok t =>
      rw [hold, ht] at h
      simp only at h
      split_ifs at h with h0
      injection h with h
      injection h with h1 h2
      subst h1
      exact ⟨t, rfl, rfl, h0, h2.symm⟩

/-- Once the arithmetic has run through, `adjustDifficulty` completes and only replaces
`lastTarget`. -/
theorem adjustDifficulty_ok (s : Blockchain) (block : Block) (oldDiff newDiff : Int)
    (h : retargetDiffs s block = .ok (oldDiff, newDiff)) :
    adjustDifficulty s block = .ok (Blockchain.mk s.headers s.baseTarget
      (padTo s.baseTarget.length (bigBytes (Int.tdiv (bigOfBytes s.baseTarget : Int) newDiff).natAbs))
      s.mainPub s.unspentTxOut s.pendingTransactions s.history) := by
  obtain ⟨t, -, -, -, hn⟩ := retargetDiffs_inv s block oldDiff newDiff h
  have hne : newDiff ≠ 0 := by rw [hn]; exact clampDiff_ne_zero _ _
  unfold adjustDifficulty
  rw [h]
  simp [targetOfDiff, hne]

/-- A completed `adjustDifficulty` went through the retarget arithmetic. -/
theorem adjustDifficulty_inv (s : Blockchain) (block : Block) (s1 : Blockchain)
    (h : adjustDifficulty s block = .ok s1) :
    ∃ oldDiff newDiff, retargetDiffs s block = .ok (oldDiff, newDiff) := by
  unfold adjustDifficulty at h
  cases hr : retargetDiffs s block with
  | error e => rw [hr] at h; simp at h
  | ok p => exact ⟨p.1, p.2, rfl⟩

/-- The factor `EXPECTED_10_BLOCKS_TIME / timePassed` lies between -600 and 600. -/
theorem tdiv_expected_bounds (t : Int) :
    -600 ≤ Int.tdiv EXPECTED_10_BLOCKS_TIME t ∧ Int.tdiv EXPECTED_10_BLOCKS_TIME t ≤ 600 := by
  have h := Int.natAbs_tdiv EXPECTED_10_BLOCKS_TIME t
  have h2 : (Int.natAbs EXPECTED_10_BLOCKS_TIME).div (Int.natAbs t) ≤ 600 :=
    Nat.div_le_self 600 _
  rw [← h] at h2
  omega

/-- If `oldDiff * 600` fits in an `int64`, so does the unclamped product. -/
theorem unclampedDiff_fits (oldDiff t : Int) (h0 : 0 ≤ oldDiff) (h : oldDiff * 600 < 2 ^ 63) :
    -2 ^ 63 ≤ unclampedDiff oldDiff t ∧ unclampedDiff oldDiff t < 2 ^ 63 := by
  obtain ⟨hl, hu⟩ := tdiv_expected_bounds t
  unfold unclampedDiff
  constructor
  · nlinarith
  · nlinarith

/-- For a new difficulty of at least 1 the padded bytes read as `base / newDiff`. -/
theorem lastTarget_value (baseTarget : Bytes) (newDiff : Int) (h : 1 ≤ newDiff) :
    ((bigOfBytes (padTo baseTarget.length
      (bigBytes (Int.tdiv (bigOfBytes baseTarget : Int) newDiff).natAbs)) : Nat) : Int)
      = (bigOfBytes baseTarget : Int) / newDiff := by
  rw [bigOfBytes_padTo, bigOfBytes_bigBytes]
  rw [Int.tdiv_eq_ediv (Int.ofNat_nonneg _) (by omega)]
  exact Int.natAbs_of_nonneg (Int.ediv_nonneg (Int.ofNat_nonneg _) (by omega))

/-- Dividing first loses less than one old difficulty against multiplying first. -/
theorem mul_div_split (d t : Int) (hd : 0 ≤ d) (ht : 0 < t) :
    d * (600 / t) ≤ d * 600 / t ∧ d * 600 / t ≤ d * (600 / t) + d := by
  have hq : (600 : Int) = t * (600 / t) + 600 % t := (Int.ediv_add_emod 600 t).symm
  have hr0 : 0 ≤ (600 : Int) % t := Int.emod_nonneg 600 (by omega)
  have hr1 : (600 : Int) % t < t := Int.emod_lt_of_pos 600 ht
  have e : d * 600 = d * (600 % t) + t * (d * (600 / t)) := by
    have : d * 600 = d * (t * (600 / t) + 600 % t) := by rw [← hq]
    rw [this]; ring
  rw [e, Int.add_mul_ediv_left _ _ (by omega : t ≠ 0)]
  have h1 : 0 ≤ d * (600 % t) / t := Int.ediv_nonneg (mul_nonneg hd hr0) (by omega)
  have h2 : d * (600 % t) / t ≤ d := by
    apply Int.ediv_le_of_le_mul ht
    nlinarith
  constructor <;> omega

/-- The search loop of `RemoveUnspentOut` finds the position a pointer into the same
slice designates. -/
theorem foldl_find_ptr (K : GoString) (k n : Nat) :
    (List.range n).foldl
      (fun idx i => if UtxoPtr.mk K i = UtxoPtr.mk K k then some i else idx) none
      = if k < n then some k else none := by
  induction n with
  | zero => simp
  | succ n ih =>
    rw [List.range_succ, List.foldl_append, ih]
    simp only [List.foldl_cons, List.foldl_nil]
    by_cases hk : n = k
    · subst hk; simp
    · have hne : ¬ (UtxoPtr.mk K n = UtxoPtr.mk K k) := by
        intro h; injection h with _ h2; exact hk h2
      simp only [hne, if_false]
      by_cases hlt : k < n
      · rw [if_pos hlt, if_pos (by omega)]
      · rw [if_neg hlt, if_neg (by omega)]

/-- A position returned by the lookup loop holds an entry answering the input. -/
theorem findMatch_some (inp : TxIn) (l : List UnspentTxOut) (i j : Nat)
    (h : findMatch inp l i = some j) :
    ∃ k u, j = i + k ∧ l[k]? = some u ∧ matchesIn inp u := by
  induction l generalizing i with
  | nil => simp [findMatch] at h
  | cons x xs ih =>
    simp only [findMatch] at h
    split_ifs at h with hm
    · injection h with h
      refine ⟨0, x, by omega, by simp, ?_⟩
      exact ⟨(compare_eq_zero_iff _ _).mp hm.2, hm.1⟩
    · obtain ⟨k, u, hj, hk, hu⟩ := ih (i + 1) h
      exact ⟨k + 1, u, by omega, by simpa using hk, hu⟩

/-- Removing the entry the lookup returned takes exactly one entry answering the input
out of the sender list and touches no other key. -/
theorem remove_found (sanitize : Bytes → GoString) (m : UtxoIndex) (pub : Bytes) (inp : TxIn)
    (out : UtxoPtr) (h : getCorrespondingOutTx sanitize m pub inp = some out) :
    ∃ u, matchesIn inp u
      ∧ List.Perm (m (sanitize pub)) (u :: RemoveUnspentOut sanitize m pub out (sanitize pub))
      ∧ ∀ K, K ≠ sanitize pub → RemoveUnspentOut sanitize m pub out K = m K := by
  unfold getCorrespondingOutTx at h
  simp only [Option.map_eq_some'] at h
  obtain ⟨j, hj, hout⟩ := h
  obtain ⟨k, u, hjk, hk, hu⟩ := findMatch_some inp _ 0 j hj
  have hjk2 : j = k := by omega
  subst hjk2
  obtain ⟨hlt, hget⟩ := List.getElem?_eq_some.mp hk
  have hfound := foldl_find_ptr (sanitize pub) j (m (sanitize pub)).length
  simp only [hlt, if_true] at hfound
  have hrem : RemoveUnspentOut sanitize m pub out
      = setKey m (sanitize pub)
          ((m (sanitize pub)).take j ++ (m (sanitize pub)).drop (j + 1)) := by
    unfold RemoveUnspentOut
    simp only [← hout, hfound]
  refine ⟨u, hu, ?_, ?_⟩
  · rw [hrem]
    simp only [setKey, if_true]
    have hsplit : m (sanitize pub)
        = (m (sanitize pub)).take j ++ u :: (m (sanitize pub)).drop (j + 1) := by
      conv_lhs => rw [← List.take_append_drop j (m (sanitize pub))]
      rw [List.drop_eq_getElem_cons hlt, hget]
    conv_lhs => rw [hsplit]
    exact List.perm_middle
  · intro K hK
    rw [hrem]
    simp [setKey, hK]

/-- When every lookup of a transaction succeeds, its inputs consumed one answering entry
each, all from the sender list. -/
theorem insLoop_accounting (sanitize : Bytes → GoString) (pub : Bytes) (ins : List TxIn)
    (m m2 : UtxoIndex) (h : insLoop sanitize pub ins m = (m2, true)) :
    ∃ sp, List.Forall₂ matchesIn ins sp
      ∧ List.Perm (m2 (sanitize pub) ++ sp) (m (sanitize pub))
      ∧ ∀ K, K ≠ sanitize pub → m2 K = m K := by
  induction ins generalizing m with
  | nil =>
    simp only [insLoop] at h
    injection h with h1 _
    subst h1
    exact ⟨[], List.Forall₂.nil, by simp, fun _ _ => rfl⟩
  | cons inp rest ih =>
    simp only [insLoop] at h
    cases hg : getCorrespondingOutTx sanitize m pub inp with
    | none => rw [hg] at h; simp at h
    | some out =>
      rw [hg] at h
      simp only at h
      obtain ⟨u, hu, hperm, hother⟩ := remove_found sanitize m pub inp out hg
      obtain ⟨sp, hf, hp, ho⟩ := ih _ h
      refine ⟨u :: sp, List.Forall₂.cons hu hf, ?_, ?_⟩
      · have h1 : List.Perm (m2 (sanitize pub) ++ u :: sp) (u :: (m2 (sanitize pub) ++ sp)) :=
          List.perm_middle
        exact h1.trans ((List.Perm.cons u hp).trans hperm.symm)
      · intro K hK
        rw [ho K hK, hother K hK]

/-- One output iteration appends one entry under the address of the output. -/
theorem outStep_unspent (own : Bool) (ownAddrStr : Bytes) (nIns nOuts : Nat) (height : Int)
    (hash : Bytes) (acc : TxAcc) (i : Nat) (out : TxOut) :
    (outStep own ownAddrStr nIns nOuts height hash acc i out).unspent
      = setKey acc.unspent out.Address
          (acc.unspent out.Address ++ [UnspentTxOut.mk out hash (i : Int) false]) := by
  unfold outStep
  simp only
  split_ifs <;> rfl

/-- The output loop appends, under each key, the created entries with that address, in order. -/
theorem outsLoop_unspent (own : Bool) (ownAddrStr : Bytes) (nIns nOuts : Nat) (height : Int)
    (hash : Bytes) (outs : List TxOut) (i : Nat) (acc : TxAcc) (K : GoString) :
    (outsLoop own ownAddrStr nIns nOuts height hash outs i acc).unspent K
      = acc.unspent K
          ++ (createdFrom hash outs i).filter (fun u => decide (u.Out.Address = K)) := by
  induction outs generalizing i acc with
  | nil => simp [outsLoop, createdFrom]
  | cons o rest ih =>
    simp only [outsLoop, createdFrom]
    rw [ih, outStep_unspent]
    by_cases hK : o.Address = K
    · subst hK
      simp [setKey, List.filter_cons]
    · have hK2 : ¬ (K = o.Address) := fun h => hK h.symm
      simp [setKey, List.filter_cons, hK, hK2]

/-- Two accounting steps compose. -/
theorem perm_chain {α : Type} (m0 m1 m2 sp1 sps c1 cs : List α)
    (h1 : List.Perm (m1 ++ sp1) (m0 ++ c1)) (h2 : List.Perm (m2 ++ sps) (m1 ++ cs)) :
    List.Perm (m2 ++ (sp1 ++ sps)) (m0 ++ (c1 ++ cs)) := by
  rw [← Multiset.coe_eq_coe] at h1 h2 ⊢
  simp only [← Multiset.coe_add] at h1 h2 ⊢
  have e1 : (m2 : Multiset α) + ((sp1 : Multiset α) + (sps : Multiset α))
      = ((m2 : Multiset α) + (sps : Multiset α)) + (sp1 : Multiset α) := by abel
  rw [e1, h2]
  have e2 : (m1 : Multiset α) + (cs : Multiset α) + (sp1 : Multiset α)
      = ((m1 : Multiset α) + (sp1 : Multiset α)) + (cs : Multiset α) := by abel
  rw [e2, h1]
  abel

/-- Accounting for one transaction: index after plus consumed equals index before plus
created, per key. -/
theorem applyTx_accounting (sanitize : Bytes → GoString) (block : Block) (s : Blockchain)
    (tx : Transaction) (s2 : Blockchain) (h : applyTx sanitize block s tx = (s2, true)) :
    ∃ sp, List.Forall₂ matchesIn tx.Ins sp ∧
      ∀ K, List.Perm
        (s2.unspentTxOut K ++ (if sanitize tx.Stamp.Pub = K then sp else []))
        (s.unspentTxOut K ++ (createdBy tx).filter (fun u => decide (u.Out.Address = K))) := by
  unfold applyTx at h
  simp only at h
  cases hins : insLoop sanitize tx.Stamp.Pub tx.Ins s.unspentTxOut with
  | mk m b =>
    cases b with
    | false => rw [hins] at h; simp at h
    | true =>
      rw [hins] at h
      simp only at h
      injection h with h1 _
      subst h1
      obtain ⟨sp, hf, hp, ho⟩ := insLoop_accounting sanitize _ _ _ _ hins
      refine ⟨sp, hf, ?_⟩
      intro K
      simp only [outsLoop_unspent, createdBy]
      by_cases hK : sanitize tx.Stamp.Pub = K
      · subst hK
        simp only [if_true]
        have := perm_chain (s.unspentTxOut (sanitize tx.Stamp.Pub)) (m (sanitize tx.Stamp.Pub))
          (m (sanitize tx.Stamp.Pub) ++ List.filter
            (fun u => decide (u.Out.Address = sanitize tx.Stamp.Pub))
            (createdFrom tx.Stamp.Hash tx.Outs 0)) sp [] []
          (List.filter (fun u => decide (u.Out.Address = sanitize tx.Stamp.Pub))
            (createdFrom tx.Stamp.Hash tx.Outs 0))
          (by simpa using hp) (by simp)
        simpa using this
      · have hK2 : K ≠ sanitize tx.Stamp.Pub := fun e => hK e.symm
        simp only [hK, if_false, List.append_nil]
        rw [ho K hK2]

/-- Processing a transaction changes only the index and the history. -/
theorem applyTx_frame (sanitize : Bytes → GoString) (block : Block) (s : Blockchain)
    (tx : Transaction) :
    (applyTx sanitize block s tx).1.headers = s.headers
      ∧ (applyTx sanitize block s tx).1.baseTarget = s.baseTarget
      ∧ (applyTx sanitize block s tx).1.lastTarget = s.lastTarget
      ∧ (applyTx sanitize block s tx).1.mainPub = s.mainPub
      ∧ (applyTx sanitize block s tx).1.pendingTransactions = s.pendingTransactions := by
  unfold applyTx
  simp only
  cases hins : insLoop sanitize tx.Stamp.Pub tx.Ins s.unspentTxOut with
  | mk m b => cases b <;> simp

/-- Processing the transactions changes only the index and the history. -/
theorem txLoop_frame (sanitize : Bytes → GoString) (block : Block) (txs : List Transaction)
    (s : Blockchain) :
    (txLoop sanitize block txs s).1.headers = s.headers
      ∧ (txLoop sanitize block txs s).1.baseTarget = s.baseTarget
      ∧ (txLoop sanitize block txs s).1.lastTarget = s.lastTarget
      ∧ (txLoop sanitize block txs s).1.mainPub = s.mainPub
      ∧ (txLoop sanitize block txs s).1.pendingTransactions = s.pendingTransactions := by
  induction txs generalizing s with
  | nil => simp [txLoop]
  | cons tx rest ih =>
    simp only [txLoop]
    have hf := applyTx_frame sanitize block s tx
    cases ha : applyTx sanitize block s tx with
    | mk s1 b =>
      rw [ha] at hf
      cases b with
      | false => exact hf
      | true =>
        simp only
        obtain ⟨h1, h2, h3, h4, h5⟩ := ih s1
        obtain ⟨g1, g2, g3, g4, g5⟩ := hf
        simp only at g1 g2 g3 g4 g5
        exact ⟨h1.trans g1, h2.trans g2, h3.trans g3, h4.trans g4, h5.trans g5⟩

/-- Accounting for a run through all transactions. -/
theorem txLoop_accounting (sanitize : Bytes → GoString) (block : Block) (txs : List Transaction)
    (s s2 : Blockchain) (h : txLoop sanitize block txs s = (s2, true)) :
    ∃ sps, List.Forall₂ (fun tx sp => List.Forall₂ matchesIn tx.Ins sp) txs sps ∧
      ∀ K, List.Perm (s2.unspentTxOut K ++ spentUnder sanitize K txs sps)
        (s.unspentTxOut K ++ createdUnder K txs) := by
  induction txs generalizing s with
  | nil =>
    simp only [txLoop] at h
    injection h with h1 _
    subst h1
    exact ⟨[], List.Forall₂.nil, fun K => by simp [spentUnder, createdUnder]⟩
  | cons tx rest ih =>
    simp only [txLoop] at h
    cases ha : applyTx sanitize block s tx with
    | mk s1 b =>
      cases b with
      | false => rw [ha] at h; simp at h
      | true =>
        rw [ha] at h
        simp only at h
        obtain ⟨sp, hf, hp⟩ := applyTx_accounting sanitize block s tx s1 ha
        obtain ⟨sps, hfs, hps⟩ := ih s1 h
        refine ⟨sp :: sps, List.Forall₂.cons hf hfs, ?_⟩
        intro K
        simp only [spentUnder, createdUnder]
        exact perm_chain _ _ _ _ _ _ _ (hp K) (hps K)

/-- The funds `GetAvailableFunds` returns are the reduced exact sum of the values
under the sanitized wallet. -/
theorem funds_eq_wrap (sanitize : Bytes → GoString) (s : Blockchain) (wallet : Bytes) :
    GetAvailableFunds sanitize s wallet = wrap64 (valueSum (s.unspentTxOut (sanitize wallet))) := by
  unfold GetAvailableFunds valueSum
  simp only
  have h := foldl_wrap_sum ((s.unspentTxOut (sanitize wallet)).map (fun u => u.Out.Value)) 0
  have h0 : wrap64 0 = 0 := by decide
  rw [h0, zero_add, List.foldl_map] at h
  exact h

/-- The exact value sum is additive. -/
theorem valueSum_append (a b : List UnspentTxOut) :
    valueSum (a ++ b) = valueSum a + valueSum b := by
  simp [valueSum]

/-- The created entries under a key carry the values of the outputs with that address. -/
theorem valueSum_created (hash : Bytes) (outs : List TxOut) (i : Nat) (K : GoString) :
    valueSum ((createdFrom hash outs i).filter (fun u => decide (u.Out.Address = K)))
      = ((outs.filter (fun o => decide (o.Address = K))).map TxOut.Value).sum := by
  induction outs generalizing i with
  | nil => simp [createdFrom, valueSum]
  | cons o rest ih =>
    have ih2 := ih (i + 1)
    unfold valueSum at ih2 ⊢
    by_cases hK : o.Address = K
    · simp [createdFrom, List.filter_cons, hK, ih2]
    · simp [createdFrom, List.filter_cons, hK, ih2]

/-- The created entries under a key are worth what the block pays to that address. -/
theorem valueSum_createdUnder (K : GoString) (txs : List Transaction) :
    valueSum (createdUnder K txs) = paidTo K txs := by
  induction txs with
  | nil => simp [createdUnder, paidTo, valueSum]
  | cons tx rest ih =>
    simp only [createdUnder, paidTo, valueSum_append, ih, createdBy, valueSum_created]

/-- Accounting for a block whose lookups all succeed. -/
theorem block_accounting (sanitize : Bytes → GoString) (s : Blockchain)
    (block : Block) (h : updateCompletes sanitize s block = true) :
    ∃ spent : List (List UnspentTxOut),
      List.Forall₂ (fun tx sp => List.Forall₂ matchesIn tx.Ins sp) block.Transactions spent ∧
      (∀ K u, u ∈ spentUnder sanitize K block.Transactions spent →
        u ∈ s.unspentTxOut K ∨ u ∈ createdUnder K block.Transactions) ∧
      ∀ K, List.Perm
        ((UpdateUnspentTxOuts sanitize s block).unspentTxOut K
          ++ spentUnder sanitize K block.Transactions spent)
        (s.unspentTxOut K ++ createdUnder K block.Transactions) := by
  unfold updateCompletes at h
  unfold UpdateUnspentTxOuts
  cases hr : txLoop sanitize block block.Transactions s with
  | mk s2 b =>
    rw [hr] at h
    simp only at h
    subst h
    obtain ⟨sps, hf, hp⟩ := txLoop_accounting sanitize block _ s s2 hr
    refine ⟨sps, hf, ?_, hp⟩
    intro K u hu
    have hmem : u ∈ s2.unspentTxOut K ++ spentUnder sanitize K block.Transactions sps :=
      List.mem_append_right _ hu
    have := (hp K).subset hmem
    exact List.mem_append.mp this

/-- Output number `i` appears among the created entries with index `start + i`. -/
theorem mem_createdFrom (hash : Bytes) (outs : List TxOut) (start i : Nat) (o : TxOut)
    (h : outs[i]? = some o) :
    UnspentTxOut.mk o hash ((start + i : Nat) : Int) false ∈ createdFrom hash outs start := by
  induction outs generalizing start i with
  | nil => simp at h
  | cons x xs ih =>
    cases i with
    | zero =>
      simp at h
      subst h
      simp [createdFrom]
    | succ i =>
      simp at h
      have := ih (start + 1) i h
      simp only [createdFrom, List.mem_cons]
      right
      have e : start + 1 + i = start + (i + 1) := by omega
      rw [e] at this
      exact this

/-- An entry a transaction of the list creates appears under the address of its output. -/
theorem mem_createdUnder (K : GoString) (txs : List Transaction) (t : Transaction)
    (u : UnspentTxOut) (ht : t ∈ txs) (hu : u ∈ createdBy t) (hK : u.Out.Address = K) :
    u ∈ createdUnder K txs := by
  induction txs with
  | nil => simp at ht
  | cons x xs ih =>
    simp only [createdUnder, List.mem_append]
    rcases List.mem_cons.mp ht with h | h
    · left
      subst h
      exact List.mem_filter.mpr ⟨hu, by simp [hK]⟩
    · right
      exact ih h

/-- Every consumed entry answers one of the inputs. -/
theorem forall2_matches_of_mem (ins : List TxIn) (sp : List UnspentTxOut) (u : UnspentTxOut)
    (h : List.Forall₂ matchesIn ins sp) (hu : u ∈ sp) :
    ∃ inp, inp ∈ ins ∧ matchesIn inp u := by
  induction h with
  | nil => simp at hu
  | @cons a b l1 l2 hab _ ih =>
    rcases List.mem_cons.mp hu with e | e
    · subst e
      exact ⟨a, List.mem_cons_self _ _, hab⟩
    · obtain ⟨inp, hin, hm⟩ := ih e
      exact ⟨inp, List.mem_cons_of_mem _ hin, hm⟩

/-- An entry consumed under a key was consumed by an input of a transaction whose sender
has that key. -/
theorem mem_spentUnder (sanitize : Bytes → GoString) (K : GoString) (txs : List Transaction)
    (sps : List (List UnspentTxOut)) (u : UnspentTxOut)
    (hf : List.Forall₂ (fun tx sp => List.Forall₂ matchesIn tx.Ins sp) txs sps)
    (hu : u ∈ spentUnder sanitize K txs sps) :
    ∃ t, t ∈ txs ∧ sanitize t.Stamp.Pub = K ∧ ∃ inp, inp ∈ t.Ins ∧ matchesIn inp u := by
  induction hf with
  | nil => simp [spentUnder] at hu
  | @cons tx sp txs sps h1 _ ih =>
    simp only [spentUnder, List.mem_append] at hu
    rcases hu with hu | hu
    · by_cases hK : sanitize tx.Stamp.Pub = K
      · simp only [hK, if_true] at hu
        exact ⟨tx, List.mem_cons_self _ _, hK, forall2_matches_of_mem _ _ _ h1 hu⟩
      · simp [hK] at hu
    · obtain ⟨t, ht, hk, hx⟩ := ih hu
      exact ⟨t, List.mem_cons_of_mem _ ht, hk, hx⟩

/-- The selection loop appends a sub-list of non-reserved entries and its total is the
Go sum of their values. -/
theorem selectLoop_spec (value : Int) (l : List UnspentTxOut) (total : Int)
    (res : List UnspentTxOut) :
    ∃ sel, (selectLoop value l total res).2 = res ++ sel ∧ sel.Sublist l ∧
      (∀ u, u ∈ sel → u.IsTargeted = false) ∧
      (selectLoop value l total res).1
        = sel.foldl (fun t u => wrap64 (t + u.Out.Value)) total := by
  induction l generalizing total res with
  | nil => exact ⟨[], by simp [selectLoop], List.Sublist.slnil, by simp, by simp [selectLoop]⟩
  | cons u rest ih =>
    simp only [selectLoop]
    by_cases ht : u.IsTargeted = true
    · rw [if_pos ht]
      obtain ⟨sel, h1, h2, h3, h4⟩ := ih total res
      exact ⟨sel, h1, List.Sublist.cons u h2, h3, h4⟩
    · rw [if_neg ht]
      have hf : u.IsTargeted = false := by simpa using ht
      by_cases hgt : wrap64 (total + u.Out.Value) > value
      · rw [if_pos hgt]
        refine ⟨[u], rfl, List.Sublist.cons₂ u (List.nil_sublist rest), ?_, by simp⟩
        intro x hx
        rw [List.mem_singleton.mp hx]
        exact hf
      · rw [if_neg hgt]
        obtain ⟨sel, h1, h2, h3, h4⟩ := ih (wrap64 (total + u.Out.Value)) (res ++ [u])
        refine ⟨u :: sel, by rw [h1]; simp, List.Sublist.cons₂ u h2, ?_, by rw [h4]; simp⟩
        intro x hx
        rcases List.mem_cons.mp hx with e | e
        · rw [e]; exact hf
        · exact h3 x e

/-- Reducing a non-negative number never increases it. -/
theorem wrap64_le_of_nonneg (x : Int) (h : 0 ≤ x) : wrap64 x ≤ x := by
  unfold wrap64; omega

/-- The function `UpdateUnspentTxOuts` changes only the index and the history. -/
theorem UpdateUnspentTxOuts_frame (sanitize : Bytes → GoString) (s : Blockchain) (block : Block) :
    (UpdateUnspentTxOuts sanitize s block).headers = s.headers
      ∧ (UpdateUnspentTxOuts sanitize s block).baseTarget = s.baseTarget
      ∧ (UpdateUnspentTxOuts sanitize s block).lastTarget = s.lastTarget
      ∧ (UpdateUnspentTxOuts sanitize s block).mainPub = s.mainPub
      ∧ (UpdateUnspentTxOuts sanitize s block).pendingTransactions = s.pendingTransactions :=
  txLoop_frame sanitize block block.Transactions s

/-- A block holding one transaction without inputs and with one output to the wallet
always completes and adds the output value to the funds. -/
theorem coinbase_only_funds (sanitize : Bytes → GoString) (s : Blockchain) (block : Block)
    (wallet : Bytes) (cb : Transaction) (reward : Int)
    (htx : block.Transactions = [cb]) (hins : cb.Ins = [])
    (houts : cb.Outs = [TxOut.mk reward (sanitize wallet)]) :
    updateCompletes sanitize s block = true ∧
    GetAvailableFunds sanitize (UpdateUnspentTxOuts sanitize s block) wallet
      = wrap64 (GetAvailableFunds sanitize s wallet + reward) := by
  have hc : updateCompletes sanitize s block = true := by
    unfold updateCompletes
    rw [htx]
    simp [txLoop, applyTx, hins, insLoop]
  refine ⟨hc, ?_⟩
  obtain ⟨sps, hf, -, hp⟩ := block_accounting sanitize s block hc
  have hsum := (List.Perm.map (fun u : UnspentTxOut => u.Out.Value)
    (hp (sanitize wallet))).sum_eq
  have h2 : valueSum ((UpdateUnspentTxOuts sanitize s block).unspentTxOut (sanitize wallet)
        ++ spentUnder sanitize (sanitize wallet) block.Transactions sps)
      = valueSum (s.unspentTxOut (sanitize wallet)
        ++ createdUnder (sanitize wallet) block.Transactions) := hsum
  rw [valueSum_append, valueSum_append, valueSum_createdUnder] at h2
  rw [htx] at hf h2
  cases hf with
  | cons h1 hrest =>
    cases hrest
    rw [hins] at h1
    cases h1
    simp only [spentUnder, paidTo, houts] at h2
    simp [valueSum] at h2
    rw [funds_eq_wrap, funds_eq_wrap, wrap64_add_left]
    unfold valueSum
    rw [h2]
/-- In every completing run of `adjustDifficulty` on a state carrying the
base target of `New`, `lastTarget` is exactly 32 bytes: the minimal bytes of
`(2^232 - 1) / |newDiff|` behind as many zero bytes as are missing. When
`newDiff` is at least 1, which is the case whenever the elapsed time is
positive, that number is `floor(T0 / newDiff)`. -/
theorem lastTarget_encoding (s : Blockchain) (block : Block) (s1 : Blockchain)
    (hbase : s.baseTarget = baseTargetBytes) (h : adjustDifficulty s block = .ok s1) :
    ∃ oldDiff newDiff, retargetDiffs s block = .ok (oldDiff, newDiff) ∧
      s1.lastTarget.length = 32 ∧
      bigOfBytes s1.lastTarget = (2 ^ 232 - 1) / newDiff.natAbs ∧
      s1.lastTarget
        = List.replicate (32 - (bigBytes ((2 ^ 232 - 1) / newDiff.natAbs)).length) 0
          ++ bigBytes ((2 ^ 232 - 1) / newDiff.natAbs) ∧
      (1 ≤ newDiff → ((bigOfBytes s1.lastTarget : Nat) : Int) = (2 ^ 232 - 1) / newDiff) ∧
      (∀ t, elapsedTime s.headers block.Header = .ok t → 0 < t → 1 ≤ newDiff) := by
  obtain ⟨oldDiff, newDiff, hr⟩ := adjustDifficulty_inv s block s1 h
  have hok := adjustDifficulty_ok s block oldDiff newDiff hr
  rw [h] at hok
  injection hok with hs
  have hq : (Int.tdiv (bigOfBytes s.baseTarget : Int) newDiff).natAbs
      = (2 ^ 232 - 1) / newDiff.natAbs := by
    rw [Int.natAbs_tdiv, hbase, bigOfBytes_baseTargetBytes]
    rfl
  have hlen32 : s.baseTarget.length = 32 := by rw [hbase]; decide
  have hlt : s1.lastTarget = padTo 32 (bigBytes ((2 ^ 232 - 1) / newDiff.natAbs)) := by
    rw [hs, ← hq, hlen32]
  have hle : (bigBytes ((2 ^ 232 - 1) / newDiff.natAbs)).length ≤ 32 := by
    apply length_bigBytes
    have : (2 ^ 232 - 1) / newDiff.natAbs ≤ 2 ^ 232 - 1 := Nat.div_le_self _ _
    have h2 : (2 : Nat) ^ 232 - 1 < 256 ^ 32 := by norm_num
    omega
  refine ⟨oldDiff, newDiff, hr, ?_, ?_, ?_, ?_, ?_⟩
  · rw [hlt]; exact length_padTo 32 _ hle
  · rw [hlt, bigOfBytes_padTo, bigOfBytes_bigBytes]
  · rw [hlt]; rfl
  · intro hpos
    have hv := lastTarget_value s.baseTarget newDiff hpos
    rw [hs]
    simp only
    rw [hv, hbase, bigOfBytes_baseTargetBytes]
    norm_num
  · intro t ht hpos
    obtain ⟨t2, hold, ht2, -, hn⟩ := retargetDiffs_inv s block oldDiff newDiff hr
    rw [ht] at ht2
    injection ht2 with ht2
    subst ht2
    rw [hn]
    exact retargetDiff_pos oldDiff t (oldDifficulty_nonneg _ _ _ hold) hpos

/-- The encoding lemma at a block of old difficulty 2 mined 300 seconds after
the header ten back: the new target is `(2^232 - 1) / 4` on 32 bytes. -/
theorem lastTarget_encoding_witness :
    (exampleState 0).baseTarget = baseTargetBytes ∧
    adjustDifficulty (exampleState 0) (exampleBlock 300 halfTarget) = .ok exampleRetargeted ∧
    ∃ oldDiff newDiff,
      retargetDiffs (exampleState 0) (exampleBlock 300 halfTarget) = .ok (oldDiff, newDiff) ∧
      exampleRetargeted.lastTarget.length = 32 ∧
      bigOfBytes exampleRetargeted.lastTarget = (2 ^ 232 - 1) / newDiff.natAbs ∧
      exampleRetargeted.lastTarget
        = List.replicate (32 - (bigBytes ((2 ^ 232 - 1) / newDiff.natAbs)).length) 0
          ++ bigBytes ((2 ^ 232 - 1) / newDiff.natAbs) ∧
      (1 ≤ newDiff →
        ((bigOfBytes exampleRetargeted.lastTarget : Nat) : Int) = (2 ^ 232 - 1) / newDiff) ∧
      (∀ t, elapsedTime (exampleState 0).headers (exampleBlock 300 halfTarget).Header = .ok t →
        0 < t → 1 ≤ newDiff) :=
  ⟨rfl, rfl,
    lastTarget_encoding (exampleState 0) (exampleBlock 300 halfTarget) exampleRetargeted rfl rfl⟩

/-- The clamp comparisons act on `Int64()` values: at old difficulty `2^60`
and an elapsed time of 35 seconds the product `17 * 2^60` does not fit in an
`int64`, reads as `2^60`, passes all three comparisons and stays seventeen
times the old difficulty. -/
theorem clamp_truncation_example :
    okOf (retargetDiffs (exampleState 0) (exampleBlock 35 deepTarget))
      = some (2 ^ 60, 17 * 2 ^ 60) ∧
    bigInt64 (17 * 2 ^ 60) = 2 ^ 60 := by decide

/-! ## Supporting lemmas for the transfer, preview and chain claims -/

/-- The value sum of a list is the head's value plus the value sum of the tail. -/
theorem valueSum_cons (u : UnspentTxOut) (us : List UnspentTxOut) :
    valueSum (u :: us) = u.Out.Value + valueSum us := by
  simp [valueSum]

/-- The value sum of the empty list is zero. -/
theorem valueSum_nil : valueSum [] = 0 := by
  simp [valueSum]

/-- While the running total and the free values ahead are non-negative and fit in
an `int`, the selection loop takes a prefix of the free entries without any
wrap: the shortest prefix that lifts the total above `value`, or all of them
when no prefix does. -/
theorem selectLoop_exact (value : Int) (l : List UnspentTxOut) (total : Int)
    (res : List UnspentTxOut) (h0 : 0 ≤ total) (hle : total ≤ value)
    (hnn : ∀ u, u ∈ freeEntries l → 0 ≤ u.Out.Value)
    (hfit : total + valueSum (freeEntries l) < 2 ^ 63) :
    ∃ sel rest, freeEntries l = sel ++ rest ∧
      selectLoop value l total res = (total + valueSum sel, res ++ sel) ∧
      ((value < total + valueSum sel ∧
          ∀ p q, sel = p ++ q → q ≠ [] → total + valueSum p ≤ value) ∨
        (rest = [] ∧ ∀ p q, sel = p ++ q → total + valueSum p ≤ value)) := by
  induction l generalizing total res with
  | nil =>
    refine ⟨[], [], by simp [freeEntries], by simp [selectLoop, valueSum_nil], Or.inr ⟨rfl, ?_⟩⟩
    intro p q hpq
    have hp : p = [] := by
      cases p with
      | nil => rfl
      | cons a as => simp at hpq
    rw [hp, valueSum_nil]; omega
  | cons u l ih =>
    simp only [selectLoop]
    by_cases ht : u.IsTargeted = true
    · rw [if_pos ht]
      have hfree : freeEntries (u :: l) = freeEntries l := by
        simp [freeEntries, List.filter_cons, ht]
      rw [hfree] at hnn hfit ⊢
      exact ih total res h0 hle hnn hfit
    · rw [if_neg ht]
      have hf : u.IsTargeted = false := by simpa using ht
      have hfree : freeEntries (u :: l) = u :: freeEntries l := by
        simp [freeEntries, List.filter_cons, hf]
      rw [hfree] at hnn hfit ⊢
      have hu : 0 ≤ u.Out.Value := hnn u (List.mem_cons_self _ _)
      have hnn2 : ∀ x, x ∈ freeEntries l → 0 ≤ x.Out.Value :=
        fun x hx => hnn x (List.mem_cons_of_mem _ hx)
      have hrest : 0 ≤ valueSum (freeEntries l) := by
        unfold valueSum
        apply List.sum_nonneg
        intro x hx
        obtain ⟨y, hy, rfl⟩ := List.mem_map.mp hx
        exact hnn2 y hy
      rw [valueSum_cons] at hfit
      have hw : wrap64 (total + u.Out.Value) = total + u.Out.Value :=
        wrap64_of_range _ (by omega) (by omega)
      simp only [hw]
      by_cases hgt : total + u.Out.Value > value
      · rw [if_pos hgt]
        refine ⟨[u], freeEntries l, rfl, by simp [valueSum], Or.inl ⟨?_, ?_⟩⟩
        · simp [valueSum]; omega
        · intro p q hpq hq
          have hp : p = [] := by
            cases p with
            | nil => rfl
            | cons a as =>
              simp at hpq
              exact absurd hpq.2.2 hq
          rw [hp, valueSum_nil]; omega
      · rw [if_neg hgt]
        obtain ⟨sel, rest, hsplit, hrun, hcase⟩ :=
          ih (total + u.Out.Value) (res ++ [u]) (by omega) (by omega) hnn2 (by omega)
        refine ⟨u :: sel, rest, by rw [hsplit]; rfl, ?_, ?_⟩
        · rw [hrun, valueSum_cons]
          simp [add_assoc]
        · have key : ∀ p q, u :: sel = p ++ q →
              (p = [] ∨ ∃ p2, p = u :: p2 ∧ sel = p2 ++ q) := by
            intro p q hpq
            cases p with
            | nil => exact Or.inl rfl
            | cons a as =>
              simp at hpq
              exact Or.inr ⟨as, by rw [hpq.1], hpq.2⟩
          rcases hcase with ⟨h1, h2⟩ | ⟨h1, h2⟩
          · left
            refine ⟨by rw [valueSum_cons]; omega, ?_⟩
            intro p q hpq hq
            rcases key p q hpq with hp | ⟨p2, hp, hs⟩
            · rw [hp, valueSum_nil]; omega
            · rw [hp, valueSum_cons]
              have := h2 p2 q hs hq
              omega
          · right
            refine ⟨h1, ?_⟩
            intro p q hpq
            rcases key p q hpq with hp | ⟨p2, hp, hs⟩
            · rw [hp, valueSum_nil]; omega
            · rw [hp, valueSum_cons]
              have := h2 p2 q hs
              omega

/-- The loop of `GetInOutFromUnspent` appends one `TxIn` per entry and adds the
values up in Go `int` arithmetic. -/
theorem inOutLoop_spec (outs : List UnspentTxOut) (insRes : List TxIn) (a : Int) :
    inOutLoop outs insRes (wrap64 a)
      = (insRes ++ outs.map (fun u => TxIn.mk u.TxHash u.InIdx), wrap64 (a + valueSum outs)) := by
  induction outs generalizing insRes a with
  | nil => simp [inOutLoop, valueSum_nil]
  | cons u rest ih =>
    simp only [inOutLoop]
    rw [wrap64_add_left, ih, valueSum_cons]
    simp [add_assoc]

/-- From an empty input list and a zero total the loop yields the mapped inputs
and the Go `int` sum of the values. -/
theorem inOutLoop_zero (outs : List UnspentTxOut) :
    inOutLoop outs [] 0
      = (outs.map (fun u => TxIn.mk u.TxHash u.InIdx),
          goSum (outs.map (fun u => u.Out.Value))) := by
  have h := inOutLoop_spec outs [] 0
  have h0 : wrap64 0 = 0 := by decide
  rw [h0] at h
  rw [h, goSum_eq]
  simp [valueSum]

/-- The loop of `AreHeadersGood` succeeds exactly when the first header links to
the given hash and every later header links to its predecessor. -/
theorem headersLoop_iff (last : Bytes) (l : List BlockHeader) :
    headersLoop last l = true ↔
      (∀ h, l.head? = some h → h.PrecHash = last) ∧
      ∀ i p h, l[i]? = some p → l[i + 1]? = some h → h.PrecHash = p.Hash := by
  induction l generalizing last with
  | nil => simp [headersLoop]
  | cons h0 rest ih =>
    simp only [headersLoop]
    by_cases hc : compare h0.PrecHash last = 0
    · have hne : ¬ (compare h0.PrecHash last ≠ 0) := by simp [hc]
      rw [if_neg hne, ih]
      have heq := (compare_eq_zero_iff _ _).mp hc
      constructor
      · rintro ⟨h1, h2⟩
        refine ⟨fun h hh => by simp at hh; rw [← hh]; exact heq, ?_⟩
        intro i p h hp hh
        cases i with
        | zero =>
          simp at hp hh
          subst hp
          exact h1 h (by rw [List.head?_eq_getElem?]; exact hh)
        | succ i =>
          simp at hp hh
          exact h2 i p h hp hh
      · rintro ⟨_, h2⟩
        refine ⟨?_, fun i p h hp hh => h2 (i + 1) p h (by simpa using hp) (by simpa using hh)⟩
        intro h hh
        exact h2 0 h0 h (by simp) (by rw [List.head?_eq_getElem?] at hh; simpa using hh)
    · have hne : compare h0.PrecHash last ≠ 0 := hc
      rw [if_pos hne]
      constructor
      · intro h; cases h
      · rintro ⟨h1, _⟩
        exact absurd ((compare_eq_zero_iff _ _).mpr (h1 h0 (by simp))) hc

/-- A computed elapsed time read a header at the non-negative index
`Height - 10` and subtracted its timestamp. -/
theorem elapsedTime_inv (headers : List BlockHeader) (header : BlockHeader) (t : Int)
    (h : elapsedTime headers header = .ok t) :
    0 ≤ wrap64 (header.Height - 10) ∧
    ∃ h10, headers[(wrap64 (header.Height - 10)).toNat]? = some h10 ∧
      t = wrap64 (header.Timestamp - h10.Timestamp) := by
  unfold elapsedTime at h
  simp only at h
  split_ifs at h with hneg
  cases hg : headers[(wrap64 (header.Height - 10)).toNat]? with
  | none => rw [hg] at h; simp at h
  | some h10 =>
    rw [hg] at h
    simp only at h
    injection h with h
    exact ⟨by omega, h10, rfl, h.symm⟩

/-- For a non-zero new difficulty lines 415-420 produce the padded bytes. -/
theorem targetOfDiff_ok (baseTarget : Bytes) (newDiff : Int) (hne : newDiff ≠ 0) :
    targetOfDiff baseTarget newDiff = .ok (padTo baseTarget.length
      (bigBytes (Int.tdiv (bigOfBytes baseTarget : Int) newDiff).natAbs)) := by
  unfold targetOfDiff
  rw [if_neg hne]

/-- A call of `AddBlock` that returned true went through `Verify`, kept
`baseTarget`, and touched `lastTarget` only at a multiple of 10, where it
installed the target of the retarget. -/
theorem AddBlock_true_inv (verify : Blockchain → Block → Bool)
    (sanitize : Bytes → GoString) (s : Blockchain) (block : Block) (s2 : Blockchain)
    (h : AddBlock verify sanitize s block = .ok (true, s2)) :
    verify s block = true ∧ s2.baseTarget = s.baseTarget ∧
    (Int.tmod block.Header.Height 10 ≠ 0 → s2.lastTarget = s.lastTarget) ∧
    (Int.tmod block.Header.Height 10 = 0 →
      ∃ oldDiff h10,
        oldDifficulty s.baseTarget block.Header.Target = .ok oldDiff ∧
        0 ≤ wrap64 (block.Header.Height - 10) ∧
        (s.headers ++ [block.Header])[(wrap64 (block.Header.Height - 10)).toNat]? = some h10 ∧
        wrap64 (block.Header.Timestamp - h10.Timestamp) ≠ 0 ∧
        targetOfDiff s.baseTarget
          (retargetDiff oldDiff (wrap64 (block.Header.Timestamp - h10.Timestamp)))
          = .ok s2.lastTarget) := by
  have hv : verify s block = true := by
    by_contra hc
    have hf : verify s block = false := by simpa using hc
    unfold AddBlock at h
    rw [if_pos hf] at h
    injection h with h
    injection h with h1 _
    cases h1
  have hv2 : ¬ (verify s block = false) := by simp [hv]
  obtain ⟨f1, f2, f3, -, -⟩ := UpdateUnspentTxOuts_frame sanitize
    { s with headers := s.headers ++ [block.Header] } block
  simp only at f1 f2 f3
  unfold AddBlock at h
  rw [if_neg hv2] at h
  simp only at h
  by_cases h10 : Int.tmod block.Header.Height 10 = 0
  · rw [if_pos h10] at h
    cases ha : adjustDifficulty (RemovePendingTransaction (UpdateUnspentTxOuts sanitize
        { s with headers := s.headers ++ [block.Header] } block) block.Transactions) block with
    | error e => rw [ha] at h; simp at h
    | ok s4 =>
      rw [ha] at h
      simp only at h
      injection h with h
      injection h with _ h2
      subst h2
      obtain ⟨o, n, hr⟩ := adjustDifficulty_inv _ _ _ ha
      have hok := adjustDifficulty_ok _ _ o n hr
      rw [ha] at hok
      injection hok with hs4
      obtain ⟨t, hold, ht, ht0, hn⟩ := retargetDiffs_inv _ _ o n hr
      simp only [RemovePendingTransaction] at hold ht hs4
      rw [f2] at hold hs4
      rw [f1] at ht
      obtain ⟨hi, hdr, hget, htime⟩ := elapsedTime_inv _ _ t ht
      have hne : n ≠ 0 := by rw [hn]; exact clampDiff_ne_zero _ _
      refine ⟨hv, by rw [hs4], fun hc => absurd h10 hc, fun _ => ?_⟩
      refine ⟨o, hdr, hold, hi, hget, by rw [← htime]; exact ht0, ?_⟩
      rw [← htime, ← hn, targetOfDiff_ok _ _ hne, hs4]
  · rw [if_neg h10] at h
    injection h with h
    injection h with _ h2
    subst h2
    refine ⟨hv, ?_, fun _ => ?_, fun hc => absurd hc h10⟩
    · simp only [RemovePendingTransaction]; exact f2
    · simp only [RemovePendingTransaction]; exact f3

/-- When `Height - 10` is a non-negative index of the list, line 396 yields the
wrapped timestamp difference. -/
theorem elapsedTime_ok (headers : List BlockHeader) (header h10 : BlockHeader)
    (hi : 0 ≤ wrap64 (header.Height - 10))
    (hget : headers[(wrap64 (header.Height - 10)).toNat]? = some h10) :
    elapsedTime headers header = .ok (wrap64 (header.Timestamp - h10.Timestamp)) := by
  unfold elapsedTime
  simp only
  rw [if_neg (by omega), hget]

/-- Away from the multiples of 10 `AddBlock` returns true on every block
`Verify` accepts. -/
theorem AddBlock_plain (verify : Blockchain → Block → Bool) (sanitize : Bytes → GoString)
    (s : Blockchain) (block : Block) (hv : verify s block = true)
    (h10 : Int.tmod block.Header.Height 10 ≠ 0) :
    ∃ s2, AddBlock verify sanitize s block = .ok (true, s2) := by
  unfold AddBlock
  rw [if_neg (by simp [hv])]
  simp only
  rw [if_neg h10]
  exact ⟨_, rfl⟩

/-- At a multiple of 10 `AddBlock` returns true on a block `Verify` accepts as
soon as the header target is not zero, the look-back header exists and the
elapsed time is not zero. -/
theorem AddBlock_retarget_runs (verify : Blockchain → Block → Bool)
    (sanitize : Bytes → GoString) (s : Blockchain) (block : Block) (oldDiff : Int)
    (h10hdr : BlockHeader) (hv : verify s block = true)
    (h10 : Int.tmod block.Header.Height 10 = 0)
    (hold : oldDifficulty s.baseTarget block.Header.Target = .ok oldDiff)
    (hi : 0 ≤ wrap64 (block.Header.Height - 10))
    (hget : (s.headers ++ [block.Header])[(wrap64 (block.Header.Height - 10)).toNat]?
      = some h10hdr)
    (ht0 : wrap64 (block.Header.Timestamp - h10hdr.Timestamp) ≠ 0) :
    ∃ s2, AddBlock verify sanitize s block = .ok (true, s2) := by
  obtain ⟨f1, f2, -, -, -⟩ := UpdateUnspentTxOuts_frame sanitize
    { s with headers := s.headers ++ [block.Header] } block
  simp only at f1 f2
  have het := elapsedTime_ok (s.headers ++ [block.Header]) block.Header h10hdr hi hget
  have hr := retargetDiffs_ok (RemovePendingTransaction (UpdateUnspentTxOuts sanitize
    { s with headers := s.headers ++ [block.Header] } block) block.Transactions) block oldDiff
    (wrap64 (block.Header.Timestamp - h10hdr.Timestamp))
    (by simp only [RemovePendingTransaction]; rw [f2]; exact hold)
    (by simp only [RemovePendingTransaction]; rw [f1]; exact het) ht0
  have hok := adjustDifficulty_ok _ _ _ _ hr
  unfold AddBlock
  rw [if_neg (by simp [hv])]
  simp only
  rw [if_pos h10, hok]
  exact ⟨_, rfl⟩

/-- With a non-zero target the old difficulty is the truncated quotient. -/
theorem oldDifficulty_ok (baseTarget target : Bytes) (h : bigOfBytes target ≠ 0) :
    oldDifficulty baseTarget target
      = .ok (Int.tdiv (bigOfBytes baseTarget : Int) (bigOfBytes target : Int)) := by
  unfold oldDifficulty
  simp only
  have : ¬ ((bigOfBytes target : Int) = 0) := by exact_mod_cast h
  rw [if_neg this]

/-- After the guard of line 598 the divisor `nbBlocks` is never zero. -/
theorem nbBlocksOf_pos (headers : List BlockHeader) : nbBlocksOf headers ≠ 0 := by
  unfold nbBlocksOf
  simp only
  split_ifs with h
  · decide
  · exact h

/-- When no entry of the list answers the input the search finds nothing. -/
theorem findMatch_none (inp : TxIn) (l : List UnspentTxOut) (i : Nat)
    (h : ∀ u, u ∈ l → ¬ matchesIn inp u) : findMatch inp l i = none := by
  induction l generalizing i with
  | nil => rfl
  | cons x xs ih =>
    simp only [findMatch]
    have hx : ¬ (x.InIdx = inp.PrevIdx ∧ compare x.TxHash inp.PrevHash = 0) := by
      rintro ⟨h1, h2⟩
      exact h x (List.mem_cons_self _ _) ⟨(compare_eq_zero_iff _ _).mp h2, h1⟩
    rw [if_neg hx]
    exact ih (i + 1) (fun u hu => h u (List.mem_cons_of_mem _ hu))

/-- The loop over the inputs runs through a concatenation part by part. -/
theorem insLoop_append (sanitize : Bytes → GoString) (pub : Bytes) (a b : List TxIn)
    (m m1 : UtxoIndex) (h : insLoop sanitize pub a m = (m1, true)) :
    insLoop sanitize pub (a ++ b) m = insLoop sanitize pub b m1 := by
  induction a generalizing m with
  | nil =>
    simp only [insLoop] at h
    injection h with h1 _
    subst h1
    rfl
  | cons inp rest ih =>
    simp only [insLoop, List.cons_append] at h ⊢
    cases hg : getCorrespondingOutTx sanitize m pub inp with
    | none => rw [hg] at h; simp at h
    | some out =>
      rw [hg] at h
      exact ih _ h

/-- The loop over the transactions runs through a concatenation part by part. -/
theorem txLoop_append (sanitize : Bytes → GoString) (block : Block) (a b : List Transaction)
    (s s1 : Blockchain) (h : txLoop sanitize block a s = (s1, true)) :
    txLoop sanitize block (a ++ b) s = txLoop sanitize block b s1 := by
  induction a generalizing s with
  | nil =>
    simp only [txLoop] at h
    injection h with h1 _
    subst h1
    rfl
  | cons tx rest ih =>
    simp only [txLoop, List.cons_append] at h ⊢
    cases ha : applyTx sanitize block s tx with
    | mk s2 ok =>
      cases ok with
      | false => rw [ha] at h; simp at h
      | true =>
        rw [ha] at h
        exact ih _ h

/-- Every byte string compares equal to itself. -/
theorem compare_self (a : Bytes) : compare a a = 0 := (compare_eq_zero_iff a a).mpr rfl

/-- For a transaction stamped with the main key, without inputs and with one
output, an output to the main address adds its value once and sets the
miner-fee label. -/
theorem outStep_own_coinbase (ownAddrStr : Bytes) (height : Int) (hash : Bytes) (acc : TxAcc)
    (i : Nat) (o : TxOut) (hc : compare o.Address ownAddrStr = 0) :
    (outStep true ownAddrStr 0 1 height hash acc i o).txValue = wrap64 (acc.txValue + o.Value) ∧
    (outStep true ownAddrStr 0 1 height hash acc i o).addr = minerFeeLabel height := by
  unfold outStep
  simp [hc]

/-- A coinbase-shaped transaction stamped with the main key and paying a
non-zero `int` value to the main address is processed to the end and appends
one miner-fee entry with that value. -/
theorem applyTx_own_coinbase (sanitize : Bytes → GoString) (block : Block) (s1 : Blockchain)
    (tx : Transaction) (o : TxOut) (hins : tx.Ins = []) (houts : tx.Outs = [o])
    (haddr : o.Address = sanitize s1.mainPub) (hown : tx.Stamp.Pub = s1.mainPub)
    (hv : o.Value ≠ 0) (hlo : -2 ^ 63 ≤ o.Value) (hhi : o.Value < 2 ^ 63) :
    ∃ s2, applyTx sanitize block s1 tx = (s2, true) ∧
      s2.history = s1.history ++
        [HistoryTx.mk (minerFeeLabel block.Header.Height) block.Header.Timestamp o.Value] := by
  have hw : wrap64 (0 + o.Value) = o.Value := by
    rw [zero_add]; exact wrap64_of_range _ hlo hhi
  have hc : compare o.Address (sanitize s1.mainPub) = 0 := by rw [haddr]; exact compare_self _
  have hd : decide (compare tx.Stamp.Pub s1.mainPub = 0) = true := by
    rw [hown]; simp [compare_self]
  obtain ⟨e1, e2⟩ := outStep_own_coinbase (sanitize s1.mainPub) block.Header.Height
    tx.Stamp.Hash (TxAcc.mk 0 (sanitize tx.Stamp.Pub) s1.unspentTxOut) 0 o hc
  simp only at e1
  rw [hw] at e1
  have hne : (outStep true (sanitize s1.mainPub) 0 1 block.Header.Height tx.Stamp.Hash
      (TxAcc.mk 0 (sanitize tx.Stamp.Pub) s1.unspentTxOut) 0 o).txValue ≠ 0 := by
    rw [e1]; exact hv
  unfold applyTx
  simp only [hins, houts, insLoop, outsLoop, hd, List.length_nil, List.length_cons]
  refine ⟨_, rfl, ?_⟩
  simp only
  rw [if_pos hne, e1, e2]

/-- Processing one more transaction after a completed prefix. -/
theorem txLoop_snoc (sanitize : Bytes → GoString) (block : Block) (pre : List Transaction)
    (tx : Transaction) (s s1 s2 : Blockchain) (hpre : txLoop sanitize block pre s = (s1, true))
    (htx : applyTx sanitize block s1 tx = (s2, true)) :
    txLoop sanitize block (pre ++ [tx]) s = (s2, true) := by
  rw [txLoop_append sanitize block _ _ _ _ hpre]
  simp only [txLoop, htx]

/-- While `oldDiff * 600` fits in an `int64` no comparison of the clamps is
truncated: for a header target between 1 and the base target and any non-zero
elapsed time, `adjustDifficulty` completes, the new `lastTarget` lies between 1
and the base target, and the difficulty quotient is defined and at least 1. -/
theorem lastTarget_usable (s : Blockchain) (block : Block) (t : Int)
    (hbase : s.baseTarget = baseTargetBytes)
    (hT1 : 1 ≤ bigOfBytes block.Header.Target)
    (hT2 : bigOfBytes block.Header.Target ≤ bigOfBytes baseTargetBytes)
    (hfit : (2 ^ 232 - 1 : Int) / (bigOfBytes block.Header.Target : Int) * 600 < 2 ^ 63)
    (ht : elapsedTime s.headers block.Header = .ok t) (ht0 : t ≠ 0) :
    ∃ s1, adjustDifficulty s block = .ok s1 ∧
      1 ≤ bigOfBytes s1.lastTarget ∧ bigOfBytes s1.lastTarget ≤ bigOfBytes baseTargetBytes ∧
      ∃ d, oldDifficulty s1.baseTarget s1.lastTarget = .ok d ∧ 1 ≤ d := by
  have hB : ((bigOfBytes baseTargetBytes : Nat) : Int) = 2 ^ 232 - 1 := by
    rw [bigOfBytes_baseTargetBytes]; norm_num
  have hTpos : (0 : Int) < (bigOfBytes block.Header.Target : Int) := by exact_mod_cast hT1
  have hTle : ((bigOfBytes block.Header.Target : Nat) : Int) ≤ 2 ^ 232 - 1 := by
    rw [← hB]; exact_mod_cast hT2
  have hold : oldDifficulty s.baseTarget block.Header.Target
      = .ok ((2 ^ 232 - 1 : Int) / (bigOfBytes block.Header.Target : Int)) := by
    unfold oldDifficulty
    simp only
    rw [if_neg (by omega), hbase, hB, Int.tdiv_eq_ediv (by norm_num) (le_of_lt hTpos)]
  generalize hod : (2 ^ 232 - 1 : Int) / (bigOfBytes block.Header.Target : Int) = oldDiff
    at hold hfit
  have h1 : 1 ≤ oldDiff := by
    rw [← hod]
    exact Int.le_ediv_of_mul_le hTpos (by omega)
  have hr := retargetDiffs_ok s block oldDiff t hold ht ht0
  obtain ⟨hf1, hf2⟩ := unclampedDiff_fits oldDiff t (by omega) hfit
  obtain ⟨-, hc2, hc3⟩ := clampDiff_bounds oldDiff (unclampedDiff oldDiff t) h1 (by omega) hf1 hf2
  have hok := adjustDifficulty_ok s block oldDiff _ hr
  have hv := lastTarget_value s.baseTarget (retargetDiff oldDiff t) hc3
  rw [hbase] at hv
  have hn63 : retargetDiff oldDiff t < 2 ^ 63 := by
    have : retargetDiff oldDiff t ≤ oldDiff * 4 := hc2
    omega
  have hL1 : (1 : Int) ≤ (2 ^ 232 - 1) / retargetDiff oldDiff t := by
    apply Int.le_ediv_of_mul_le (by unfold retargetDiff; omega)
    have : (2 : Int) ^ 63 ≤ 2 ^ 232 - 1 := by norm_num
    omega
  have hL2 : (2 ^ 232 - 1 : Int) / retargetDiff oldDiff t ≤ 2 ^ 232 - 1 :=
    Int.ediv_le_self _ (by norm_num)
  generalize hL : bigOfBytes (padTo baseTargetBytes.length (bigBytes
    (Int.tdiv (bigOfBytes baseTargetBytes : Int) (retargetDiff oldDiff t)).natAbs)) = L at hv
  rw [hB] at hv
  have hLpos : (1 : Int) ≤ (L : Int) := by rw [hv]; exact hL1
  have hLle : (L : Int) ≤ 2 ^ 232 - 1 := by rw [hv]; exact hL2
  refine ⟨_, hok, ?_, ?_, ?_⟩
  · simp only
    rw [hbase, hL]
    exact_mod_cast hLpos
  · simp only
    rw [hbase, hL]
    have : (L : Int) ≤ ((bigOfBytes baseTargetBytes : Nat) : Int) := by rw [hB]; exact hLle
    exact_mod_cast this
  · simp only
    unfold oldDifficulty
    simp only
    rw [hbase, hL, hB, if_neg (by omega)]
    refine ⟨_, rfl, ?_⟩
    rw [Int.tdiv_eq_ediv (by norm_num) (by omega)]
    exact Int.le_ediv_of_mul_le (by omega) (by omega)

set_option maxRecDepth 20000 in
/-- The usable-target lemma at a block of old difficulty 2 mined 300 seconds
after the header ten back. -/
theorem lastTarget_usable_witness :
    ∃ s1, adjustDifficulty (exampleState 0) (exampleBlock 300 halfTarget) = .ok s1 ∧
      1 ≤ bigOfBytes s1.lastTarget ∧ bigOfBytes s1.lastTarget ≤ bigOfBytes baseTargetBytes ∧
      ∃ d, oldDifficulty s1.baseTarget s1.lastTarget = .ok d ∧ 1 ≤ d :=
  lastTarget_usable (exampleState 0) (exampleBlock 300 halfTarget) 300 rfl (by decide) (by decide)
    (by decide) rfl (by decide)

/-- Whatever `AddBlock` returns, it either left the state alone or `Verify`
held and the header list grew by the block's header. -/
theorem AddBlock_headers (verify : Blockchain → Block → Bool) (sanitize : Bytes → GoString)
    (s s2 : Blockchain) (block : Block) (b : Bool)
    (h : AddBlock verify sanitize s block = .ok (b, s2)) :
    s2 = s ∨ (verify s block = true ∧ s2.headers = s.headers ++ [block.Header]) := by
  obtain ⟨f1, -, -, -, -⟩ := UpdateUnspentTxOuts_frame sanitize
    { s with headers := s.headers ++ [block.Header] } block
  simp only at f1
  unfold AddBlock at h
  by_cases hv : verify s block = false
  · rw [if_pos hv] at h
    injection h with h
    injection h with _ h2
    exact Or.inl h2.symm
  · rw [if_neg hv] at h
    simp only at h
    have hv2 : verify s block = true := by simpa using hv
    refine Or.inr ⟨hv2, ?_⟩
    by_cases h10 : Int.tmod block.Header.Height 10 = 0
    · rw [if_pos h10] at h
      cases ha : adjustDifficulty (RemovePendingTransaction (UpdateUnspentTxOuts sanitize
          { s with headers := s.headers ++ [block.Header] } block) block.Transactions) block with
      | error e => rw [ha] at h; simp at h
      | ok s4 =>
        rw [ha] at h
        simp only at h
        injection h with h
        injection h with _ h2
        subst h2
        obtain ⟨o, n, hr⟩ := adjustDifficulty_inv _ _ _ ha
        have hok := adjustDifficulty_ok _ _ o n hr
        rw [ha] at hok
        injection hok with hs4
        rw [hs4]
        simp only [RemovePendingTransaction]
        exact f1
    · rw [if_neg h10] at h
      injection h with h
      injection h with _ h2
      subst h2
      simp only [RemovePendingTransaction]
      exact f1

/-- Under the height gate every reachable state has a non-empty header list in
which each header's height is its position. -/
theorem reachable_heights (verify : Blockchain → Block → Bool) (sanitize : Bytes → GoString)
    (hgate : HeightGate verify) (s : Blockchain) (hreach : Reachable verify sanitize s) :
    s.headers ≠ [] ∧ ∀ (i : Nat) (h : BlockHeader), s.headers[i]? = some h → h.Height = (i : Int) := by
  induction hreach with
  | genesis s g hs hg =>
    refine ⟨by rw [hs]; simp, ?_⟩
    intro i h hi
    rw [hs] at hi
    cases i with
    | zero =>
      simp at hi
      rw [← hi, hg]; rfl
    | succ n => simp at hi
  | addBlock s s2 block b _ hadd ih =>
    rcases AddBlock_headers verify sanitize s s2 block b hadd with heq | ⟨hv, hh⟩
    · rw [heq]; exact ih
    · obtain ⟨hne, hinv⟩ := ih
      refine ⟨by rw [hh]; simp, ?_⟩
      intro i h hi
      rw [hh] at hi
      by_cases hlt : i < s.headers.length
      · rw [List.getElem?_append_left hlt] at hi
        exact hinv i h hi
      · have hge : s.headers.length ≤ i := by omega
        rw [List.getElem?_append_right hge] at hi
        have hi0 : i - s.headers.length = 0 := by
          by_contra hc
          obtain ⟨k, hk⟩ := Nat.exists_eq_succ_of_ne_zero hc
          rw [hk] at hi
          simp at hi
        rw [hi0] at hi
        simp at hi
        obtain ⟨tip, htip⟩ : ∃ tip, s.headers.getLast? = some tip := by
          cases hl : s.headers.getLast? with
          | none => rw [List.getLast?_eq_none_iff] at hl; exact absurd hl hne
          | some t => exact ⟨t, rfl⟩
        have hg := hgate s block tip htip hv
        have htipH : tip.Height = ((s.headers.length - 1 : Nat) : Int) := by
          apply hinv
          rw [← htip, List.getLast?_eq_getElem?]
        have hpos : 0 < s.headers.length := List.length_pos.mpr hne
        rw [← hi, hg, htipH]
        omega

/-- Once line 396 has read its header, `adjustDifficulty` cannot panic with an
index out of range. -/
theorem adjustDifficulty_no_index_panic (s : Blockchain) (block : Block) (t : Int)
    (ht : elapsedTime s.headers block.Header = .ok t) :
    panicOf (adjustDifficulty s block) ≠ some GoPanic.indexOutOfRange := by
  unfold adjustDifficulty retargetDiffs
  rw [ht]
  cases hold : oldDifficulty s.baseTarget block.Header.Target with
  | error e =>
    unfold oldDifficulty at hold
    simp only at hold
    split_ifs at hold
    injection hold with hold
    rw [← hold]
    simp [panicOf]
  | ok d =>
    simp only
    by_cases h0 : t = 0
    · rw [if_pos h0]; simp [panicOf]
    · rw [if_neg h0]
      simp only
      rw [targetOfDiff_ok s.baseTarget (retargetDiff d t) (clampDiff_ne_zero _ _)]
      simp [panicOf]

/-- The example predicate `linkVerify` obeys the height gate. -/
theorem HeightGate_linkVerify : HeightGate linkVerify := by
  intro s block tip htip hv
  unfold linkVerify at hv
  rw [htip] at hv
  simp only [Bool.and_eq_true, decide_eq_true_eq] at hv
  exact hv.1.1

/-- The ten-block chain `steadyState` is reached from its genesis by nine calls
of `AddBlock`. -/
theorem steadyState_reachable : Reachable linkVerify hexSanitize steadyState := by
  have h1 : Reachable linkVerify hexSanitize (steadyPrefix 1) :=
    Reachable.genesis _ (exampleHeader 0 0 baseTargetBytes) rfl rfl
  have h2 := Reachable.addBlock (steadyPrefix 1) (steadyPrefix 2) (steadyBlock 1) true h1 rfl
  have h3 := Reachable.addBlock (steadyPrefix 2) (steadyPrefix 3) (steadyBlock 2) true h2 rfl
  have h4 := Reachable.addBlock (steadyPrefix 3) (steadyPrefix 4) (steadyBlock 3) true h3 rfl
  have h5 := Reachable.addBlock (steadyPrefix 4) (steadyPrefix 5) (steadyBlock 4) true h4 rfl
  have h6 := Reachable.addBlock (steadyPrefix 5) (steadyPrefix 6) (steadyBlock 5) true h5 rfl
  have h7 := Reachable.addBlock (steadyPrefix 6) (steadyPrefix 7) (steadyBlock 6) true h6 rfl
  have h8 := Reachable.addBlock (steadyPrefix 7) (steadyPrefix 8) (steadyBlock 7) true h7 rfl
  have h9 := Reachable.addBlock (steadyPrefix 8) (steadyPrefix 9) (steadyBlock 8) true h8 rfl
  exact Reachable.addBlock (steadyPrefix 9) steadyState (steadyBlock 9) true h9 rfl

/-! ## The claims -/

/-- C1 (amended). `AddBlock` returns false and leaves the whole state (header
list, UTXO index, pending pool, history, `lastTarget`) unchanged when `Verify`
is false. When `Verify` is true, every result `AddBlock` returns is true with
the header list equal to the old list followed by `block.Header`; it does
return when the height is not a multiple of 10 (and `lastTarget` is then
unchanged) and, at a multiple of 10, whenever the retarget runs through: the
header target is non-zero, `Height - 10` lies inside the extended header list
and the elapsed time is not zero. -/
theorem AddBlock_verdict (verify : Blockchain → Block → Bool) (sanitize : Bytes → GoString)
    (s : Blockchain) (block : Block) :
    (verify s block = false → AddBlock verify sanitize s block = .ok (false, s)) ∧
    (verify s block = true →
      (∀ r s2, AddBlock verify sanitize s block = .ok (r, s2) →
        r = true ∧ s2.headers = s.headers ++ [block.Header]) ∧
      (Int.tmod block.Header.Height 10 ≠ 0 →
        ∃ s2, AddBlock verify sanitize s block = .ok (true, s2)
          ∧ s2.headers = s.headers ++ [block.Header] ∧ s2.lastTarget = s.lastTarget) ∧
      (∀ oldDiff t, oldDifficulty s.baseTarget block.Header.Target = .ok oldDiff →
        elapsedTime (s.headers ++ [block.Header]) block.Header = .ok t → t ≠ 0 →
        ∃ s2, AddBlock verify sanitize s block = .ok (true, s2)
          ∧ s2.headers = s.headers ++ [block.Header])) := by
  constructor
  · intro hv
    unfold AddBlock
    rw [if_pos hv]
  · intro hv
    have hv2 : ¬ (verify s block = false) := by simp [hv]
    obtain ⟨f1, f2, f3, -, -⟩ := UpdateUnspentTxOuts_frame sanitize
      { s with headers := s.headers ++ [block.Header] } block
    simp only at f1 f2 f3
    refine ⟨?_, ?_, ?_⟩
    · intro r s2 h
      unfold AddBlock at h
      rw [if_neg hv2] at h
      simp only at h
      split_ifs at h with h10
      · cases ha : adjustDifficulty (RemovePendingTransaction (UpdateUnspentTxOuts sanitize
            { s with headers := s.headers ++ [block.Header] } block) block.Transactions)
            block with
        | error e => rw [ha] at h; simp at h
        | ok s4 =>
          rw [ha] at h
          simp only at h
          injection h with h
          injection h with h1 h2
          obtain ⟨o, n, hr⟩ := adjustDifficulty_inv _ _ _ ha
          have hok := adjustDifficulty_ok _ _ o n hr
          rw [ha] at hok
          injection hok with hs4
          refine ⟨h1.symm, ?_⟩
          rw [← h2, hs4]
          simp only [RemovePendingTransaction]
          exact f1
      · injection h with h
        injection h with h1 h2
        refine ⟨h1.symm, ?_⟩
        rw [← h2]
        simp only [RemovePendingTransaction]
        exact f1
    · intro h10
      unfold AddBlock
      rw [if_neg hv2]
      simp only
      rw [if_neg h10]
      exact ⟨_, rfl, by simp only [RemovePendingTransaction]; exact f1,
        by simp only [RemovePendingTransaction]; exact f3⟩
    · intro oldDiff t hold ht ht0
      unfold AddBlock
      rw [if_neg hv2]
      simp only
      have hr : retargetDiffs (RemovePendingTransaction (UpdateUnspentTxOuts sanitize
          { s with headers := s.headers ++ [block.Header] } block) block.Transactions) block
          = .ok (oldDiff, retargetDiff oldDiff t) := by
        apply retargetDiffs_ok _ _ _ _ _ _ ht0
        · simp only [RemovePendingTransaction]; rw [f2]; exact hold
        · simp only [RemovePendingTransaction]; rw [f1]; exact ht
      have hok := adjustDifficulty_ok _ _ _ _ hr
      split_ifs with h10
      · rw [hok]
        exact ⟨_, rfl, by simp only [RemovePendingTransaction]; exact f1⟩
      · exact ⟨_, rfl, by simp only [RemovePendingTransaction]; exact f1⟩

/-- C1, worked instance: the coinbase block of height 1 passes the header-chain
checks and `AddBlock` returns true with the header appended and `lastTarget`
untouched. -/
theorem AddBlock_verdict_witness :
    linkVerify (exampleState 0) coinbaseBlock = true ∧
    Int.tmod coinbaseBlock.Header.Height 10 ≠ 0 ∧
    ∃ s2, AddBlock linkVerify hexSanitize (exampleState 0) coinbaseBlock = .ok (true, s2)
      ∧ s2.headers = (exampleState 0).headers ++ [coinbaseBlock.Header]
      ∧ s2.lastTarget = (exampleState 0).lastTarget :=
  ⟨by decide, by decide,
    ((AddBlock_verdict linkVerify hexSanitize (exampleState 0) coinbaseBlock).2 (by decide)).2.1
      (by decide)⟩

/-- C1 as stated fails: on a chain of ten blocks mined one minute apart, a
block of height 10 stamped one minute later whose target field is 32 zero
bytes passes the header checks, yet `AddBlock` does not return true: the
retarget divides the base target by zero at line 394. -/
theorem AddBlock_panics_after_accepting :
    linkVerify steadyState (exampleBlock 600 zeroTarget) = true ∧
    panicOf (AddBlock linkVerify hexSanitize steadyState (exampleBlock 600 zeroTarget))
      = some GoPanic.bigDivisionByZero := by decide

/-- C2 (amended). For every UTXO index and every block whose input lookups all
succeed, every `TxIn` of every transaction consumed exactly one index entry
answering it (`TxHash == PrevHash` and `InIdx == PrevIdx`) under the sender's
sanitized address; each consumed entry was in the index before the block or
was created by an output of the block itself; and under every key the index
after the block, together with the consumed entries, is a rearrangement of
the index before the block together with the created entries, so each
consumed occurrence is gone (an equal duplicate may remain). -/
theorem consumed_inputs_accounted (sanitize : Bytes → GoString) (s : Blockchain) (block : Block)
    (h : updateCompletes sanitize s block = true) :
    ∃ spent : List (List UnspentTxOut),
      List.Forall₂ (fun tx sp => List.Forall₂ matchesIn tx.Ins sp) block.Transactions spent ∧
      (∀ K u, u ∈ spentUnder sanitize K block.Transactions spent →
        u ∈ s.unspentTxOut K ∨ u ∈ createdUnder K block.Transactions) ∧
      ∀ K, List.Perm
        ((UpdateUnspentTxOuts sanitize s block).unspentTxOut K
          ++ spentUnder sanitize K block.Transactions spent)
        (s.unspentTxOut K ++ createdUnder K block.Transactions) :=
  block_accounting sanitize s block h

/-- C2, worked instance: the block whose second transaction spends the output
of its first. -/
theorem consumed_inputs_accounted_witness :
    updateCompletes hexSanitize (exampleState 0) spendBlock = true ∧
    ∃ spent : List (List UnspentTxOut),
      List.Forall₂ (fun tx sp => List.Forall₂ matchesIn tx.Ins sp) spendBlock.Transactions spent ∧
      (∀ K u, u ∈ spentUnder hexSanitize K spendBlock.Transactions spent →
        u ∈ (exampleState 0).unspentTxOut K ∨ u ∈ createdUnder K spendBlock.Transactions) ∧
      ∀ K, List.Perm
        ((UpdateUnspentTxOuts hexSanitize (exampleState 0) spendBlock).unspentTxOut K
          ++ spentUnder hexSanitize K spendBlock.Transactions spent)
        ((exampleState 0).unspentTxOut K ++ createdUnder K spendBlock.Transactions) :=
  ⟨by decide, consumed_inputs_accounted hexSanitize (exampleState 0) spendBlock (by decide)⟩

/-- C2 as stated fails. In the send-and-consume scenario the transfer has the
input `([7], 0)` and the block is applied in full, yet after the block the
index still holds, under the sender's sanitized address, an entry with
`TxHash == [7]` and `InIdx == 0`: the equal entry of the miner's next coinbase.
And in `spendBlock`, applied in full on an empty index, the input `([7], 0)`
of the second transaction references an output that was not in the index
before the block: the first transaction of the same block created it. -/
theorem consumed_input_not_absent_or_not_present :
    (updateCompletes hexSanitize fundedState transferBlock = true ∧
      transferTx ∈ transferBlock.Transactions ∧ TxIn.mk [7] 0 ∈ transferTx.Ins ∧
      ∃ u, u ∈ (UpdateUnspentTxOuts hexSanitize fundedState transferBlock).unspentTxOut
          (hexSanitize transferTx.Stamp.Pub) ∧ u.TxHash = [7] ∧ u.InIdx = 0) ∧
    (updateCompletes hexSanitize (exampleState 0) spendBlock = true ∧
      spendTx ∈ spendBlock.Transactions ∧ TxIn.mk [7] 0 ∈ spendTx.Ins ∧
      (exampleState 0).unspentTxOut (hexSanitize spendTx.Stamp.Pub) = []) := by
  refine ⟨⟨by decide, by decide, by decide,
    UnspentTxOut.mk (TxOut.mk 50 (hexSanitize [1])) [7] 0 false, by decide, rfl, rfl⟩, ?_⟩
  decide

/-- C3 (amended). For every UTXO index and every block whose input lookups all
succeed, for every transaction `t` of the block and every output
`o = t.Outs[i]`: after the block the index holds, under the key `o.Address`
taken as it is, the entry with `Out == o`, `TxHash == t.Stamp.Hash`,
`InIdx == i` (and `IsTargeted == false`), unless a transaction of the block
whose sender has the sanitized address `o.Address` has an input with
`PrevHash == t.Stamp.Hash` and `PrevIdx == i`. -/
theorem created_outputs_indexed (sanitize : Bytes → GoString) (s : Blockchain) (block : Block)
    (h : updateCompletes sanitize s block = true) (t : Transaction)
    (ht : t ∈ block.Transactions) (i : Nat) (o : TxOut) (ho : t.Outs[i]? = some o) :
    UnspentTxOut.mk o t.Stamp.Hash (i : Int) false
        ∈ (UpdateUnspentTxOuts sanitize s block).unspentTxOut o.Address
    ∨ ∃ t2, t2 ∈ block.Transactions ∧ sanitize t2.Stamp.Pub = o.Address ∧
        ∃ inp, inp ∈ t2.Ins ∧ inp.PrevHash = t.Stamp.Hash ∧ inp.PrevIdx = (i : Int) := by
  obtain ⟨sps, hf, -, hp⟩ := block_accounting sanitize s block h
  have hc : UnspentTxOut.mk o t.Stamp.Hash (i : Int) false ∈ createdBy t := by
    have := mem_createdFrom t.Stamp.Hash t.Outs 0 i o ho
    simpa [createdBy] using this
  have hcu := mem_createdUnder o.Address block.Transactions t _ ht hc rfl
  have hmem := (hp o.Address).symm.subset (List.mem_append_right _ hcu)
  rcases List.mem_append.mp hmem with h1 | h1
  · exact Or.inl h1
  · right
    obtain ⟨t2, ht2, hk, inp, hin, hm⟩ := mem_spentUnder sanitize _ _ _ _ hf h1
    exact ⟨t2, ht2, hk, inp, hin, hm.1.symm, hm.2.symm⟩

/-- C3, worked instance: the output of the second transaction of `spendBlock`. -/
theorem created_outputs_indexed_witness :
    updateCompletes hexSanitize (exampleState 0) spendBlock = true ∧
    spendTx ∈ spendBlock.Transactions ∧
    spendTx.Outs[0]? = some (TxOut.mk 50 (hexSanitize [2])) ∧
    (UnspentTxOut.mk (TxOut.mk 50 (hexSanitize [2])) spendTx.Stamp.Hash ((0 : Nat) : Int) false
        ∈ (UpdateUnspentTxOuts hexSanitize (exampleState 0) spendBlock).unspentTxOut
            (TxOut.mk 50 (hexSanitize [2])).Address
      ∨ ∃ t2, t2 ∈ spendBlock.Transactions ∧
          hexSanitize t2.Stamp.Pub = (TxOut.mk 50 (hexSanitize [2])).Address ∧
          ∃ inp, inp ∈ t2.Ins ∧ inp.PrevHash = spendTx.Stamp.Hash
            ∧ inp.PrevIdx = ((0 : Nat) : Int)) :=
  ⟨by decide, by decide, by decide,
    created_outputs_indexed hexSanitize (exampleState 0) spendBlock (by decide) spendTx
      (by decide) 0 (TxOut.mk 50 (hexSanitize [2])) (by decide)⟩

/-- C3 as stated fails: `spendBlock` is applied in full, its first transaction
has the output `(50, address of [1])`, and after the block the index holds
nothing under the sanitized form of that address nor under the address
itself: the second transaction of the block consumed the entry. -/
theorem created_output_spent_in_block :
    updateCompletes hexSanitize (exampleState 0) spendBlock = true ∧
    coinbaseTx ∈ spendBlock.Transactions ∧
    coinbaseTx.Outs[0]? = some (TxOut.mk 50 (hexSanitize [1])) ∧
    (UpdateUnspentTxOuts hexSanitize (exampleState 0) spendBlock).unspentTxOut
      (hexSanitize (TxOut.mk 50 (hexSanitize [1])).Address) = [] ∧
    (UpdateUnspentTxOuts hexSanitize (exampleState 0) spendBlock).unspentTxOut
      (TxOut.mk 50 (hexSanitize [1])).Address = [] := by decide

/-- C4. `GetAvailableFunds(A)` is the Go sum of `Out.Value` over the entries
under `sanitize(A)`. For every block whose input lookups all succeed and every
address `A`: the exact value sum under `sanitize(A)` after the block is the
sum before, minus the values of the entries of `A` the block's inputs
consumed, plus the values of the block's outputs paying `A`; and the funds
after are the funds before minus consumed plus paid, in Go `int` arithmetic,
and as exact integers whenever the two sums fit in an `int`. In particular a
block holding only a coinbase paying `A` raises the funds of `A` by exactly
the reward. -/
theorem funds_conserved (sanitize : Bytes → GoString) (s : Blockchain) (block : Block)
    (wallet : Bytes) (h : updateCompletes sanitize s block = true) :
    GetAvailableFunds sanitize s wallet
      = goSum ((s.unspentTxOut (sanitize wallet)).map (fun u => u.Out.Value)) ∧
    (∃ spent : List (List UnspentTxOut),
      List.Forall₂ (fun tx sp => List.Forall₂ matchesIn tx.Ins sp) block.Transactions spent ∧
      (∀ u, u ∈ spentUnder sanitize (sanitize wallet) block.Transactions spent →
        u ∈ s.unspentTxOut (sanitize wallet)
          ∨ u ∈ createdUnder (sanitize wallet) block.Transactions) ∧
      valueSum ((UpdateUnspentTxOuts sanitize s block).unspentTxOut (sanitize wallet))
        = valueSum (s.unspentTxOut (sanitize wallet))
          - valueSum (spentUnder sanitize (sanitize wallet) block.Transactions spent)
          + paidTo (sanitize wallet) block.Transactions ∧
      GetAvailableFunds sanitize (UpdateUnspentTxOuts sanitize s block) wallet
        = wrap64 (GetAvailableFunds sanitize s wallet
          - valueSum (spentUnder sanitize (sanitize wallet) block.Transactions spent)
          + paidTo (sanitize wallet) block.Transactions) ∧
      (-2 ^ 63 ≤ valueSum (s.unspentTxOut (sanitize wallet)) →
        valueSum (s.unspentTxOut (sanitize wallet)) < 2 ^ 63 →
        -2 ^ 63 ≤ valueSum ((UpdateUnspentTxOuts sanitize s block).unspentTxOut
          (sanitize wallet)) →
        valueSum ((UpdateUnspentTxOuts sanitize s block).unspentTxOut (sanitize wallet))
          < 2 ^ 63 →
        GetAvailableFunds sanitize (UpdateUnspentTxOuts sanitize s block) wallet
          = GetAvailableFunds sanitize s wallet
            - valueSum (spentUnder sanitize (sanitize wallet) block.Transactions spent)
            + paidTo (sanitize wallet) block.Transactions)) ∧
    (∀ cb reward, block.Transactions = [cb] → cb.Ins = [] →
      cb.Outs = [TxOut.mk reward (sanitize wallet)] →
      GetAvailableFunds sanitize (UpdateUnspentTxOuts sanitize s block) wallet
        = wrap64 (GetAvailableFunds sanitize s wallet + reward)) := by
  refine ⟨?_, ?_, ?_⟩
  · rw [funds_eq_wrap, goSum_eq]; rfl
  · obtain ⟨sps, hf, hmem, hp⟩ := block_accounting sanitize s block h
    have hsum := (List.Perm.map (fun u : UnspentTxOut => u.Out.Value)
      (hp (sanitize wallet))).sum_eq
    have hexact : valueSum ((UpdateUnspentTxOuts sanitize s block).unspentTxOut (sanitize wallet))
        = valueSum (s.unspentTxOut (sanitize wallet))
          - valueSum (spentUnder sanitize (sanitize wallet) block.Transactions sps)
          + paidTo (sanitize wallet) block.Transactions := by
      have h2 : valueSum ((UpdateUnspentTxOuts sanitize s block).unspentTxOut (sanitize wallet)
            ++ spentUnder sanitize (sanitize wallet) block.Transactions sps)
          = valueSum (s.unspentTxOut (sanitize wallet)
            ++ createdUnder (sanitize wallet) block.Transactions) := hsum
      rw [valueSum_append, valueSum_append, valueSum_createdUnder] at h2
      omega
    refine ⟨sps, hf, hmem (sanitize wallet), hexact, ?_, ?_⟩
    swap
    · intro b1 b2 a1 a2
      rw [funds_eq_wrap, funds_eq_wrap, wrap64_of_range _ a1 a2, wrap64_of_range _ b1 b2]
      exact hexact
    rw [funds_eq_wrap, funds_eq_wrap, hexact]
    have e : valueSum (s.unspentTxOut (sanitize wallet))
          - valueSum (spentUnder sanitize (sanitize wallet) block.Transactions sps)
          + paidTo (sanitize wallet) block.Transactions
        = valueSum (s.unspentTxOut (sanitize wallet))
          + (paidTo (sanitize wallet) block.Transactions
            - valueSum (spentUnder sanitize (sanitize wallet) block.Transactions sps)) := by
      ring
    have e2 : wrap64 (valueSum (s.unspentTxOut (sanitize wallet)))
          - valueSum (spentUnder sanitize (sanitize wallet) block.Transactions sps)
          + paidTo (sanitize wallet) block.Transactions
        = wrap64 (valueSum (s.unspentTxOut (sanitize wallet)))
          + (paidTo (sanitize wallet) block.Transactions
            - valueSum (spentUnder sanitize (sanitize wallet) block.Transactions sps)) := by
      ring
    rw [e, e2, wrap64_add_left]
  · intro cb reward htx hins houts
    exact (coinbase_only_funds sanitize s block wallet cb reward htx hins houts).2

/-- C4, worked instance, the send-and-consume scenario: the main key holds the
reward 50, then a block with a new coinbase and a transfer of 25 with change
25 leaves it with 25 + 50 = 75 and credits the recipient with 25. -/
theorem funds_conserved_witness :
    updateCompletes hexSanitize fundedState transferBlock = true ∧
    GetAvailableFunds hexSanitize (exampleState 0) [1] = 0 ∧
    GetAvailableFunds hexSanitize fundedState [1] = 50 ∧
    GetAvailableFunds hexSanitize (UpdateUnspentTxOuts hexSanitize fundedState transferBlock) [1]
      = 75 ∧
    GetAvailableFunds hexSanitize (UpdateUnspentTxOuts hexSanitize fundedState transferBlock) [2]
      = 25 ∧
    ∃ spent : List (List UnspentTxOut),
      List.Forall₂ (fun tx sp => List.Forall₂ matchesIn tx.Ins sp)
        transferBlock.Transactions spent ∧
      (∀ u, u ∈ spentUnder hexSanitize (hexSanitize [1]) transferBlock.Transactions spent →
        u ∈ fundedState.unspentTxOut (hexSanitize [1])
          ∨ u ∈ createdUnder (hexSanitize [1]) transferBlock.Transactions) ∧
      valueSum ((UpdateUnspentTxOuts hexSanitize fundedState transferBlock).unspentTxOut
          (hexSanitize [1]))
        = valueSum (fundedState.unspentTxOut (hexSanitize [1]))
          - valueSum (spentUnder hexSanitize (hexSanitize [1]) transferBlock.Transactions spent)
          + paidTo (hexSanitize [1]) transferBlock.Transactions ∧
      GetAvailableFunds hexSanitize (UpdateUnspentTxOuts hexSanitize fundedState transferBlock)
          [1]
        = wrap64 (GetAvailableFunds hexSanitize fundedState [1]
          - valueSum (spentUnder hexSanitize (hexSanitize [1]) transferBlock.Transactions spent)
          + paidTo (hexSanitize [1]) transferBlock.Transactions) ∧
      (-2 ^ 63 ≤ valueSum (fundedState.unspentTxOut (hexSanitize [1])) →
        valueSum (fundedState.unspentTxOut (hexSanitize [1])) < 2 ^ 63 →
        -2 ^ 63 ≤ valueSum ((UpdateUnspentTxOuts hexSanitize fundedState
          transferBlock).unspentTxOut (hexSanitize [1])) →
        valueSum ((UpdateUnspentTxOuts hexSanitize fundedState transferBlock).unspentTxOut
          (hexSanitize [1])) < 2 ^ 63 →
        GetAvailableFunds hexSanitize (UpdateUnspentTxOuts hexSanitize fundedState transferBlock)
            [1]
          = GetAvailableFunds hexSanitize fundedState [1]
            - valueSum (spentUnder hexSanitize (hexSanitize [1]) transferBlock.Transactions
                spent)
            + paidTo (hexSanitize [1]) transferBlock.Transactions) :=
  ⟨by decide, by decide, by decide, by decide, by decide,
    (funds_conserved hexSanitize fundedState transferBlock [1] (by decide)).2.1⟩

/-- C5 (amended). For every block at a retarget boundary at which
`adjustDifficulty` completes, with `oldDiff = T0 / header.target` and `newDiff`
the difficulty from which `lastTarget` is derived: if `oldDiff >= 1` and
`oldDiff * 600 < 2^63` (every number the clamps compare then fits in an
`int64`), then `oldDiff/4 <= newDiff <= oldDiff*4` and `newDiff >= 1` as exact
integers; if `oldDiff = 0` (header target above `T0`), then `newDiff = 1`. -/
theorem retarget_clamp (s : Blockchain) (block : Block) (oldDiff newDiff : Int)
    (h : retargetDiffs s block = .ok (oldDiff, newDiff)) :
    (∃ s1, adjustDifficulty s block = .ok s1) ∧
    (oldDiff = 0 → newDiff = 1) ∧
    (1 ≤ oldDiff → oldDiff * 600 < 2 ^ 63 →
      oldDiff / 4 ≤ newDiff ∧ newDiff ≤ oldDiff * 4 ∧ 1 ≤ newDiff) := by
  obtain ⟨t, hold, ht, ht0, hn⟩ := retargetDiffs_inv s block oldDiff newDiff h
  refine ⟨⟨_, adjustDifficulty_ok s block oldDiff newDiff h⟩, ?_, ?_⟩
  · intro h0
    subst h0
    rw [hn]
    simp only [retargetDiff, unclampedDiff, zero_mul]
    decide
  · intro h1 h600
    obtain ⟨hl, hu⟩ := unclampedDiff_fits oldDiff t (by omega) h600
    rw [hn]
    exact clampDiff_bounds oldDiff _ h1 (by omega) hl hu

/-- C5, worked instance: old difficulty 1 and 150 seconds for ten blocks give
the new difficulty 4, the upper clamp. -/
theorem retarget_clamp_witness :
    retargetDiffs (exampleState 0) (exampleBlock 150 baseTargetBytes) = .ok (1, 4) ∧
    (∃ s1, adjustDifficulty (exampleState 0) (exampleBlock 150 baseTargetBytes) = .ok s1) ∧
    ((1 : Int) = 0 → (4 : Int) = 1) ∧
    ((1 : Int) ≤ 1 → (1 : Int) * 600 < 2 ^ 63 →
      (1 : Int) / 4 ≤ 4 ∧ (4 : Int) ≤ 1 * 4 ∧ (1 : Int) ≤ 4) :=
  ⟨by decide,
    retarget_clamp (exampleState 0) (exampleBlock 150 baseTargetBytes) 1 4 (by decide)⟩

/-- C5 as stated fails: for a header target of 32 bytes 0xFF and an elapsed
time of 600 seconds `adjustDifficulty` completes with `oldDiff = 0` and
`newDiff = 1`, and `1 <= 0 * 4` is false. -/
theorem retarget_clamp_fails_at_zero_difficulty :
    okOf (retargetDiffs (exampleState 0) (exampleBlock 600 overTarget)) = some (0, 1)
      ∧ ¬ ((1 : Int) ≤ 0 * 4) := by decide

/-- C6. A retarget with an elapsed time of zero divides by zero: whenever the
old difficulty can be computed and the block's timestamp equals the timestamp
of the header ten back, `adjustDifficulty` panics at line 399. -/
theorem adjustDifficulty_elapsed_zero_panics (s : Blockchain) (block : Block) (oldDiff : Int)
    (hold : oldDifficulty s.baseTarget block.Header.Target = .ok oldDiff)
    (ht : elapsedTime s.headers block.Header = .ok 0) :
    adjustDifficulty s block = .error .integerDivideByZero := by
  unfold adjustDifficulty retargetDiffs
  rw [hold, ht]
  simp

/-- C6, failing input: header 0 and the block of height 10 both stamped 0, the
block target equal to the base target. -/
theorem adjustDifficulty_elapsed_zero_panics_witness :
    oldDifficulty (exampleState 0).baseTarget (exampleBlock 0 baseTargetBytes).Header.Target = .ok 1
    ∧ elapsedTime (exampleState 0).headers (exampleBlock 0 baseTargetBytes).Header = .ok 0
    ∧ adjustDifficulty (exampleState 0) (exampleBlock 0 baseTargetBytes)
        = .error .integerDivideByZero :=
  ⟨by decide, by decide,
    adjustDifficulty_elapsed_zero_panics (exampleState 0) (exampleBlock 0 baseTargetBytes) 1
      (by decide) (by decide)⟩

/-- C7 (amended). For every old difficulty and every elapsed time above zero,
the unclamped new difficulty `adjustDifficulty` computes is
`oldDiff * floor(600 / elapsed)`: the division is done first, on `int64`
values, and the product is exact. It is at most `floor(oldDiff * 600 / elapsed)`,
falls short of it by at most `oldDiff`, and equals it when `elapsed` divides
600. -/
theorem unclamped_difficulty_divides_first (s : Blockchain) (block : Block) (oldDiff t : Int)
    (hold : oldDifficulty s.baseTarget block.Header.Target = .ok oldDiff)
    (ht : elapsedTime s.headers block.Header = .ok t) (hpos : 0 < t) :
    retargetDiffs s block = .ok (oldDiff, clampDiff oldDiff (oldDiff * (600 / t))) ∧
    unclampedDiff oldDiff t = oldDiff * (600 / t) ∧
    oldDiff * (600 / t) ≤ oldDiff * 600 / t ∧
    oldDiff * 600 / t ≤ oldDiff * (600 / t) + oldDiff ∧
    (t ∣ 600 → oldDiff * (600 / t) = oldDiff * 600 / t) := by
  have hd := oldDifficulty_nonneg _ _ _ hold
  have hu : unclampedDiff oldDiff t = oldDiff * (600 / t) := by
    unfold unclampedDiff EXPECTED_10_BLOCKS_TIME
    rw [Int.tdiv_eq_ediv (by norm_num) (le_of_lt hpos)]
  have hr := retargetDiffs_ok s block oldDiff t hold ht (by omega)
  rw [retargetDiff, hu] at hr
  obtain ⟨ha, hb⟩ := mul_div_split oldDiff t hd hpos
  refine ⟨hr, hu, ha, hb, ?_⟩
  intro hdvd
  rw [Int.mul_ediv_assoc _ hdvd]

/-- C7, worked instance: old difficulty 2 and 400 seconds. -/
theorem unclamped_difficulty_divides_first_witness :
    oldDifficulty (exampleState 0).baseTarget (exampleBlock 400 halfTarget).Header.Target = .ok 2 ∧
    elapsedTime (exampleState 0).headers (exampleBlock 400 halfTarget).Header = .ok 400 ∧
    (retargetDiffs (exampleState 0) (exampleBlock 400 halfTarget)
        = .ok (2, clampDiff 2 (2 * (600 / 400))) ∧
      unclampedDiff 2 400 = 2 * (600 / 400) ∧
      (2 : Int) * (600 / 400) ≤ 2 * 600 / 400 ∧
      (2 : Int) * 600 / 400 ≤ 2 * (600 / 400) + 2 ∧
      ((400 : Int) ∣ 600 → (2 : Int) * (600 / 400) = 2 * 600 / 400)) :=
  ⟨by decide, by decide,
    unclamped_difficulty_divides_first (exampleState 0) (exampleBlock 400 halfTarget) 2 400
      (by decide) (by decide) (by decide)⟩

/-- C7 as stated fails: at old difficulty 2 and an elapsed time of 400 seconds
the code computes the unclamped difficulty 2 (and ends with 2), whereas
`floor(2 * 600 / 400)` is 3. -/
theorem unclamped_difficulty_not_floor :
    okOf (retargetDiffs (exampleState 0) (exampleBlock 400 halfTarget)) = some (2, 2)
      ∧ unclampedDiff 2 400 = 2 ∧ (2 * 600 : Int) / 400 = 3 := by decide

/-- C8 (amended). For every block at a retarget boundary with
`oldDiff >= 1` and `oldDiff * 4 < 2^63`: an elapsed time of exactly 600
seconds yields `newDiff == oldDiff`, an elapsed time of exactly 300 seconds
yields `newDiff == oldDiff * 2`, and in both cases `adjustDifficulty`
completes with `lastTarget` reading `T0 / newDiff`. -/
theorem retarget_scenarios (s : Blockchain) (block : Block) (oldDiff : Int)
    (hold : oldDifficulty s.baseTarget block.Header.Target = .ok oldDiff)
    (h1 : 1 ≤ oldDiff) (h4 : oldDiff * 4 < 2 ^ 63) :
    (elapsedTime s.headers block.Header = .ok 600 →
      retargetDiffs s block = .ok (oldDiff, oldDiff) ∧
      ∃ s1, adjustDifficulty s block = .ok s1 ∧
        ((bigOfBytes s1.lastTarget : Nat) : Int) = (bigOfBytes s.baseTarget : Int) / oldDiff) ∧
    (elapsedTime s.headers block.Header = .ok 300 →
      retargetDiffs s block = .ok (oldDiff, oldDiff * 2) ∧
      ∃ s1, adjustDifficulty s block = .ok s1 ∧
        ((bigOfBytes s1.lastTarget : Nat) : Int)
          = (bigOfBytes s.baseTarget : Int) / (oldDiff * 2)) := by
  constructor
  · intro ht
    have hr := retargetDiffs_ok s block oldDiff 600 hold ht (by decide)
    have e : retargetDiff oldDiff 600 = oldDiff := by
      have hu : unclampedDiff oldDiff 600 = oldDiff := by
        unfold unclampedDiff
        have : Int.tdiv EXPECTED_10_BLOCKS_TIME 600 = 1 := by decide
        rw [this, mul_one]
      rw [retargetDiff, hu]
      exact clampDiff_exact oldDiff oldDiff h1 h4 (by omega) (by omega) h1
    rw [e] at hr
    exact ⟨hr, _, adjustDifficulty_ok s block oldDiff oldDiff hr,
      lastTarget_value s.baseTarget oldDiff h1⟩
  · intro ht
    have hr := retargetDiffs_ok s block oldDiff 300 hold ht (by decide)
    have e : retargetDiff oldDiff 300 = oldDiff * 2 := by
      have hu : unclampedDiff oldDiff 300 = oldDiff * 2 := by
        unfold unclampedDiff
        have : Int.tdiv EXPECTED_10_BLOCKS_TIME 300 = 2 := by decide
        rw [this]
      rw [retargetDiff, hu]
      exact clampDiff_exact oldDiff (oldDiff * 2) h1 h4 (by omega) (by omega) (by omega)
    rw [e] at hr
    exact ⟨hr, _, adjustDifficulty_ok s block oldDiff (oldDiff * 2) hr,
      lastTarget_value s.baseTarget (oldDiff * 2) (by omega)⟩

/-- C8, worked instance: old difficulty 2 and 300 seconds for ten blocks. -/
theorem retarget_scenarios_witness :
    oldDifficulty (exampleState 0).baseTarget (exampleBlock 300 halfTarget).Header.Target = .ok 2 ∧
    elapsedTime (exampleState 0).headers (exampleBlock 300 halfTarget).Header = .ok 300 ∧
    ((elapsedTime (exampleState 0).headers (exampleBlock 300 halfTarget).Header = .ok 600 →
      retargetDiffs (exampleState 0) (exampleBlock 300 halfTarget) = .ok (2, 2) ∧
      ∃ s1, adjustDifficulty (exampleState 0) (exampleBlock 300 halfTarget) = .ok s1 ∧
        ((bigOfBytes s1.lastTarget : Nat) : Int)
          = (bigOfBytes (exampleState 0).baseTarget : Int) / 2) ∧
    (elapsedTime (exampleState 0).headers (exampleBlock 300 halfTarget).Header = .ok 300 →
      retargetDiffs (exampleState 0) (exampleBlock 300 halfTarget) = .ok (2, 2 * 2) ∧
      ∃ s1, adjustDifficulty (exampleState 0) (exampleBlock 300 halfTarget) = .ok s1 ∧
        ((bigOfBytes s1.lastTarget : Nat) : Int)
          = (bigOfBytes (exampleState 0).baseTarget : Int) / (2 * 2))) :=
  ⟨by decide, by decide,
    retarget_scenarios (exampleState 0) (exampleBlock 300 halfTarget) 2 (by decide) (by decide)
      (by decide)⟩

/-- C8 as stated fails: for a header target of 32 bytes 0xFF the elapsed time
is exactly 600 seconds, `oldDiff` is 0 and `newDiff` is 1, not `oldDiff`. -/
theorem retarget_unchanged_fails_at_zero_difficulty :
    elapsedTime (exampleState 0).headers (exampleBlock 600 overTarget).Header = .ok 600 ∧
    okOf (retargetDiffs (exampleState 0) (exampleBlock 600 overTarget)) = some (0, 1) ∧
    (1 : Int) ≠ 0 := by decide

set_option maxRecDepth 20000 in
/-- C9, failing input: header 0 stamped 600, a block of height 10 stamped 0
whose target is `(2^232 - 1) / (45 * 2^60)`. The elapsed time is -600, the
product is `-(45 * 2^60)`, whose `Int64()` is `3 * 2^60`; it is not above the
`Int64()` of `oldDiff * 4` (`2^62`), not below the `Int64()` of `oldDiff / 4`
(`-19 * 2^58`) and not below 1, so `newDiff` stays negative. `adjustDifficulty`
completes and `lastTarget` reads `(2^232 - 1) / (45 * 2^60)`, which is not
`floor(T0 / newDiff)`. -/
theorem lastTarget_negative_difficulty :
    okOf (retargetDiffs (exampleState 600) (exampleBlock 0 skewTarget))
      = some (45 * 2 ^ 60, -(45 * 2 ^ 60)) ∧
    bigInt64 (-(45 * 2 ^ 60)) = 3 * 2 ^ 60 ∧
    bigInt64 (45 * 2 ^ 60 * 4) = 2 ^ 62 ∧
    bigInt64 (Int.tdiv (45 * 2 ^ 60) 4) = -(19 * 2 ^ 58) ∧
    (okOf (adjustDifficulty (exampleState 600) (exampleBlock 0 skewTarget))).map
      (fun s1 => ((bigOfBytes s1.lastTarget : Nat) : Int))
      = some ((2 ^ 232 - 1) / (45 * 2 ^ 60)) ∧
    ((2 ^ 232 - 1) / (45 * 2 ^ 60) : Int) ≠ (2 ^ 232 - 1) / (-(45 * 2 ^ 60)) := by decide

/-- C10. For every UTXO index and every value, the list
`GetEnoughOwnUnspentOut(value)` returns (i) consists only of entries stored
under the sanitized main address with `IsTargeted == false`, (ii) is a
sub-list of that address's list, in insertion order and without repetition of
a position, and (iii) is empty or has a value sum of at least `value`: the Go
`int` sum always, and the exact integer sum unless a selected value is
negative. -/
theorem GetEnoughOwnUnspentOut_sound (sanitize : Bytes → GoString) (s : Blockchain)
    (value : Int) :
    (GetEnoughOwnUnspentOut sanitize s value).Sublist (s.unspentTxOut (sanitize s.mainPub)) ∧
    (∀ u, u ∈ GetEnoughOwnUnspentOut sanitize s value →
      u ∈ s.unspentTxOut (sanitize s.mainPub) ∧ u.IsTargeted = false) ∧
    (GetEnoughOwnUnspentOut sanitize s value = [] ∨
      value ≤ goSum ((GetEnoughOwnUnspentOut sanitize s value).map (fun u => u.Out.Value))) ∧
    (GetEnoughOwnUnspentOut sanitize s value = [] ∨
      (∃ u, u ∈ GetEnoughOwnUnspentOut sanitize s value ∧ u.Out.Value < 0) ∨
      value ≤ valueSum (GetEnoughOwnUnspentOut sanitize s value)) := by
  obtain ⟨sel, h1, h2, h3, h4⟩ :=
    selectLoop_spec value (s.unspentTxOut (sanitize s.mainPub)) 0 []
  simp only [List.nil_append] at h1
  have hsum : (selectLoop value (s.unspentTxOut (sanitize s.mainPub)) 0 []).1
      = goSum (sel.map (fun u => u.Out.Value)) := by
    rw [h4]; unfold goSum; rw [List.foldl_map]
  unfold GetEnoughOwnUnspentOut
  simp only
  by_cases hlt : (selectLoop value (s.unspentTxOut (sanitize s.mainPub)) 0 []).1 < value
  · simp [hlt]
  · simp only [hlt, if_false, h1]
    have hge : value ≤ goSum (sel.map (fun u => u.Out.Value)) := by
      rw [← hsum]; omega
    refine ⟨h2, fun u hu => ⟨h2.subset hu, h3 u hu⟩, Or.inr hge, ?_⟩
    by_cases hneg : ∃ u, u ∈ sel ∧ u.Out.Value < 0
    · exact Or.inr (Or.inl hneg)
    · right; right
      have hnn : 0 ≤ (sel.map (fun u => u.Out.Value)).sum := by
        apply List.sum_nonneg
        intro x hx
        obtain ⟨u, hu, rfl⟩ := List.mem_map.mp hx
        by_contra hc
        exact hneg ⟨u, hu, by omega⟩
      rw [goSum_eq] at hge
      have := wrap64_le_of_nonneg _ hnn
      unfold valueSum
      omega

/-- C10, worked instance: with a reserved entry of 40 and free entries of 30,
20 and 10, a request for 45 skips the reserved entry and returns the entries
of 30 and 20. -/
theorem GetEnoughOwnUnspentOut_sound_witness :
    GetEnoughOwnUnspentOut hexSanitize selectionState 45
      = [UnspentTxOut.mk (TxOut.mk 30 (hexSanitize [1])) [4] 0 false,
         UnspentTxOut.mk (TxOut.mk 20 (hexSanitize [1])) [5] 0 false] ∧
    (GetEnoughOwnUnspentOut hexSanitize selectionState 45).Sublist
      (selectionState.unspentTxOut (hexSanitize selectionState.mainPub)) :=
  ⟨by decide, (GetEnoughOwnUnspentOut_sound hexSanitize selectionState 45).1⟩

/-- C11 (amended). For every value > 0 and every UTXO index whose non-targeted
entries under the main address have non-negative values that sum to less than
`2^63`, `GetEnoughOwnUnspentOut(value)` returns the empty list if and only if
that sum is below `value`. When the sum is at least `value` the result is a
prefix of the non-targeted entries, in insertion order: either the shortest
prefix whose total exceeds `value` (every shorter prefix totals at most
`value`), or all of them when no prefix exceeds `value`. -/
theorem GetEnoughOwnUnspentOut_exact (sanitize : Bytes → GoString) (s : Blockchain)
    (value : Int) (hv : 0 < value)
    (hnn : ∀ u, u ∈ freeEntries (s.unspentTxOut (sanitize s.mainPub)) → 0 ≤ u.Out.Value)
    (hfit : valueSum (freeEntries (s.unspentTxOut (sanitize s.mainPub))) < 2 ^ 63) :
    (GetEnoughOwnUnspentOut sanitize s value = [] ↔
      valueSum (freeEntries (s.unspentTxOut (sanitize s.mainPub))) < value) ∧
    (value ≤ valueSum (freeEntries (s.unspentTxOut (sanitize s.mainPub))) →
      ∃ rest, freeEntries (s.unspentTxOut (sanitize s.mainPub))
          = GetEnoughOwnUnspentOut sanitize s value ++ rest ∧
        ((value < valueSum (GetEnoughOwnUnspentOut sanitize s value) ∧
            ∀ p q, GetEnoughOwnUnspentOut sanitize s value = p ++ q → q ≠ [] →
              valueSum p ≤ value) ∨
          (rest = [] ∧
            ∀ p q, freeEntries (s.unspentTxOut (sanitize s.mainPub)) = p ++ q →
              valueSum p ≤ value))) := by
  obtain ⟨sel, rest, hsplit, hrun, hcase⟩ :=
    selectLoop_exact value (s.unspentTxOut (sanitize s.mainPub)) 0 [] (le_refl 0) (by omega)
      hnn (by omega)
  simp only [zero_add, List.nil_append] at hrun hcase
  have hrest : 0 ≤ valueSum rest := by
    unfold valueSum
    apply List.sum_nonneg
    intro x hx
    obtain ⟨y, hy, rfl⟩ := List.mem_map.mp hx
    exact hnn y (by rw [hsplit]; exact List.mem_append_right _ hy)
  have htot : valueSum (freeEntries (s.unspentTxOut (sanitize s.mainPub)))
      = valueSum sel + valueSum rest := by rw [hsplit, valueSum_append]
  have hres : GetEnoughOwnUnspentOut sanitize s value
      = if valueSum sel < value then [] else sel := by
    unfold GetEnoughOwnUnspentOut
    simp only [hrun]
  have hne : 0 < valueSum sel → sel ≠ [] := by
    intro hpos hnil
    rw [hnil, valueSum_nil] at hpos
    omega
  rcases hcase with ⟨h1, h2⟩ | ⟨h1, h2⟩
  · have hnot : ¬ (valueSum sel < value) := by omega
    rw [hres, if_neg hnot]
    refine ⟨⟨fun h => absurd h (hne (by omega)), fun h => by omega⟩, ?_⟩
    intro _
    exact ⟨rest, hsplit, Or.inl ⟨h1, h2⟩⟩
  · subst h1
    rw [List.append_nil] at hsplit
    rw [valueSum_nil] at htot
    by_cases hlt : valueSum sel < value
    · rw [hres, if_pos hlt]
      refine ⟨⟨fun _ => by omega, fun _ => rfl⟩, ?_⟩
      intro hge
      omega
    · rw [hres, if_neg hlt]
      refine ⟨⟨fun h => absurd h (hne (by omega)), fun h => by omega⟩, ?_⟩
      intro _
      refine ⟨[], by rw [List.append_nil]; exact hsplit, Or.inr ⟨rfl, ?_⟩⟩
      intro p q hpq
      exact h2 p q (by rw [← hsplit]; exact hpq)

/-- C11, worked instance: with free entries of 30, 20 and 10 behind a reserved
one, a request of 45 selects the entries 30 and 20 and a request of 61
selects nothing. -/
theorem GetEnoughOwnUnspentOut_exact_witness :
    GetEnoughOwnUnspentOut hexSanitize selectionState 45
      = [UnspentTxOut.mk (TxOut.mk 30 (hexSanitize [1])) [4] 0 false,
         UnspentTxOut.mk (TxOut.mk 20 (hexSanitize [1])) [5] 0 false] ∧
    GetEnoughOwnUnspentOut hexSanitize selectionState 61 = [] ∧
    valueSum (freeEntries (selectionState.unspentTxOut (hexSanitize selectionState.mainPub)))
      = 60 ∧
    (GetEnoughOwnUnspentOut hexSanitize selectionState 45 = [] ↔
      valueSum (freeEntries (selectionState.unspentTxOut (hexSanitize selectionState.mainPub)))
        < 45) :=
  ⟨by decide, by decide, by decide,
    (GetEnoughOwnUnspentOut_exact hexSanitize selectionState 45 (by decide) (by decide)
      (by decide)).1⟩

/-- C11 as stated fails: with two free entries of `2^62` each the value
`2^63 - 1` is reachable (the sum is `2^63`), yet the running Go `int` total
wraps to `-2^63` and the result is the empty list. -/
theorem GetEnoughOwnUnspentOut_overflow :
    (∀ u, u ∈ heavyState.unspentTxOut (hexSanitize heavyState.mainPub) → 0 ≤ u.Out.Value) ∧
    valueSum (freeEntries (heavyState.unspentTxOut (hexSanitize heavyState.mainPub))) = 2 ^ 63 ∧
    GetEnoughOwnUnspentOut hexSanitize heavyState (2 ^ 63 - 1) = [] := by decide

/-- C12. For every `int` value and every list of selected entries whose Go `int`
value sum S is at least `value`, `GetInOutFromUnspent(value, dest, outs)`
returns one `TxIn` per entry, in the same order, with `PrevHash == TxHash` and
`PrevIdx == InIdx`; its first `TxOut` is `(value, dest)`; when S > value there
is exactly one more output, `(S - value, sanitized main address)`, and when
S = value there is none; the Go `int` sum of the output values equals S. For
`value >= 0` the change `S - value` does not wrap, and when the exact input sum
fits in an `int` the exact output sum equals it. -/
theorem GetInOutFromUnspent_lossless (sanitize : Bytes → GoString) (s : Blockchain)
    (value : Int) (destWallet : Bytes) (outs : List UnspentTxOut)
    (hlo : -2 ^ 63 ≤ value) (hhi : value < 2 ^ 63)
    (hS : value ≤ goSum (outs.map (fun u => u.Out.Value))) :
    (GetInOutFromUnspent sanitize s value destWallet outs).1
      = outs.map (fun u => TxIn.mk u.TxHash u.InIdx) ∧
    (GetInOutFromUnspent sanitize s value destWallet outs).2.head?
      = some (TxOut.mk value destWallet) ∧
    (value < goSum (outs.map (fun u => u.Out.Value)) →
      (GetInOutFromUnspent sanitize s value destWallet outs).2
        = [TxOut.mk value destWallet,
           TxOut.mk (wrap64 (goSum (outs.map (fun u => u.Out.Value)) - value))
             (sanitize s.mainPub)]) ∧
    (goSum (outs.map (fun u => u.Out.Value)) = value →
      (GetInOutFromUnspent sanitize s value destWallet outs).2 = [TxOut.mk value destWallet]) ∧
    goSum ((GetInOutFromUnspent sanitize s value destWallet outs).2.map TxOut.Value)
      = goSum (outs.map (fun u => u.Out.Value)) ∧
    (0 ≤ value →
      wrap64 (goSum (outs.map (fun u => u.Out.Value)) - value)
        = goSum (outs.map (fun u => u.Out.Value)) - value) ∧
    (0 ≤ value → -2 ^ 63 ≤ valueSum outs → valueSum outs < 2 ^ 63 →
      ((GetInOutFromUnspent sanitize s value destWallet outs).2.map TxOut.Value).sum
        = valueSum outs) := by
  have hr := wrap64_range (valueSum outs)
  have hS2 : goSum (outs.map (fun u => u.Out.Value)) = wrap64 (valueSum outs) := by
    rw [goSum_eq]; rfl
  have hdef : GetInOutFromUnspent sanitize s value destWallet outs
      = if goSum (outs.map (fun u => u.Out.Value)) > value then
          (outs.map (fun u => TxIn.mk u.TxHash u.InIdx),
            [TxOut.mk value destWallet,
             TxOut.mk (wrap64 (goSum (outs.map (fun u => u.Out.Value)) - value))
               (sanitize s.mainPub)])
        else (outs.map (fun u => TxIn.mk u.TxHash u.InIdx), [TxOut.mk value destWallet]) := by
    unfold GetInOutFromUnspent
    simp only [inOutLoop_zero]
    split_ifs <;> rfl
  rw [hS2] at hS hdef ⊢
  have hch : 0 ≤ value → wrap64 (wrap64 (valueSum outs) - value)
      = wrap64 (valueSum outs) - value := by
    intro h0
    exact wrap64_of_range _ (by omega) (by omega)
  by_cases hgt : wrap64 (valueSum outs) > value
  · rw [hdef, if_pos hgt]
    refine ⟨rfl, rfl, fun _ => rfl, fun h => by omega, ?_, hch, ?_⟩
    · simp only [goSum, List.map_cons, List.map_nil, List.foldl_cons, List.foldl_nil, zero_add]
      rw [wrap64_add_left]
      unfold wrap64; omega
    · intro h0 h1 h2
      simp only [List.map_cons, List.map_nil, List.sum_cons, List.sum_nil, add_zero]
      rw [hch h0, wrap64_of_range _ h1 h2]
      omega
  · rw [hdef, if_neg hgt]
    have heq : wrap64 (valueSum outs) = value := by omega
    refine ⟨rfl, rfl, fun h => by omega, fun _ => rfl, ?_, hch, ?_⟩
    · simp only [goSum, List.map_cons, List.map_nil, List.foldl_cons, List.foldl_nil, zero_add]
      rw [wrap64_of_range _ hlo hhi, heq]
    · intro h0 h1 h2
      simp only [List.map_cons, List.map_nil, List.sum_cons, List.sum_nil, add_zero]
      rw [← heq, wrap64_of_range _ h1 h2]

/-- C12, worked instance: the entries 30 and 20 selected for a request of 45 give
two inputs, the output `(45, dest)` and the change `(5, main address)`. -/
theorem GetInOutFromUnspent_lossless_witness :
    GetInOutFromUnspent hexSanitize selectionState 45 [9]
        (GetEnoughOwnUnspentOut hexSanitize selectionState 45)
      = ([TxIn.mk [4] 0, TxIn.mk [5] 0],
          [TxOut.mk 45 [9], TxOut.mk 5 (hexSanitize [1])]) ∧
    goSum ((GetInOutFromUnspent hexSanitize selectionState 45 [9]
        (GetEnoughOwnUnspentOut hexSanitize selectionState 45)).2.map TxOut.Value)
      = goSum ((GetEnoughOwnUnspentOut hexSanitize selectionState 45).map
          (fun u => u.Out.Value)) :=
  ⟨by decide,
    (GetInOutFromUnspent_lossless hexSanitize selectionState 45 [9]
      (GetEnoughOwnUnspentOut hexSanitize selectionState 45) (by decide) (by decide)
      (by decide)).2.2.2.2.1⟩

/-- C13 (amended). For every non-empty header list `AreHeadersGood` returns, and
it returns true if and only if every header after the first carries in
`PrecHash` the hash of its predecessor. Heights are not examined. -/
theorem AreHeadersGood_checks_links (s : Blockchain) (hne : s.headers ≠ []) :
    ∃ b, AreHeadersGood s = .ok b ∧
      (b = true ↔
        ∀ i p h, s.headers[i]? = some p → s.headers[i + 1]? = some h →
          h.PrecHash = p.Hash) := by
  unfold AreHeadersGood
  cases hh : s.headers with
  | nil => exact absurd hh hne
  | cons first rest =>
    refine ⟨headersLoop first.Hash rest, rfl, ?_⟩
    rw [headersLoop_iff]
    constructor
    · rintro ⟨h1, h2⟩ i p h hp hq
      cases i with
      | zero =>
        simp at hp hq
        subst hp
        exact h1 h (by rw [List.head?_eq_getElem?]; exact hq)
      | succ i =>
        simp at hp hq
        exact h2 i p h hp hq
    · intro hall
      refine ⟨?_, fun i p h hp hq => hall (i + 1) p h (by simpa using hp) (by simpa using hq)⟩
      intro h hq
      exact hall 0 first h (by simp) (by rw [List.head?_eq_getElem?] at hq; simpa using hq)

/-- C13, worked instance: the ten-block chain of the examples is accepted. -/
theorem AreHeadersGood_checks_links_witness :
    steadyState.headers ≠ [] ∧ AreHeadersGood steadyState = .ok true ∧
    ∃ b, AreHeadersGood steadyState = .ok b ∧
      (b = true ↔
        ∀ i p h, steadyState.headers[i]? = some p → steadyState.headers[i + 1]? = some h →
          h.PrecHash = p.Hash) :=
  ⟨by decide, by decide, AreHeadersGood_checks_links steadyState (by decide)⟩

/-- C13 as stated fails: two headers of heights 0 and 5 with a sound hash link
are accepted. -/
theorem AreHeadersGood_ignores_heights :
    gappedState.headers ≠ [] ∧ AreHeadersGood gappedState = .ok true ∧
    ∃ p h, gappedState.headers[0]? = some p ∧ gappedState.headers[1]? = some h ∧
      h.Height ≠ p.Height + 1 :=
  ⟨by decide, by decide, BlockHeader.mk 0 0 [] [1] baseTargetBytes 0,
    BlockHeader.mk 5 60 [1] [2] baseTargetBytes 0, by decide, by decide, by decide⟩

/-- C14. For every block B that `Verify` accepts: when
`B.Header.Height % 10 != 0`, `AddBlock` returns true and leaves `lastTarget`
and `baseTarget` unchanged. When `B.Header.Height % 10 == 0`, `AddBlock`
returns true whenever the retarget has its inputs (a non-zero header target,
a header at index `Height - 10` of the list to which `B.Header` has just been
appended, a non-zero elapsed time), and whenever it returns, it returns true
with `baseTarget` unchanged and `lastTarget` set to the target derived from
the retarget of the old difficulty `T0 / B.Header.Target` over the elapsed
time `B.Header.Timestamp - headers[B.Header.Height-10].Timestamp`. -/
theorem AddBlock_retargets_at_multiples_of_ten (verify : Blockchain → Block → Bool)
    (sanitize : Bytes → GoString) (s : Blockchain) (block : Block)
    (hv : verify s block = true) :
    (Int.tmod block.Header.Height 10 ≠ 0 →
      ∃ s2, AddBlock verify sanitize s block = .ok (true, s2) ∧
        s2.lastTarget = s.lastTarget ∧ s2.baseTarget = s.baseTarget) ∧
    (Int.tmod block.Header.Height 10 = 0 →
      (∀ oldDiff h10,
        oldDifficulty s.baseTarget block.Header.Target = .ok oldDiff →
        0 ≤ wrap64 (block.Header.Height - 10) →
        (s.headers ++ [block.Header])[(wrap64 (block.Header.Height - 10)).toNat]? = some h10 →
        wrap64 (block.Header.Timestamp - h10.Timestamp) ≠ 0 →
        ∃ s2, AddBlock verify sanitize s block = .ok (true, s2) ∧
          s2.baseTarget = s.baseTarget ∧
          targetOfDiff s.baseTarget
            (retargetDiff oldDiff (wrap64 (block.Header.Timestamp - h10.Timestamp)))
            = .ok s2.lastTarget) ∧
      (∀ b s2, AddBlock verify sanitize s block = .ok (b, s2) →
        b = true ∧ s2.baseTarget = s.baseTarget ∧
        ∃ oldDiff h10,
          oldDifficulty s.baseTarget block.Header.Target = .ok oldDiff ∧
          0 ≤ wrap64 (block.Header.Height - 10) ∧
          (s.headers ++ [block.Header])[(wrap64 (block.Header.Height - 10)).toNat]?
            = some h10 ∧
          wrap64 (block.Header.Timestamp - h10.Timestamp) ≠ 0 ∧
          targetOfDiff s.baseTarget
            (retargetDiff oldDiff (wrap64 (block.Header.Timestamp - h10.Timestamp)))
            = .ok s2.lastTarget)) := by
  have hb : ∀ b s2, AddBlock verify sanitize s block = .ok (b, s2) → b = true := by
    intro b s2 h
    unfold AddBlock at h
    rw [if_neg (by simp [hv])] at h
    simp only at h
    split_ifs at h
    · split at h
      · simp at h
      · injection h with h
        injection h with h1 _
        exact h1.symm
    · injection h with h
      injection h with h1 _
      exact h1.symm
  refine ⟨fun hne => ?_, fun h10 => ⟨?_, ?_⟩⟩
  · obtain ⟨s2, h2⟩ := AddBlock_plain verify sanitize s block hv hne
    obtain ⟨-, hbase, hkeep, -⟩ := AddBlock_true_inv verify sanitize s block s2 h2
    exact ⟨s2, h2, hkeep hne, hbase⟩
  · intro oldDiff h10hdr hold hi hget ht0
    obtain ⟨s2, h2⟩ := AddBlock_retarget_runs verify sanitize s block oldDiff h10hdr hv h10
      hold hi hget ht0
    obtain ⟨-, hbase, -, hset⟩ := AddBlock_true_inv verify sanitize s block s2 h2
    obtain ⟨o, hd, hold2, -, hget2, -, htgt⟩ := hset h10
    rw [hold] at hold2
    injection hold2 with ho
    rw [hget] at hget2
    injection hget2 with hh
    subst ho hh
    exact ⟨s2, h2, hbase, htgt⟩
  · intro b s2 h
    have hbt := hb b s2 h
    subst hbt
    obtain ⟨-, hbase, -, hset⟩ := AddBlock_true_inv verify sanitize s block s2 h
    exact ⟨rfl, hbase, hset h10⟩

/-- C14, worked instance: the block of height 10, stamped 600, added to the
ten-block chain; ten minutes for ten blocks leave the difficulty at 1 and the
target at the base target. -/
theorem AddBlock_retargets_at_multiples_of_ten_witness :
    linkVerify steadyState (exampleBlock 600 baseTargetBytes) = true ∧
    Int.tmod (exampleBlock 600 baseTargetBytes).Header.Height 10 = 0 ∧
    AddBlock linkVerify hexSanitize steadyState (exampleBlock 600 baseTargetBytes)
      = .ok (true, steadyRetargeted) ∧
    steadyRetargeted.lastTarget = baseTargetBytes ∧
    (∀ b s2, AddBlock linkVerify hexSanitize steadyState (exampleBlock 600 baseTargetBytes)
        = .ok (b, s2) →
      b = true ∧ s2.baseTarget = steadyState.baseTarget ∧
      ∃ oldDiff h10,
        oldDifficulty steadyState.baseTarget (exampleBlock 600 baseTargetBytes).Header.Target
          = .ok oldDiff ∧
        0 ≤ wrap64 ((exampleBlock 600 baseTargetBytes).Header.Height - 10) ∧
        (steadyState.headers ++ [(exampleBlock 600 baseTargetBytes).Header])[
          (wrap64 ((exampleBlock 600 baseTargetBytes).Header.Height - 10)).toNat]?
          = some h10 ∧
        wrap64 ((exampleBlock 600 baseTargetBytes).Header.Timestamp - h10.Timestamp) ≠ 0 ∧
        targetOfDiff steadyState.baseTarget
          (retargetDiff oldDiff
            (wrap64 ((exampleBlock 600 baseTargetBytes).Header.Timestamp - h10.Timestamp)))
          = .ok s2.lastTarget) :=
  ⟨by decide, by decide, rfl, by decide,
    ((AddBlock_retargets_at_multiples_of_ten linkVerify hexSanitize steadyState
      (exampleBlock 600 baseTargetBytes) (by decide)).2 (by decide)).2⟩

/-- C15 (amended). For every state with a non-empty header list and a non-zero
`lastTarget` and every clock reading `now`, `NextDifficulty` returns a value
and its divisor `nbBlocks` is not zero. It returns the current difficulty (the
`Int64()` of `T0 / lastTarget`, which is what `Difficulty` returns) when
`now == tip.Timestamp`. When `now != tip.Timestamp` and the projected elapsed
time `(now - tip.Timestamp) / nbBlocks * 10` is zero, it returns the clamped
retarget for an elapsed time of 1; otherwise it returns the clamped retarget
for the projected elapsed time. -/
theorem NextDifficulty_preview (s : Blockchain) (now : Int) (tip : BlockHeader)
    (htip : s.headers.getLast? = some tip) (hlt : bigOfBytes s.lastTarget ≠ 0) :
    ∃ oldDiff, oldDifficulty s.baseTarget s.lastTarget = .ok oldDiff ∧
      Difficulty s = .ok (bigInt64 oldDiff) ∧
      nbBlocksOf s.headers ≠ 0 ∧
      (∃ v, NextDifficulty s now = .ok v) ∧
      (wrap64 (now - tip.Timestamp) = 0 → NextDifficulty s now = .ok (bigInt64 oldDiff)) ∧
      (wrap64 (now - tip.Timestamp) ≠ 0 →
        projectedElapsed (wrap64 (now - tip.Timestamp)) (nbBlocksOf s.headers) = 0 →
        NextDifficulty s now = .ok (bigInt64 (retargetDiff oldDiff 1))) ∧
      (wrap64 (now - tip.Timestamp) ≠ 0 →
        projectedElapsed (wrap64 (now - tip.Timestamp)) (nbBlocksOf s.headers) ≠ 0 →
        NextDifficulty s now = .ok (bigInt64 (retargetDiff oldDiff
          (projectedElapsed (wrap64 (now - tip.Timestamp)) (nbBlocksOf s.headers))))) := by
  have hold := oldDifficulty_ok s.baseTarget s.lastTarget hlt
  refine ⟨_, hold, ?_, nbBlocksOf_pos _, ?_, ?_, ?_, ?_⟩
  · unfold Difficulty; rw [hold]
  · unfold NextDifficulty
    rw [hold, htip]
    simp only
    split_ifs <;> exact ⟨_, rfl⟩
  · intro h0
    unfold NextDifficulty
    rw [hold, htip]
    simp only
    rw [if_pos h0]
  · intro h0 hp
    unfold NextDifficulty
    rw [hold, htip]
    simp only
    rw [if_neg h0, if_pos hp]
  · intro h0 hp
    unfold NextDifficulty
    rw [hold, htip]
    simp only
    rw [if_neg h0, if_neg hp]

/-- C15, worked instance: on a chain of six headers whose tip is stamped 300,
the preview is the current difficulty 1 at `now = 300` and the retarget for a
projected time of 300 seconds, 2, at `now = 450`. -/
theorem NextDifficulty_preview_witness :
    sixState.headers.getLast? = some (exampleHeader 5 300 baseTargetBytes) ∧
    bigOfBytes sixState.lastTarget ≠ 0 ∧
    okOf (NextDifficulty sixState 300) = some 1 ∧
    okOf (NextDifficulty sixState 450) = some 2 ∧
    ∃ oldDiff, oldDifficulty sixState.baseTarget sixState.lastTarget = .ok oldDiff ∧
      Difficulty sixState = .ok (bigInt64 oldDiff) ∧
      nbBlocksOf sixState.headers ≠ 0 ∧
      (∃ v, NextDifficulty sixState 450 = .ok v) ∧
      (wrap64 (450 - (exampleHeader 5 300 baseTargetBytes).Timestamp) = 0 →
        NextDifficulty sixState 450 = .ok (bigInt64 oldDiff)) ∧
      (wrap64 (450 - (exampleHeader 5 300 baseTargetBytes).Timestamp) ≠ 0 →
        projectedElapsed (wrap64 (450 - (exampleHeader 5 300 baseTargetBytes).Timestamp))
          (nbBlocksOf sixState.headers) = 0 →
        NextDifficulty sixState 450 = .ok (bigInt64 (retargetDiff oldDiff 1))) ∧
      (wrap64 (450 - (exampleHeader 5 300 baseTargetBytes).Timestamp) ≠ 0 →
        projectedElapsed (wrap64 (450 - (exampleHeader 5 300 baseTargetBytes).Timestamp))
          (nbBlocksOf sixState.headers) ≠ 0 →
        NextDifficulty sixState 450 = .ok (bigInt64 (retargetDiff oldDiff
          (projectedElapsed (wrap64 (450 - (exampleHeader 5 300 baseTargetBytes).Timestamp))
            (nbBlocksOf sixState.headers))))) :=
  ⟨by decide, by decide, by decide, by decide,
    NextDifficulty_preview sixState 450 (exampleHeader 5 300 baseTargetBytes) (by decide)
      (by decide)⟩

/-- C15 as stated fails: on the same chain at `now = 303` the projected elapsed
time `3 / 5 * 10` is zero, and `NextDifficulty` returns 4 while the current
difficulty is 1. -/
theorem NextDifficulty_zero_projection :
    sixState.headers ≠ [] ∧ bigOfBytes sixState.lastTarget ≠ 0 ∧
    nbBlocksOf sixState.headers = 5 ∧
    projectedElapsed (wrap64 (303 - 300)) (nbBlocksOf sixState.headers) = 0 ∧
    okOf (NextDifficulty sixState 303) = some 4 ∧
    okOf (Difficulty sixState) = some 1 := by decide

/-- C16. When, during `UpdateUnspentTxOuts`, an input of a transaction answers no
entry under the sender's address (earlier transactions of the block and the
earlier inputs of this transaction having been processed), the operation
stops there: the index it leaves is the one reached just before the failing
input and the history is the one reached just before the failing transaction.
Nothing is removed for the failing input or any later one, no output of the
failing transaction or of a later transaction is added, and no history entry
is appended for them. -/
theorem failed_lookup_stops_mutation (sanitize : Bytes → GoString) (s s1 : Blockchain)
    (block : Block) (pre post : List Transaction) (tx : Transaction)
    (insPre insPost : List TxIn) (inp : TxIn) (m : UtxoIndex)
    (hblock : block.Transactions = pre ++ tx :: post)
    (hins : tx.Ins = insPre ++ inp :: insPost)
    (hpre : txLoop sanitize block pre s = (s1, true))
    (hinsPre : insLoop sanitize tx.Stamp.Pub insPre s1.unspentTxOut = (m, true))
    (hfail : ∀ u, u ∈ m (sanitize tx.Stamp.Pub) → ¬ matchesIn inp u) :
    updateCompletes sanitize s block = false ∧
    (UpdateUnspentTxOuts sanitize s block).unspentTxOut = m ∧
    (UpdateUnspentTxOuts sanitize s block).history = s1.history := by
  have hget : getCorrespondingOutTx sanitize m tx.Stamp.Pub inp = none := by
    unfold getCorrespondingOutTx
    simp only [findMatch_none inp _ 0 hfail, Option.map_none']
  have hi : insLoop sanitize tx.Stamp.Pub tx.Ins s1.unspentTxOut = (m, false) := by
    rw [hins, insLoop_append sanitize _ _ _ _ _ hinsPre]
    simp only [insLoop, hget]
  have ha : applyTx sanitize block s1 tx = ({ s1 with unspentTxOut := m }, false) := by
    unfold applyTx
    simp only [hi]
  have hrun : txLoop sanitize block block.Transactions s
      = ({ s1 with unspentTxOut := m }, false) := by
    rw [hblock, txLoop_append sanitize block _ _ _ _ hpre]
    simp only [txLoop, ha]
  unfold updateCompletes UpdateUnspentTxOuts
  rw [hrun]
  exact ⟨rfl, rfl, rfl⟩

/-- C16, worked instance: after a coinbase, a transaction whose second input is
unknown; its first input is consumed, its output to the key `[2]` is not
created, and the coinbase behind it leaves no trace. -/
theorem failed_lookup_stops_mutation_witness :
    updateCompletes hexSanitize fundedState brokenBlock = false ∧
    (UpdateUnspentTxOuts hexSanitize fundedState brokenBlock).unspentTxOut (hexSanitize [1])
      = [UnspentTxOut.mk (TxOut.mk 50 (hexSanitize [1])) [7] 0 false] ∧
    (UpdateUnspentTxOuts hexSanitize fundedState brokenBlock).unspentTxOut (hexSanitize [2])
      = [] ∧
    (UpdateUnspentTxOuts hexSanitize fundedState brokenBlock).history
      = (txLoop hexSanitize brokenBlock [coinbaseTx] fundedState).1.history ∧
    (UpdateUnspentTxOuts hexSanitize fundedState brokenBlock).unspentTxOut
      = (insLoop hexSanitize [1] [TxIn.mk [7] 0]
          (txLoop hexSanitize brokenBlock [coinbaseTx] fundedState).1.unspentTxOut).1 :=
  ⟨by decide, by decide, by decide, by decide,
    (failed_lookup_stops_mutation hexSanitize fundedState
      (txLoop hexSanitize brokenBlock [coinbaseTx] fundedState).1 brokenBlock [coinbaseTx]
      [coinbaseTx] brokenTx [TxIn.mk [7] 0] [] (TxIn.mk [99] 3)
      (insLoop hexSanitize [1] [TxIn.mk [7] 0]
        (txLoop hexSanitize brokenBlock [coinbaseTx] fundedState).1.unspentTxOut).1
      rfl rfl rfl rfl (by decide)).2.1⟩

/-- C17. For every decoded block B and every state whose tip has height h, the
OnStore handler returns a verdict and leaves the state as it was: the verdict
is `B.Verify` when `B.Header.Height == h+1` (Go `int64` addition), else
`B.VerifyOld` when `B.Header.Height <= h`, else false. For `h < 2^63 - 1`,
where `h+1` does not wrap, these are the cases `Height == h+1`, `Height <= h`
and `Height > h+1`. -/
theorem OnStore_routes_by_height (verify verifyOld : Blockchain → Block → Bool)
    (s : Blockchain) (block : Block) (tip : BlockHeader)
    (htip : s.headers.getLast? = some tip) :
    (block.Header.Height = wrap64 (tip.Height + 1) →
      OnStore verify verifyOld s (some block) = .ok (verify s block, s)) ∧
    (block.Header.Height ≠ wrap64 (tip.Height + 1) → block.Header.Height ≤ tip.Height →
      OnStore verify verifyOld s (some block) = .ok (verifyOld s block, s)) ∧
    (block.Header.Height ≠ wrap64 (tip.Height + 1) → tip.Height < block.Header.Height →
      OnStore verify verifyOld s (some block) = .ok (false, s)) ∧
    (∃ r, OnStore verify verifyOld s (some block) = .ok (r, s)) ∧
    (-2 ^ 63 ≤ tip.Height → tip.Height < 2 ^ 63 - 1 →
      (block.Header.Height = tip.Height + 1 →
        OnStore verify verifyOld s (some block) = .ok (verify s block, s)) ∧
      (block.Header.Height ≤ tip.Height →
        OnStore verify verifyOld s (some block) = .ok (verifyOld s block, s)) ∧
      (block.Header.Height > tip.Height + 1 →
        OnStore verify verifyOld s (some block) = .ok (false, s))) := by
  have h1 : block.Header.Height = wrap64 (tip.Height + 1) →
      OnStore verify verifyOld s (some block) = .ok (verify s block, s) := by
    intro h
    unfold OnStore
    simp only [htip]
    rw [if_pos h]
  have h2 : block.Header.Height ≠ wrap64 (tip.Height + 1) → block.Header.Height ≤ tip.Height →
      OnStore verify verifyOld s (some block) = .ok (verifyOld s block, s) := by
    intro h hle
    unfold OnStore
    simp only [htip]
    rw [if_neg h, if_pos hle]
  have h3 : block.Header.Height ≠ wrap64 (tip.Height + 1) → tip.Height < block.Header.Height →
      OnStore verify verifyOld s (some block) = .ok (false, s) := by
    intro h hlt
    unfold OnStore
    simp only [htip]
    rw [if_neg h, if_neg (by omega)]
  refine ⟨h1, h2, h3, ?_, ?_⟩
  · by_cases c1 : block.Header.Height = wrap64 (tip.Height + 1)
    · exact ⟨_, h1 c1⟩
    · by_cases c2 : block.Header.Height ≤ tip.Height
      · exact ⟨_, h2 c1 c2⟩
      · exact ⟨_, h3 c1 (by omega)⟩
  · intro hlo hhi
    have hw : wrap64 (tip.Height + 1) = tip.Height + 1 :=
      wrap64_of_range _ (by omega) (by omega)
    rw [hw] at h1 h2 h3
    exact ⟨h1, fun hle => h2 (by omega) hle, fun hgt => h3 (by omega) (by omega)⟩

/-- C17, worked instance: on a tip of height 9 a block of height 10 gets the
verdict of `verify`, a block of height 5 the verdict of `verifyOld`, and a
block of height 12 is rejected. -/
theorem OnStore_routes_by_height_witness :
    steadyState.headers.getLast? = some (exampleHeader 9 540 baseTargetBytes) ∧
    (okOf (OnStore (fun _ _ => true) (fun _ _ => false) steadyState
      (some (exampleBlock 600 baseTargetBytes)))).map Prod.fst = some true ∧
    (okOf (OnStore (fun _ _ => false) (fun _ _ => true) steadyState
      (some (Block.mk (exampleHeader 5 300 baseTargetBytes) [])))).map Prod.fst = some true ∧
    (okOf (OnStore (fun _ _ => true) (fun _ _ => true) steadyState
      (some (Block.mk (exampleHeader 12 720 baseTargetBytes) [])))).map Prod.fst = some false ∧
    ((exampleBlock 600 baseTargetBytes).Header.Height
        = wrap64 ((exampleHeader 9 540 baseTargetBytes).Height + 1) →
      OnStore linkVerify (fun _ _ => false) steadyState (some (exampleBlock 600 baseTargetBytes))
        = .ok (linkVerify steadyState (exampleBlock 600 baseTargetBytes), steadyState)) :=
  ⟨by decide, by decide, by decide, by decide,
    (OnStore_routes_by_height linkVerify (fun _ _ => false) steadyState
      (exampleBlock 600 baseTargetBytes) (exampleHeader 9 540 baseTargetBytes) (by decide)).1⟩

/-- C18 (amended). For every block and every coinbase-shaped transaction in it
(no ins, exactly one out) that is stamped with the local main key, whose
output pays the local main address an `int` value v != 0, and before which
every transaction of the block was processed to the end,
`UpdateUnspentTxOuts` processes the transaction and appends exactly one
history entry for it, labelled "Miner fee (Block <height>)", stamped with the
block's timestamp, with `Amount == v`, and goes on with the rest of the
block. -/
theorem miner_fee_history (sanitize : Bytes → GoString) (s s1 : Blockchain) (block : Block)
    (pre post : List Transaction) (tx : Transaction) (o : TxOut)
    (hblock : block.Transactions = pre ++ tx :: post)
    (hpre : txLoop sanitize block pre s = (s1, true))
    (hins : tx.Ins = []) (houts : tx.Outs = [o])
    (haddr : o.Address = sanitize s.mainPub) (hown : tx.Stamp.Pub = s.mainPub)
    (hv : o.Value ≠ 0) (hlo : -2 ^ 63 ≤ o.Value) (hhi : o.Value < 2 ^ 63) :
    ∃ s2, txLoop sanitize block (pre ++ [tx]) s = (s2, true) ∧
      s2.history = s1.history ++
        [HistoryTx.mk (minerFeeLabel block.Header.Height) block.Header.Timestamp o.Value] ∧
      txLoop sanitize block block.Transactions s = txLoop sanitize block post s2 := by
  have hmain : s1.mainPub = s.mainPub := by
    have := (txLoop_frame sanitize block pre s).2.2.2.1
    rw [hpre] at this
    exact this
  obtain ⟨s2, h2, hh⟩ := applyTx_own_coinbase sanitize block s1 tx o hins houts
    (by rw [hmain]; exact haddr) (by rw [hmain]; exact hown) hv hlo hhi
  have hsnoc := txLoop_snoc sanitize block pre tx s s1 s2 hpre h2
  refine ⟨s2, hsnoc, hh, ?_⟩
  have e : pre ++ tx :: post = (pre ++ [tx]) ++ post := by simp
  rw [hblock, e, txLoop_append sanitize block _ _ _ _ hsnoc]

/-- C18, worked instance: the block holding one coinbase of 50 for the main key
leaves one history entry of 50. -/
theorem miner_fee_history_witness :
    (UpdateUnspentTxOuts hexSanitize (exampleState 0) coinbaseBlock).history
      = [HistoryTx.mk (minerFeeLabel 1) 60 50] ∧
    ∃ s2, txLoop hexSanitize coinbaseBlock ([] ++ [coinbaseTx]) (exampleState 0) = (s2, true) ∧
      s2.history = (exampleState 0).history ++
        [HistoryTx.mk (minerFeeLabel coinbaseBlock.Header.Height)
          coinbaseBlock.Header.Timestamp (TxOut.mk 50 (hexSanitize [1])).Value] ∧
      txLoop hexSanitize coinbaseBlock coinbaseBlock.Transactions (exampleState 0)
        = txLoop hexSanitize coinbaseBlock [] s2 :=
  ⟨by decide,
    miner_fee_history hexSanitize (exampleState 0) (exampleState 0) coinbaseBlock [] []
      coinbaseTx (TxOut.mk 50 (hexSanitize [1])) rfl rfl rfl rfl rfl rfl (by decide)
      (by decide) (by decide)⟩

/-- C18 as stated fails in two ways. A coinbase behind a transaction whose input
lookup fails is never processed and gets no entry. A coinbase-shaped
transaction stamped with another key is credited twice, by line 60 and by
line 64: an output of 50 gives `Amount == 100`. -/
theorem miner_fee_missing_or_doubled :
    (coinbaseTx ∈ stalledBlock.Transactions ∧ coinbaseTx.Ins = [] ∧
      coinbaseTx.Outs = [TxOut.mk 50 (hexSanitize fundedState.mainPub)] ∧
      updateCompletes hexSanitize fundedState stalledBlock = false ∧
      (UpdateUnspentTxOuts hexSanitize fundedState stalledBlock).history = fundedState.history) ∧
    (foreignCoinbaseTx ∈ foreignCoinbaseBlock.Transactions ∧
      foreignCoinbaseTx.Ins = [] ∧
      foreignCoinbaseTx.Outs = [TxOut.mk 50 (hexSanitize (exampleState 0).mainPub)] ∧
      foreignCoinbaseTx.Stamp.Pub ≠ (exampleState 0).mainPub ∧
      (UpdateUnspentTxOuts hexSanitize (exampleState 0) foreignCoinbaseBlock).history
        = [HistoryTx.mk (minerFeeLabel 1) 60 100]) := by decide

set_option maxRecDepth 20000 in
/-- C19, failing input: genesis stamped 0 and a block of height 10 stamped 2 whose
target is 9. The old difficulty is `(2^232 - 1) / 9` and the product is 300
times that, above `T0`. Its `Int64()` is 6148914691236516972, which is neither
above the `Int64()` of `oldDiff * 4` (8198552921648689604) nor below the
`Int64()` of `oldDiff / 4` (negative) nor below 1, so no clamp applies.
`adjustDifficulty` completes with `lastTarget` equal to 32 zero bytes, and
`Difficulty` and `NextDifficulty` then panic on a division by zero. -/
theorem retarget_zeroes_target :
    bigOfBytes nineTarget = 9 ∧ 9 ≤ bigOfBytes baseTargetBytes ∧
    elapsedTime (exampleState 0).headers (exampleBlock 2 nineTarget).Header = .ok 2 ∧
    okOf (retargetDiffs (exampleState 0) (exampleBlock 2 nineTarget))
      = some ((2 ^ 232 - 1) / 9, 300 * ((2 ^ 232 - 1) / 9)) ∧
    bigInt64 (300 * ((2 ^ 232 - 1) / 9)) = 6148914691236516972 ∧
    bigInt64 ((2 ^ 232 - 1) / 9 * 4) = 8198552921648689604 ∧
    bigInt64 (Int.tdiv ((2 ^ 232 - 1) / 9) 4) = -4099276460824344804 ∧
    (2 ^ 232 - 1 : Int) < 300 * ((2 ^ 232 - 1) / 9) ∧
    (okOf (adjustDifficulty (exampleState 0) (exampleBlock 2 nineTarget))).map
      (fun s1 => s1.lastTarget) = some zeroTarget ∧
    bigOfBytes zeroTarget = 0 ∧
    (okOf (adjustDifficulty (exampleState 0) (exampleBlock 2 nineTarget))).map
      (fun s1 => panicOf (Difficulty s1)) = some (some GoPanic.bigDivisionByZero) ∧
    (okOf (adjustDifficulty (exampleState 0) (exampleBlock 2 nineTarget))).map
      (fun s1 => panicOf (NextDifficulty s1 5)) = some (some GoPanic.bigDivisionByZero) := by
  decide

/-- C20. When `Verify` accepts a block only if its height is the tip's height
plus one, then in every state reachable from a genesis-only header list
(genesis height 0) by `AddBlock` calls the header list is non-empty and
`headers[i].Height == i` for every i. Hence for every block `Verify` accepts
there whose height is a multiple of 10, the index `Height - 10` satisfies
`0 <= index < len(headers)` on the list `AddBlock` has extended with the
block's header; and, the height being an `int64`, the Go subtraction does not
wrap, line 396 reads a header, the elapsed time is computed, and `AddBlock`
does not panic with an index out of range. -/
theorem lookback_index_in_range (verify : Blockchain → Block → Bool)
    (sanitize : Bytes → GoString) (s : Blockchain) (hgate : HeightGate verify)
    (hreach : Reachable verify sanitize s) :
    s.headers ≠ [] ∧
    (∀ (i : Nat) (h : BlockHeader), s.headers[i]? = some h → h.Height = (i : Int)) ∧
    (∀ block : Block, verify s block = true → Int.tmod block.Header.Height 10 = 0 →
      0 ≤ block.Header.Height - 10 ∧
      block.Header.Height - 10 < ((s.headers ++ [block.Header]).length : Int) ∧
      (block.Header.Height < 2 ^ 63 →
        wrap64 (block.Header.Height - 10) = block.Header.Height - 10 ∧
        (∃ h10, (s.headers ++ [block.Header])[(wrap64 (block.Header.Height - 10)).toNat]?
            = some h10 ∧
          elapsedTime (s.headers ++ [block.Header]) block.Header
            = .ok (wrap64 (block.Header.Timestamp - h10.Timestamp))) ∧
        panicOf (AddBlock verify sanitize s block) ≠ some GoPanic.indexOutOfRange)) := by
  obtain ⟨hne, hinv⟩ := reachable_heights verify sanitize hgate s hreach
  refine ⟨hne, hinv, ?_⟩
  intro block hv h10
  obtain ⟨tip, htip⟩ : ∃ tip, s.headers.getLast? = some tip := by
    cases hl : s.headers.getLast? with
    | none => rw [List.getLast?_eq_none_iff] at hl; exact absurd hl hne
    | some t => exact ⟨t, rfl⟩
  have hg := hgate s block tip htip hv
  have htipH : tip.Height = ((s.headers.length - 1 : Nat) : Int) := by
    apply hinv
    rw [← htip, List.getLast?_eq_getElem?]
  have hpos : 0 < s.headers.length := List.length_pos.mpr hne
  have hH : block.Header.Height = (s.headers.length : Int) := by
    rw [hg, htipH]; omega
  have hge : 10 ≤ block.Header.Height := by
    have hm := Int.tmod_add_tdiv block.Header.Height 10
    rw [h10] at hm
    omega
  have hlen : ((s.headers ++ [block.Header]).length : Int) = block.Header.Height + 1 := by
    rw [List.length_append, hH]; simp
  refine ⟨by omega, by omega, ?_⟩
  intro hfit
  have hw : wrap64 (block.Header.Height - 10) = block.Header.Height - 10 :=
    wrap64_of_range _ (by omega) (by omega)
  have hidx : (wrap64 (block.Header.Height - 10)).toNat < (s.headers ++ [block.Header]).length := by
    rw [hw]
    have : ((block.Header.Height - 10).toNat : Int) = block.Header.Height - 10 :=
      Int.toNat_of_nonneg (by omega)
    omega
  obtain ⟨h10hdr, hget⟩ : ∃ h10hdr,
      (s.headers ++ [block.Header])[(wrap64 (block.Header.Height - 10)).toNat]? = some h10hdr :=
    ⟨_, List.getElem?_eq_getElem hidx⟩
  have het : elapsedTime (s.headers ++ [block.Header]) block.Header
      = .ok (wrap64 (block.Header.Timestamp - h10hdr.Timestamp)) := by
    unfold elapsedTime
    simp only
    rw [if_neg (by rw [hw]; omega), hget]
  refine ⟨hw, ⟨h10hdr, hget, het⟩, ?_⟩
  obtain ⟨f1, -, -, -, -⟩ := UpdateUnspentTxOuts_frame sanitize
    { s with headers := s.headers ++ [block.Header] } block
  simp only at f1
  unfold AddBlock
  rw [if_neg (by simp [hv]), if_pos h10]
  have hp := adjustDifficulty_no_index_panic (RemovePendingTransaction (UpdateUnspentTxOuts
    sanitize { s with headers := s.headers ++ [block.Header] } block) block.Transactions) block
    (wrap64 (block.Header.Timestamp - h10hdr.Timestamp))
    (by simp only [RemovePendingTransaction]; rw [f1]; exact het)
  cases ha : adjustDifficulty (RemovePendingTransaction (UpdateUnspentTxOuts sanitize
      { s with headers := s.headers ++ [block.Header] } block) block.Transactions) block with
  | error e =>
    rw [ha] at hp
    simpa [panicOf] using hp
  | ok s4 => simp [panicOf]

/-- C20, worked instance: the ten-block chain is reachable under `linkVerify`,
which accepts the block of height 10. -/
theorem lookback_index_in_range_witness :
    HeightGate linkVerify ∧ Reachable linkVerify hexSanitize steadyState ∧
    linkVerify steadyState (steadyBlock 10) = true ∧
    Int.tmod (steadyBlock 10).Header.Height 10 = 0 ∧
    (steadyState.headers ≠ [] ∧
    (∀ (i : Nat) (h : BlockHeader), steadyState.headers[i]? = some h → h.Height = (i : Int)) ∧
    (∀ block : Block, linkVerify steadyState block = true →
      Int.tmod block.Header.Height 10 = 0 →
      0 ≤ block.Header.Height - 10 ∧
      block.Header.Height - 10 < ((steadyState.headers ++ [block.Header]).length : Int) ∧
      (block.Header.Height < 2 ^ 63 →
        wrap64 (block.Header.Height - 10) = block.Header.Height - 10 ∧
        (∃ h10, (steadyState.headers ++ [block.Header])[
            (wrap64 (block.Header.Height - 10)).toNat]? = some h10 ∧
          elapsedTime (steadyState.headers ++ [block.Header]) block.Header
            = .ok (wrap64 (block.Header.Timestamp - h10.Timestamp))) ∧
        panicOf (AddBlock linkVerify hexSanitize steadyState block)
          ≠ some GoPanic.indexOutOfRange))) :=
  ⟨HeightGate_linkVerify, steadyState_reachable, by decide, by decide,
    lookback_index_in_range linkVerify hexSanitize steadyState HeightGate_linkVerify
      steadyState_reachable⟩

end Batwa
